import Mathlib

/-!
Verification model of a lock-free skip list (`src/skiplist/mod.rs`,
`src/skiplist/node.rs`, `src/skiplist/tagged.rs`).

The embedding is sequential: one thread runs the operations, so every atomic
load observes the value written by the previous step of the same execution.
Pointers are node ids (indices into an explicit heap list); the head sentinel
is a separate tower of `HEIGHT` tagged pointers.  Machine `usize` arithmetic
is `Nat` with explicit reduction modulo `2 ^ 64` where overflow matters.
Loops whose bounds come from a heap walk take an explicit fuel parameter and
return an error when fuel runs out; out-of-bounds level indexing (which the
source performs through `get_unchecked`, i.e. undefined behaviour) is a
distinguished error outcome of the interpreter.
-/

namespace Skiplist

/-- Modulus of a 64-bit `usize`. -/
def USIZE : Nat := 2 ^ 64

/-- `HEIGHT_BITS` from `skiplist/mod.rs`. -/
def HEIGHT_BITS : Nat := 5

/-- `HEIGHT = 1 << HEIGHT_BITS`. -/
def HEIGHT : Nat := 2 ^ HEIGHT_BITS

/-- `HEIGHT_MASK = (1 << (HEIGHT_BITS + 1)) - 1`. -/
def HEIGHT_MASK : Nat := 2 ^ (HEIGHT_BITS + 1) - 1

/-- A `MaybeTagged` level link (`tagged.rs`): a pointer (node id, `none` for
null) together with the low-bit tag carried in the word. -/
structure TL where
  ptr : Option Nat
  tag : Nat
deriving Repr, DecidableEq

/-- A zeroed level link, as produced by `Node::alloc`. -/
def TL.null : TL := ⟨none, 0⟩

/-- A skip-list node (`node.rs`).  The packed `height_and_removed` word is
modelled by its three fields `height`, `removed` and `refs`; `levels` is the
trailing tower of `height` tagged links. -/
structure Node (K V : Type) where
  key : K
  val : V
  height : Nat
  removed : Bool
  refs : Nat
  levels : List TL
deriving DecidableEq

/-- `Node::alloc` followed by the key/value writes of `Node::new`:
`hdr = height` (so `refs = 0`, `removed = false`) and `height` zeroed links. -/
def Node.mk0 (key : K) (val : V) (height : Nat) : Node K V :=
  { key, val, height, removed := false, refs := 0,
    levels := List.replicate height TL.null }

/-- The whole list: heap of nodes (ids are indices, allocation appends), the
head tower, and `ListState { len, max_height, seed }`.  `retired` records ids
handed to the reclamation domain (freeing is deferred, so the heap entry is
kept). -/
structure SkipState (K V : Type) where
  nodes : List (Node K V)
  headLevels : List TL
  len : Nat
  maxHeight : Nat
  seed : Nat
  retired : List Nat
deriving DecidableEq

/-- `SkipList::new` with the initial PRNG seed supplied by the (out of scope)
random source. -/
def newList (K V : Type) (seed : Nat) : SkipState K V :=
  { nodes := [], headLevels := List.replicate HEIGHT TL.null,
    len := 0, maxHeight := 1, seed, retired := [] }

variable {K V : Type}

/-- Dereference a node id. -/
def SkipState.node? (st : SkipState K V) (i : Nat) : Option (Node K V) :=
  st.nodes.get? i

/-- Overwrite the node stored at id `i`. -/
def SkipState.setNode (st : SkipState K V) (i : Nat) (n : Node K V) :
    SkipState K V :=
  { st with nodes := st.nodes.set i n }

/-- A traversal position: `none` is the head sentinel, `some i` a node id. -/
abbrev Ref := Option Nat

/-- The tower of a position. -/
def SkipState.levelsOf (st : SkipState K V) (r : Ref) : List TL :=
  match r with
  | none => st.headLevels
  | some i =>
    match st.node? i with
    | some n => n.levels
    | none => []

/-- Load the level-`lv` link of position `r`; `none` models the out-of-bounds
`get_unchecked` access. -/
def SkipState.loadLevel (st : SkipState K V) (r : Ref) (lv : Nat) : Option TL :=
  (st.levelsOf r).get? lv

/-- Store into the level-`lv` link of position `r`. -/
def SkipState.storeLevel (st : SkipState K V) (r : Ref) (lv : Nat) (tl : TL) :
    SkipState K V :=
  match r with
  | none => { st with headLevels := st.headLevels.set lv tl }
  | some i =>
    match st.node? i with
    | some n => st.setNode i { n with levels := n.levels.set lv tl }
    | none => st

/-- `Node::height` of the node at id `i` (0 for a dangling id). -/
def SkipState.heightOf (st : SkipState K V) (i : Nat) : Nat :=
  match st.node? i with
  | some n => n.height
  | none => 0

/-- `Node::removed` of the node at id `i`. -/
def SkipState.removedOf (st : SkipState K V) (i : Nat) : Bool :=
  match st.node? i with
  | some n => n.removed
  | none => false

/-- `Node::refs` of the node at id `i`. -/
def SkipState.refsOf (st : SkipState K V) (i : Nat) : Nat :=
  match st.node? i with
  | some n => n.refs
  | none => 0

/-- The key/value pair read through an `Entry` handle for node `i`. -/
def SkipState.entryOf (st : SkipState K V) (i : Nat) : Option (K × V) :=
  (st.node? i).map fun n => (n.key, n.val)

/-- Interpreter failure outcomes.  `oob` models an out-of-bounds
`get_unchecked` level access (undefined behaviour in the source), `panicked`
a source panic, `invalid` a dangling-id dereference, `fuel` an exhausted
fuel bound. -/
inductive Err where
  | oob
  | fuel
  | panicked
  | invalid
deriving Repr, DecidableEq

/-! ### Header operations (`node.rs`) -/

/-- `Node::set_removed` via `set_har_with`: fails (returns `false`) exactly
when the removed bit is already set, otherwise sets it. -/
def setRemoved (st : SkipState K V) (i : Nat) : Bool × SkipState K V :=
  match st.node? i with
  | none => (false, st)
  | some n =>
    if n.removed then (false, st)
    else (true, st.setNode i { n with removed := true })

/-- `Node::add_ref`: unconditional increment. -/
def addRef (st : SkipState K V) (i : Nat) : SkipState K V :=
  match st.node? i with
  | none => st
  | some n => st.setNode i { n with refs := n.refs + 1 }

/-- `Node::try_add_ref`: fails when the count is currently zero. -/
def tryAddRef (st : SkipState K V) (i : Nat) : Bool × SkipState K V :=
  match st.node? i with
  | none => (false, st)
  | some n =>
    if n.refs = 0 then (false, st)
    else (true, st.setNode i { n with refs := n.refs + 1 })

/-- `Node::sub_ref`: decrement, returning the new count.  A decrement from
zero underflows in the source (`usize` wrap); the returned count is then the
wrapped value, never zero. -/
def subRefNode (st : SkipState K V) (i : Nat) : Nat × SkipState K V :=
  match st.node? i with
  | none => (0, st)
  | some n =>
    (if n.refs = 0 then USIZE - 1 else n.refs - 1,
     st.setNode i { n with refs := n.refs - 1 })

/-- One `compare_exchange_tag(0, tag)` per level, from `height - 1` down to
`0` (`Node::tag_levels`); aborts with `false` on the first level whose tag is
not the expected `0`. -/
def tagLevelsGo (i : Nat) (tag : Nat) :
    SkipState K V → List Nat → Bool × SkipState K V
  | st, [] => (true, st)
  | st, lv :: rest =>
    match st.loadLevel (some i) lv with
    | none => (false, st)
    | some tl =>
      if tl.tag = 0 then
        tagLevelsGo i tag (st.storeLevel (some i) lv { tl with tag := tag }) rest
      else (false, st)

/-- `Node::tag_levels`. -/
def tagLevels (st : SkipState K V) (i : Nat) (tag : Nat) :
    Bool × SkipState K V :=
  tagLevelsGo i tag st ((List.range (st.heightOf i)).reverse)

/-- `Node::try_remove_and_tag`: `set_removed` then `tag_levels(1)`; any
failure propagates without undoing the earlier step. -/
def tryRemoveAndTag (st : SkipState K V) (i : Nat) : Bool × SkipState K V :=
  match setRemoved st i with
  | (false, st1) => (false, st1)
  | (true, st1) =>
    match tagLevels st1 i 1 with
    | (false, st2) => (false, st2)
    | (true, st2) => (true, st2)

/-! ### Random height (`SkipList::gen_height`) -/

/-- The three xorshift steps on the 64-bit seed. -/
def xorshift (s0 : Nat) : Nat :=
  let s1 := (s0 ^^^ (s0 <<< 13)) % USIZE
  let s2 := s1 ^^^ (s1 >>> 17)
  (s2 ^^^ (s2 <<< 5)) % USIZE

/-- Count the factors of two of a positive number (fuelled). -/
def tzGo : Nat → Nat → Nat
  | 0, _ => 0
  | f + 1, s => if s % 2 = 1 then 0 else tzGo f (s / 2) + 1

/-- `usize::trailing_zeros`: 64 on zero. -/
def trailingZeros (s : Nat) : Nat :=
  if s = 0 then 64 else tzGo 64 s

/-- The clamp loop of `gen_height`:
`while height >= 4 && head.levels[height - 2].load_ptr().is_null()`
decrement `height`.  (An index beyond the head tower cannot arise because
`height ≤ HEIGHT`; a missing entry stops the loop.) -/
def clampHeight (L : List TL) : Nat → Nat
  | 0 => 0
  | 1 => 1
  | 2 => 2
  | 3 => 3
  | h + 4 =>
    match L.get? (h + 2) with
    | some tl =>
      if tl.ptr = none then clampHeight L (h + 3) else h + 4
    | none => h + 4

/-- `SkipList::gen_height`: xorshift the seed, take
`min(HEIGHT, trailing_zeros + 1)`, clamp down against the head tower, and
raise `max_height` if exceeded. -/
def genHeight (st : SkipState K V) : Nat × SkipState K V :=
  let seed := xorshift st.seed
  let st := { st with seed := seed }
  let height0 := min HEIGHT (trailingZeros seed + 1)
  let height := clampHeight st.headLevels height0
  let st :=
    if st.maxHeight < height then { st with maxHeight := height } else st
  (height, st)

/-! ### Length -/

/-- `SkipList::len`, including the guard of its `match`: any counter value
below `isize::MAX as usize` yields 0, otherwise the raw counter. -/
def lenFn (st : SkipState K V) : Nat :=
  if st.len < 2 ^ 63 - 1 then 0 else st.len

/-- `SkipList::is_empty`: raw counter below one. -/
def isEmpty (st : SkipState K V) : Bool :=
  st.len < 1

/-! ### Reference-count retirement (`SkipList::sub_ref`) -/

/-- The list-level `sub_ref` wrapper: decrement; when the count reaches zero
hand the allocation to the reclamation domain (`add_to_incin`) and give the
reference up (`none`). -/
def subRefRetire (st : SkipState K V) (i : Nat) :
    Option Nat × SkipState K V :=
  let p := subRefNode st i
  if p.1 = 0 then (none, { p.2 with retired := p.2.retired ++ [i] })
  else (some i, p.2)

/-! ### Search (`SkipList::find`) and helping (`SkipList::unlink_level`) -/

/-- Result of `find`: the `prev` tower (length `HEIGHT`) and the optional
target node. -/
structure SearchRes where
  prev : List Ref
  target : Option Nat
deriving Repr, DecidableEq

/-- `SkipList::unlink_level`: CAS `prev.levels[level]` from `(curr, 0)` to
`(next, 0)`; on success `sub_ref` the unlinked node and return `some next`,
on CAS failure return `none` (the source's `Err(())`). -/
def unlinkLevel (st : SkipState K V) (prevR : Ref) (curr : Nat)
    (next : Option Nat) (level : Nat) :
    Except Err (Option (Option Nat) × SkipState K V) :=
  match st.loadLevel prevR level with
  | none => .error .oob
  | some tl =>
    if tl = ⟨some curr, 0⟩ then
      let st := st.storeLevel prevR level ⟨next, 0⟩
      let p := subRefRetire st curr
      .ok (some next, p.2)
    else
      .ok (none, st)

/-- Outcome of the tag-helping loop inside `find`: either the outer search
must restart (a helping CAS failed) or the resolved `next` is available. -/
inductive HelpOut (K V : Type) where
  | restart (st : SkipState K V)
  | done (next : Option Nat) (st : SkipState K V)

/-- The state carried by a helping-loop outcome. -/
def HelpOut.state : HelpOut K V → SkipState K V
  | .restart st => st
  | .done _ st => st

/-- The helping loop of `find`: skip `next` while its own link at `checkIdx`
is tagged, unlinking it at `unlinkIdx` (in the descent both indices are
`level - 1`; in the closest-key epilogue the source passes the underflowed
`level - 1` with `level = 0`). -/
def skipTagged (checkIdx unlinkIdx : Nat) :
    Nat → SkipState K V → Ref → Option Nat → Except Err (HelpOut K V)
  | 0, _, _, _ => .error .fuel
  | fuel + 1, st, curr, next =>
    match next with
    | none => .ok (.done none st)
    | some n =>
      match st.loadLevel (some n) checkIdx with
      | none => .error .oob
      | some tl =>
        if tl.tag = 0 then .ok (.done (some n) st)
        else
          match st.loadLevel (some n) checkIdx with
          | none => .error .oob
          | some tl2 =>
            match unlinkLevel st curr n tl2.ptr unlinkIdx with
            | .error e => .error e
            | .ok (none, st) => .ok (.restart st)
            | .ok (some n2, st) => skipTagged checkIdx unlinkIdx fuel st curr n2

/-- Outcome of one descent attempt. -/
inductive FindOut (K V : Type) where
  | restart (prev : List Ref) (st : SkipState K V)
  | finished (res : SearchRes) (st : SkipState K V)

/-- The state carried by a descent outcome. -/
def FindOut.state : FindOut K V → SkipState K V
  | .restart _ st => st
  | .finished _ st => st

/-- The descent of `find`, from the current `level` down to the final answer.
At `level = 0` the `search_closest` epilogue re-walks the level-0 links
(helping with the underflowed index `level - 1 = USIZE - 1`), while the exact
variant inspects `prev[0].levels[0]` for a key-equal, unremoved node. -/
def findGo [LinearOrder K] (key : K) (searchClosest : Bool) :
    Nat → SkipState K V → Nat → Ref → List Ref → Except Err (FindOut K V)
  | 0, _, _, _, _ => .error .fuel
  | fuel + 1, st, level, curr, prev =>
    if level = 0 then
      if searchClosest then
        match st.loadLevel curr 0 with
        | none => .error .oob
        | some tl0 =>
          match skipTagged 0 (USIZE - 1) fuel st curr tl0.ptr with
          | .error e => .error e
          | .ok (.restart st) => .ok (.restart prev st)
          | .ok (.done next st) => .ok (.finished ⟨prev, next⟩ st)
      else
        match prev.get? 0 with
        | none => .error .oob
        | some p0 =>
          match st.loadLevel p0 0 with
          | none => .error .oob
          | some tl =>
            match tl.ptr with
            | none => .ok (.finished ⟨prev, none⟩ st)
            | some nid =>
              match st.node? nid with
              | none => .error .invalid
              | some n =>
                if n.key = key ∧ n.removed = false then
                  .ok (.finished ⟨prev, some nid⟩ st)
                else
                  .ok (.finished ⟨prev, none⟩ st)
    else
      match st.loadLevel curr (level - 1) with
      | none => .error .oob
      | some tl =>
        match skipTagged (level - 1) (level - 1) fuel st curr tl.ptr with
        | .error e => .error e
        | .ok (.restart st) => .ok (.restart prev st)
        | .ok (.done next st) =>
          match next with
          | some n =>
            match st.node? n with
            | none => .error .invalid
            | some nd =>
              if nd.key < key then
                findGo key searchClosest fuel st level (some n)
                  (prev.set (level - 1) curr)
              else
                findGo key searchClosest fuel st (level - 1) curr
                  (prev.set (level - 1) curr)
          | none =>
            findGo key searchClosest fuel st (level - 1) curr
              (prev.set (level - 1) curr)

/-- The start level of a search attempt:
`level := max_height; while level > 1 && head.levels[level - 1] is null,
level -= 1`.  (`max_height ≤ HEIGHT` keeps the index in bounds.) -/
def startLevel (L : List TL) : Nat → Nat
  | 0 => 0
  | 1 => 1
  | l + 2 =>
    match L.get? (l + 1) with
    | some tl =>
      if tl.ptr = none then startLevel L (l + 1) else l + 2
    | none => l + 2

/-- The outer `'_search` loop of `SkipList::find`: each attempt descends from
the computed start level; a helping CAS failure restarts the attempt,
reusing the `prev` array. -/
def find [LinearOrder K] (key : K) (searchClosest : Bool) :
    Nat → Nat → SkipState K V → List Ref →
    Except Err (SearchRes × SkipState K V)
  | 0, _, _, _ => .error .fuel
  | restarts + 1, stepFuel, st, prev =>
    let level := startLevel st.headLevels st.maxHeight
    match findGo key searchClosest stepFuel st level none prev with
    | .error e => .error e
    | .ok (.restart prev st) => find key searchClosest restarts stepFuel st prev
    | .ok (.finished res st) => .ok (res, st)

/-- `SkipList::find` with the freshly head-initialised `prev` array. -/
def findE [LinearOrder K] (key : K) (searchClosest : Bool)
    (rf sf : Nat) (st : SkipState K V) :
    Except Err (SearchRes × SkipState K V) :=
  find key searchClosest rf sf st (List.replicate HEIGHT (none : Ref))

/-! ### Physical unlink (`SkipList::unlink`) -/

/-- Tail of `unlink` after the level loop: `len.fetch_sub(1)` (wrapping) and
`try_clear()` (deferred reclamation; freeing is a no-op on the model heap). -/
def unlinkFinish (st : SkipState K V) : SkipState K V :=
  { st with len := (st.len + (USIZE - 1)) % USIZE }

/-- The level loop of `unlink` over levels `height - 1` down to `0`: CAS
`prev[i].levels[i]` from `(node, 0)` to node's own next; a CAS failure
returns `Err(i + 1)` (modelled `some (i + 1)`), a refcount hitting zero
retires the node and breaks. -/
def unlinkGo (nodeId : Nat) (prev : List Ref) :
    SkipState K V → List Nat → Except Err (Option Nat × SkipState K V)
  | st, [] => .ok (none, unlinkFinish st)
  | st, i :: rest =>
    match st.loadLevel (some nodeId) i with
    | none => .error .oob
    | some tl =>
      match prev.get? i with
      | none => .error .oob
      | some prevR =>
        match st.loadLevel prevR i with
        | none => .error .oob
        | some tlp =>
          if tlp = ⟨some nodeId, 0⟩ then
            let st := st.storeLevel prevR i ⟨tl.ptr, 0⟩
            match subRefRetire st nodeId with
            | (none, st) => .ok (none, unlinkFinish st)
            | (some _, st) => unlinkGo nodeId prev st rest
          else
            .ok (some (i + 1), st)

/-- `SkipList::unlink` (the head-pointer panic guard cannot fire: node ids
are never the head). -/
def unlink (st : SkipState K V) (nodeId : Nat) (height : Nat)
    (prev : List Ref) : Except Err (Option Nat × SkipState K V) :=
  unlinkGo nodeId prev st ((List.range height).reverse)

/-! ### Remove (`SkipList::remove`) -/

/-- The tail of `SkipList::remove` after a successful `set_removed`, with
`height` the value of `target.height()` read before tagging:
`tag_levels(1)` (panic on failure), `unlink`, then one more `find` to help
when the unlink came back partial; the removed entry is returned. -/
def removeFinish [LinearOrder K] (rf sf : Nat) (st : SkipState K V)
    (t height : Nat) (prev : List Ref) (key : K) :
    Except Err (Option (K × V) × SkipState K V) :=
  match tagLevels st t 1 with
  | (false, _) => .error .panicked
  | (true, st) =>
    match unlink st t height prev with
    | .error e => .error e
    | .ok (some _, st) =>
      match findE key false rf sf st with
      | .error e => .error e
      | .ok (_, st) => .ok (st.entryOf t, st)
    | .ok (none, st) => .ok (st.entryOf t, st)

/-- `SkipList::remove`: exact search, `set_removed` (early `None` if lost),
then the tagging/unlinking tail. -/
def removeE [LinearOrder K] (rf sf : Nat) (st : SkipState K V) (key : K) :
    Except Err (Option (K × V) × SkipState K V) :=
  match findE key false rf sf st with
  | .error e => .error e
  | .ok (res, st) =>
    match res.target with
    | none => .ok (none, st)
    | some t =>
      match setRemoved st t with
      | (false, st) => .ok (none, st)
      | (true, st) => removeFinish rf sf st t (st.heightOf t) res.prev key

/-! ### Linking (`SkipList::link_nodes`) and insert -/

/-- The epilogue of `link_nodes`: if the new node was removed while being
linked, run one exact `find` to help unlink the missed levels. -/
def linkNodesFinish [LinearOrder K] (rf sf : Nat) (newId : Nat)
    (st : SkipState K V) : Except Err (Option Nat × SkipState K V) :=
  if st.removedOf newId then
    match st.node? newId with
    | none => .error .invalid
    | some n =>
      match findE n.key false rf sf st with
      | .error e => .error e
      | .ok (_, st) => .ok (none, st)
  else .ok (none, st)

/-- Signal produced by one `link_nodes` level iteration. -/
inductive LinkStep (K V : Type) where
  | cont (st : SkipState K V)
  | brk (st : SkipState K V)
  | retry (lv : Nat) (st : SkipState K V)
  | fail (e : Err)

/-- The two CASes plus reference bookkeeping of one `link_nodes` level:
CAS the loaded successor into `new.levels[i]` (expected tag 0), take a
reference (`add_ref` at the base level, `try_add_ref` above, breaking when
the node was already retired), then CAS the new node into
`prev.levels[i]`; a failed CAS gives back the reference and signals
`Err(i)`. -/
def linkNodesStep (newId : Nat) (i : Nat) (prevR : Ref) (tlp tln : TL)
    (st : SkipState K V) : LinkStep K V :=
  if tln.tag = 0 then
    let st := st.storeLevel (some newId) i ⟨tlp.ptr, 0⟩
    match (if i = 0 then (true, addRef st newId) else tryAddRef st newId) with
    | (false, st) => .brk st
    | (true, st) =>
      match st.loadLevel prevR i with
      | none => .fail .oob
      | some tlp2 =>
        if tlp2 = ⟨tlp.ptr, 0⟩ then
          .cont (st.storeLevel prevR i ⟨some newId, 0⟩)
        else .retry i (subRefNode st newId).2
  else .retry i st

/-- The level loop of `link_nodes` from level `i` up to the new node's
height: stop when the new node is removed or the loaded successor's key is
not greater than the new key, otherwise run the level step; each CAS
failure is `Err(i)` (modelled `some i`). -/
def linkNodes [LinearOrder K] (rf sf : Nat) (newId : Nat) :
    Nat → SkipState K V → List Ref → Nat →
    Except Err (Option Nat × SkipState K V)
  | 0, _, _, _ => .error .fuel
  | fuel + 1, st, prev, i =>
    if i < st.heightOf newId then
      match prev.get? i, st.node? newId with
      | none, _ => .error .oob
      | _, none => .error .invalid
      | some prevR, some nnew =>
        match st.loadLevel prevR i with
        | none => .error .oob
        | some tlp =>
          match st.loadLevel (some newId) i with
          | none => .error .oob
          | some tln =>
            if nnew.removed then linkNodesFinish rf sf newId st
            else
              match tlp.ptr with
              | some nid =>
                match st.node? nid with
                | none => .error .invalid
                | some nxt =>
                  if nxt.key ≤ nnew.key ∧ nnew.removed = false then
                    linkNodesFinish rf sf newId st
                  else
                    match linkNodesStep newId i prevR tlp tln st with
                    | .cont st => linkNodes rf sf newId fuel st prev (i + 1)
                    | .brk st => linkNodesFinish rf sf newId st
                    | .retry lv st => .ok (some lv, st)
                    | .fail e => .error e
              | none =>
                match linkNodesStep newId i prevR tlp tln st with
                | .cont st => linkNodes rf sf newId fuel st prev (i + 1)
                | .brk st => linkNodesFinish rf sf newId st
                | .retry lv st => .ok (some lv, st)
                | .fail e => .error e
    else linkNodesFinish rf sf newId st

/-- The replace loop at the top of `insert`: while the exact search has a
target, `try_remove_and_tag` it; on success remember it as the previous
occupant, `unlink` it and search again, otherwise leave the loop with the
target consumed. -/
def insertReplaceLoop [LinearOrder K] (rf sf : Nat) (key : K) :
    Nat → SkipState K V → SearchRes → Option Nat →
    Except Err (SearchRes × Option Nat × SkipState K V)
  | 0, _, _, _ => .error .fuel
  | fuel + 1, st, ip, existing =>
    match ip.target with
    | none => .ok (ip, existing, st)
    | some t =>
      match tryRemoveAndTag st t with
      | (true, st) =>
        match unlink st t (st.heightOf t) ip.prev with
        | .error e => .error e
        | .ok (_, st) =>
          match findE key false rf sf st with
          | .error e => .error e
          | .ok (ip2, st) => insertReplaceLoop rf sf key fuel st ip2 (some t)
      | (false, st) => .ok ({ ip with target := none }, existing, st)

/-- The inner helping loop of `insert` after a link failure: like the
replace loop, but stops when the search reaches the new node itself. -/
def insertHelpLoop [LinearOrder K] (rf sf : Nat) (key : K) (newId : Nat) :
    Nat → SkipState K V → SearchRes → Option Nat →
    Except Err (SearchRes × Option Nat × SkipState K V)
  | 0, _, _, _ => .error .fuel
  | fuel + 1, st, search, existing =>
    match search.target with
    | none => .ok (search, existing, st)
    | some t =>
      if t = newId then .ok ({ search with target := none }, existing, st)
      else
        match tryRemoveAndTag st t with
        | (true, st) =>
          match unlink st t (st.heightOf t) search.prev with
          | .error e => .error e
          | .ok (_, st) =>
            match findE key false rf sf st with
            | .error e => .error e
            | .ok (s2, st) => insertHelpLoop rf sf key newId fuel st s2 (some t)
        | (false, st) => .ok ({ search with target := none }, existing, st)

/-- The link retry loop of `insert`: attempt `link_nodes`; on `Err(starting)`
re-search, help-remove equal-keyed nodes, and resume from the failed level. -/
def insertLinkLoop [LinearOrder K] (rf sf : Nat) (key : K) (newId : Nat) :
    Nat → SkipState K V → List Ref → Nat → Option Nat →
    Except Err (Option Nat × SkipState K V)
  | 0, _, _, _, _ => .error .fuel
  | fuel + 1, st, prev, startH, existing =>
    match linkNodes rf sf newId sf st prev startH with
    | .error e => .error e
    | .ok (none, st) => .ok (existing, st)
    | .ok (some starting, st) =>
      match findE key false rf sf st with
      | .error e => .error e
      | .ok (search, st) =>
        match insertHelpLoop rf sf key newId sf st search existing with
        | .error e => .error e
        | .ok (search, existing, st) =>
          insertLinkLoop rf sf key newId fuel st search.prev starting existing

/-- `SkipList::insert`: exact search, replace loop, allocate the new node
with a random height, bump `len`, link, and return the replaced entry. -/
def insertE [LinearOrder K] (rf sf : Nat) (st : SkipState K V)
    (key : K) (val : V) :
    Except Err (Option (K × V) × SkipState K V) :=
  match findE key false rf sf st with
  | .error e => .error e
  | .ok (ip, st) =>
    match insertReplaceLoop rf sf key sf st ip none with
    | .error e => .error e
    | .ok (ip, existing, st) =>
      let prev := ip.prev
      let p := genHeight st
      let st := p.2
      let newId := st.nodes.length
      let st := { st with nodes := st.nodes ++ [Node.mk0 key val p.1] }
      let st := { st with len := (st.len + 1) % USIZE }
      match insertLinkLoop rf sf key newId sf st prev 0 existing with
      | .error e => .error e
      | .ok (existing, st) => .ok (existing.bind st.entryOf, st)

/-! ### Entry removal (`Entry::remove`) and traversal -/

/-- `Entry::remove`: `set_removed` (returning `None` when already removed),
`tag_levels(1)` (whose failure is a panic via `expect`), then one exact
`find` to help unlink; the entry itself is returned.  Note this path never
touches the `len` counter. -/
def entryRemove [LinearOrder K] (rf sf : Nat) (st : SkipState K V) (i : Nat) :
    Except Err (Option Nat × SkipState K V) :=
  match setRemoved st i with
  | (false, st) => .ok (none, st)
  | (true, st) =>
    match tagLevels st i 1 with
    | (false, _) => .error .panicked
    | (true, st) =>
      match st.node? i with
      | none => .error .invalid
      | some n =>
        match findE n.key false rf sf st with
        | .error e => .error e
        | .ok (_, st) => .ok (some i, st)

/-- The skipping loop of `next_node`: while the successor's own level-0 link
is tagged, `unlink_level` it at level 0; a CAS failure falls back to a
closest-key search on the stale entry's key (impossible for the head, whose
key is never initialised). -/
def nextNodeLoop [LinearOrder K] (rf sf : Nat) (node : Ref) :
    Nat → SkipState K V → Nat → Except Err (Option Nat × SkipState K V)
  | 0, _, _ => .error .fuel
  | fuel + 1, st, nid =>
    match st.loadLevel (some nid) 0 with
    | none => .error .oob
    | some tl =>
      if tl.tag = 1 then
        match st.loadLevel (some nid) 0 with
        | none => .error .oob
        | some tl2 =>
          match unlinkLevel st node nid tl2.ptr 0 with
          | .error e => .error e
          | .ok (some next2, st) =>
            match next2 with
            | none => .ok (none, st)
            | some n2 => nextNodeLoop rf sf node fuel st n2
          | .ok (none, st) =>
            match node with
            | none => .error .invalid
            | some onId =>
              match st.node? onId with
              | none => .error .invalid
              | some onN =>
                match findE onN.key true rf sf st with
                | .error e => .error e
                | .ok (res, st) =>
                  match res.target with
                  | none => .ok (none, st)
                  | some n2 => nextNodeLoop rf sf node fuel st n2
      else .ok (some nid, st)

/-- `SkipList::next_node`: if the entry's own level-0 link is tagged the
entry is stale and a closest-key search answers; otherwise follow the
level-0 link, skipping tagged successors. -/
def nextNode [LinearOrder K] (rf sf : Nat) (st : SkipState K V) (node : Ref) :
    Except Err (Option Nat × SkipState K V) :=
  match st.loadLevel node 0 with
  | none => .error .oob
  | some tl =>
    if tl.tag = 1 then
      match node with
      | none => .error .invalid
      | some nid =>
        match st.node? nid with
        | none => .error .invalid
        | some n =>
          match findE n.key true rf sf st with
          | .error e => .error e
          | .ok (res, st) => .ok (res.target, st)
    else
      match tl.ptr with
      | none => .ok (none, st)
      | some nid => nextNodeLoop rf sf node sf st nid

/-- `SkipList::get_first`: `None` when `is_empty`, else the head's
`next_node`. -/
def getFirst [LinearOrder K] (rf sf : Nat) (st : SkipState K V) :
    Except Err (Option Nat × SkipState K V) :=
  if isEmpty st then .ok (none, st)
  else nextNode rf sf st none

/-- `SkipList::pop_first`: `get_first` then `Entry::remove`. -/
def popFirst [LinearOrder K] (rf sf : Nat) (st : SkipState K V) :
    Except Err (Option Nat × SkipState K V) :=
  match getFirst rf sf st with
  | .error e => .error e
  | .ok (none, st) => .ok (none, st)
  | .ok (some i, st) => entryRemove rf sf st i

/-- The borrowing iterator (`iter::Iter`): start at `get_first`, repeatedly
`next_node`, collecting the visited entries. -/
def iterGo [LinearOrder K] (rf sf : Nat) :
    Nat → SkipState K V → Option Nat → List (K × V) →
    Except Err (List (K × V) × SkipState K V)
  | 0, _, _, _ => .error .fuel
  | fuel + 1, st, cur, acc =>
    match cur with
    | none => .ok (acc.reverse, st)
    | some i =>
      match st.entryOf i with
      | none => .error .invalid
      | some kv =>
        match nextNode rf sf st (some i) with
        | .error e => .error e
        | .ok (nxt, st) => iterGo rf sf fuel st nxt (kv :: acc)

/-- Collect the whole borrowing iteration. -/
def iterList [LinearOrder K] (rf sf fuel : Nat) (st : SkipState K V) :
    Except Err (List (K × V) × SkipState K V) :=
  match getFirst rf sf st with
  | .error e => .error e
  | .ok (cur, st) => iterGo rf sf fuel st cur []

/-! ### Consuming iteration (`iter::IntoIter`) -/

/-- `IntoIter::from_list`: capture the head's level-0 pointer, then null the
head levels visited by `levels.pointers.iter_mut()` — the declared array
type is `[MaybeTagged<_>; 1]`, so exactly index 0 is nulled. -/
def intoIterFromList (st : SkipState K V) : Option Nat × SkipState K V :=
  match st.headLevels.get? 0 with
  | none => (none, st)
  | some tl => (tl.ptr, st.storeLevel none 0 ⟨none, 0⟩)

/-- The `IntoIter` walk: yield `(key, val)` of each node on the captured
level-0 chain, deallocate it (recorded in yield order), and follow the
level-0 pointer. -/
def intoIterGo :
    Nat → SkipState K V → Option Nat → List (K × V) → List Nat →
    Except Err (List (K × V) × List Nat × SkipState K V)
  | 0, _, _, _, _ => .error .fuel
  | fuel + 1, st, cur, acc, freed =>
    match cur with
    | none => .ok (acc.reverse, freed.reverse, st)
    | some i =>
      match st.node? i with
      | none => .error .invalid
      | some n =>
        match n.levels.get? 0 with
        | none => .error .oob
        | some tl =>
          intoIterGo fuel st tl.ptr ((n.key, n.val) :: acc) (i :: freed)

/-- The full consuming iteration: detach, then walk to the end. -/
def intoIterAll (fuel : Nat) (st : SkipState K V) :
    Except Err (List (K × V) × List Nat × SkipState K V) :=
  let p := intoIterFromList st
  intoIterGo fuel p.2 p.1 [] []

/-! ### Observation helpers (not part of the source API) -/

/-- The level-`lv` chain of node ids reachable from the head, cut off by
fuel; used to state invariants about the reachable structure. -/
def chainGo (st : SkipState K V) (lv : Nat) : Nat → Ref → List Nat
  | 0, _ => []
  | fuel + 1, r =>
    match st.loadLevel r lv with
    | none => []
    | some tl =>
      match tl.ptr with
      | none => []
      | some j => j :: chainGo st lv fuel (some j)

/-- The level-`lv` chain from the head with heap-size fuel. -/
def chain (st : SkipState K V) (lv : Nat) : List Nat :=
  chainGo st lv (st.nodes.length + 1) none

/-- The keys along the level-`lv` chain. -/
def chainKeys (st : SkipState K V) (lv : Nat) : List (Option K) :=
  (chain st lv).map fun i => (st.node? i).map (·.key)

/-- The number of live (unremoved) nodes on the level-0 chain. -/
def liveCount (st : SkipState K V) : Nat :=
  ((chain st 0).filter fun i => st.removedOf i = false).length

/-- The level-`lv` link pointer of a position, `none` when the access is out
of bounds, `some p` the pointer value (`p = none` being null). -/
def succPtr (st : SkipState K V) (r : Ref) (lv : Nat) : Option (Option Nat) :=
  (st.loadLevel r lv).map (·.ptr)

/-- Key comparison lifted to node ids (false on dangling ids). -/
def keyLtB [LinearOrder K] (st : SkipState K V) (a b : Nat) : Bool :=
  match st.node? a, st.node? b with
  | some na, some nb => decide (na.key < nb.key)
  | _, _ => false

/-- Does `xs` list exactly the nodes linked at level `lv` starting from
position `r` (ending in a null link)? -/
def isChainB (st : SkipState K V) (lv : Nat) : Ref → List Nat → Bool
  | r, [] => decide (succPtr st r lv = some none)
  | r, j :: js =>
    decide (succPtr st r lv = some (some j)) && isChainB st lv (some j) js

/-- Does `xs` list exactly the nodes linked at level `lv` starting from the
pointer value `p` (ending in a null link)? -/
def isPtrChainB (st : SkipState K V) (lv : Nat) : Option Nat → List Nat → Bool
  | p, [] => decide (p = none)
  | p, j :: js =>
    decide (p = some j) &&
      (match st.loadLevel (some j) lv with
       | none => false
       | some tl => isPtrChainB st lv tl.ptr js)

/-- The target that claim C2 states `find(key, false)` must produce given the
final `prev[0]`: the level-0 successor of `prev[0]` exactly when it exists,
carries an equal key and is not flagged removed. -/
def exactTarget [LinearOrder K] (st : SkipState K V) (p0 : Ref) (k : K) :
    Option Nat :=
  match st.loadLevel p0 0 with
  | none => none
  | some tl =>
    match tl.ptr with
    | none => none
    | some nid =>
      match st.node? nid with
      | none => none
      | some n => if n.key = k ∧ n.removed = false then some nid else none

/-- The clamp loop exactly as claim C7 words it: repeatedly decrement `h`
while the Head's level at index `h - 2` is null — with no `h ≥ 4` guard
(stopping at `h = 1` only to stay inside the claimed result range). -/
def clampHeightClaimed (headLevels : List TL) : Nat → Nat
  | 0 => 0
  | 1 => 1
  | h + 2 =>
    match headLevels.get? h with
    | some tl =>
      if tl.ptr = none then clampHeightClaimed headLevels (h + 1) else h + 2
    | none => h + 2

/-- `gen_height` as claim C7 describes it (same xorshift and candidate, but
the unguarded clamp loop). -/
def genHeightClaimed (st : SkipState K V) : Nat × SkipState K V :=
  let seed := xorshift st.seed
  let st := { st with seed := seed }
  let height :=
    clampHeightClaimed st.headLevels (min HEIGHT (trailingZeros seed + 1))
  let st :=
    if st.maxHeight < height then { st with maxHeight := height } else st
  (height, st)

/-- The clamp loop as the amended claim C7 words it: decrement `h` while
`h ≥ 4` and the Head's level at index `h - 2` is null (written as a fuelled
while-loop). -/
def clampWhile (headLevels : List TL) : Nat → Nat → Nat
  | 0, h => h
  | f + 1, h =>
    if 4 ≤ h then
      match headLevels.get? (h - 2) with
      | some tl =>
        if tl.ptr = none then clampWhile headLevels f (h - 1) else h
      | none => h
    else h

/-- `gen_height` as the amended claim C7 describes it. -/
def genHeightAmended (st : SkipState K V) : Nat × SkipState K V :=
  let seed := xorshift st.seed
  let st := { st with seed := seed }
  let candidate := min HEIGHT (trailingZeros seed + 1)
  let height := clampWhile st.headLevels candidate candidate
  let st :=
    if st.maxHeight < height then { st with maxHeight := height } else st
  (height, st)

/-- The non-level data of a node (everything except tower links and the
reference count); searches must preserve it. -/
def Node.skel (n : Node K V) : K × V × Nat × Bool :=
  (n.key, n.val, n.height, n.removed)

/-- The heap skeletons coincide: same ids, and each node has the same key,
value, height and removed flag (levels and reference counts may differ). -/
def SkelEq (st st' : SkipState K V) : Prop :=
  ∀ i, (st'.node? i).map Node.skel = (st.node? i).map Node.skel

/-- No node link anywhere carries a nonzero tag (quiescence: no unlink is in
progress). -/
def NoTags (st : SkipState K V) : Prop :=
  ∀ i lv tl, st.loadLevel (some i) lv = some tl → tl.tag = 0

/-- Decidable companion of `NoTags`. -/
def noTagsB (st : SkipState K V) : Bool :=
  st.nodes.all fun n => n.levels.all fun tl => tl.tag == 0

/-- The ids of live (unremoved) nodes holding key `k`. -/
def liveK [LinearOrder K] (st : SkipState K V) (k : K) : List Nat :=
  (List.range st.nodes.length).filter fun i =>
    match st.node? i with
    | some n => decide (n.key = k) && !n.removed
    | none => false

/-- At most one live node holds key `k` (the replacement invariant). -/
def UniqueLiveK (st : SkipState K V) (k : K) : Prop :=
  ∀ t1 t2 n1 n2, st.node? t1 = some n1 → st.node? t2 = some n2 →
    n1.key = k → n2.key = k → n1.removed = false → n2.removed = false →
    t1 = t2

/-- Every node holding key `k` is flagged removed. -/
def AllKRemoved (st : SkipState K V) (k : K) : Prop :=
  ∀ i n, st.node? i = some n → n.key = k → n.removed = true

/-- Following level-`lv` links from position `r` visits exactly the ids in
the list and then reads the pointer value `q` (every link along the way is
an in-bounds cell). -/
def segNext (xs : List Nat) (q : Option Nat) : Option Nat :=
  match xs with
  | [] => q
  | j :: _ => some j

inductive ChainSeg (st : SkipState K V) (lv : Nat) :
    Ref → List Nat → Option Nat → Prop where
  | nil (r : Ref) (q : Option Nat) : succPtr st r lv = some q →
      ChainSeg st lv r [] q
  | cons (r : Ref) (j : Nat) (js : List Nat) (q : Option Nat) :
      succPtr st r lv = some (some j) → ChainSeg st lv (some j) js q →
      ChainSeg st lv r (j :: js) q

/-- The quiescent well-formedness relation: `gl lv` abstracts the level-`lv`
chain from the head.  It packages the spec's structural invariants: chains
are finite and null-terminated, strictly key-sorted, towers are contiguous
(a node linked anywhere is linked at every lower level), every chain node is
live (unremoved) and untagged, reachability is bounded by `max_height`, and
reference counts equal the number of linked levels (the tower height). -/
structure Inv [LinearOrder K] (st : SkipState K V) (gl : Nat → List Nat) :
    Prop where
  headLen : st.headLevels.length = HEIGHT
  maxLe : st.maxHeight ≤ HEIGHT
  maxPos : 1 ≤ st.maxHeight
  emptyHi : ∀ lv, st.maxHeight ≤ lv → gl lv = []
  chains : ∀ lv, lv < HEIGHT → ChainSeg st lv none (gl lv) none
  sorted : ∀ lv, (gl lv).Pairwise (fun a b => keyLtB st a b = true)
  sub : ∀ lv, List.Sublist (gl (lv + 1)) (gl lv)
  memProps : ∀ lv, ∀ i ∈ gl lv, ∃ n, st.node? i = some n ∧
      n.removed = false ∧ lv < n.height
  nodeStruct : ∀ i n, st.node? i = some n →
      n.levels.length = n.height ∧ 1 ≤ n.height ∧ n.height ≤ HEIGHT
  tags0 : ∀ i, i ∈ gl 0 → ∀ lv tl, st.loadLevel (some i) lv = some tl →
      tl.tag = 0
  headTags0 : ∀ lv tl, st.loadLevel none lv = some tl → tl.tag = 0
  full : ∀ i, i ∈ gl 0 → ∀ lv n, st.node? i = some n → lv < n.height →
      i ∈ gl lv
  refsEq : ∀ i n, i ∈ gl 0 → st.node? i = some n → n.refs = n.height
  liveInChain : ∀ i n, st.node? i = some n → n.removed = false → i ∈ gl 0

/-- What `find`'s descent guarantees about one final `prev` entry: the entry
is the head or a live chain node with key below the search key, and its own
link at that level is untagged and leads to null or to a chain node with key
at least the search key. -/
def PrevProp [LinearOrder K] (st : SkipState K V) (gl : Nat → List Nat)
    (k : K) (lv : Nat) (p : Ref) : Prop :=
  (p = none ∨ ∃ i ni, p = some i ∧ st.node? i = some ni ∧ i ∈ gl lv ∧
    ni.key < k) ∧
  (∃ tl, st.loadLevel p lv = some tl ∧ tl.tag = 0 ∧
    (tl.ptr = none ∨ ∃ j nj, tl.ptr = some j ∧ st.node? j = some nj ∧
      j ∈ gl lv ∧ k ≤ nj.key))

/-- The postcondition of a completed exact search on a quiescent state. -/
def SRProps [LinearOrder K] (st : SkipState K V) (gl : Nat → List Nat)
    (k : K) (res : SearchRes) : Prop :=
  res.prev.length = HEIGHT ∧
  ∀ lv p, lv < HEIGHT → res.prev.get? lv = some p → PrevProp st gl k lv p

/-- The per-node data that neither searches, unlinks nor links ever change:
key, value and height. -/
def Node.core (n : Node K V) : K × V × Nat :=
  (n.key, n.val, n.height)

/-- Is the key of node `j` strictly below `k`? -/
def belowK [LinearOrder K] (st : SkipState K V) (k : K) (j : Nat) : Bool :=
  match st.node? j with
  | some n => decide (n.key < k)
  | none => false

/-- Is the key of node `j` strictly above `k`? -/
def aboveK [LinearOrder K] (st : SkipState K V) (k : K) (j : Nat) : Bool :=
  match st.node? j with
  | some n => decide (k < n.key)
  | none => false

/-- The abstract chains after a successful `link_nodes` of node `newId`
(height `hN`, key `k`): on every level below `hN` the new id sits between
the keys below `k` and the keys above `k`. -/
def glInsert [LinearOrder K] (st : SkipState K V) (gl : Nat → List Nat)
    (k : K) (newId hN : Nat) : Nat → List Nat := fun lv =>
  if lv < hN then
    (gl lv).filter (belowK st k) ++ newId :: (gl lv).filter (aboveK st k)
  else gl lv

/-- The intermediate states of `SkipList::unlink` on node `t` (key `k`,
height `h`): the levels `h - 1` down to `m` have been unlinked, levels below
`m` still hold `t`, the node is flagged removed with `m` references left,
and everything else of the quiescent structure is untouched. -/
structure MidInv [LinearOrder K] (st : SkipState K V) (gl : Nat → List Nat)
    (k : K) (t : Nat) (prev : List Ref) (m : Nat)
    (stm : SkipState K V) : Prop where
  core : ∀ j, (stm.node? j).map Node.core = (st.node? j).map Node.core
  lens : ∀ j, (stm.node? j).map (fun n => n.levels.length) =
      (st.node? j).map (fun n => n.levels.length)
  refsO : ∀ j, j ≠ t → (stm.node? j).map (fun n => n.refs) =
      (st.node? j).map (fun n => n.refs)
  remO : ∀ j, j ≠ t → (stm.node? j).map (fun n => n.removed) =
      (st.node? j).map (fun n => n.removed)
  tRec : ∃ nt, stm.node? t = some nt ∧ nt.removed = true ∧ nt.refs = m
  headLen : stm.headLevels.length = HEIGHT
  maxH : stm.maxHeight = st.maxHeight
  chainsLo : ∀ lv, lv < m → lv < HEIGHT → ChainSeg stm lv none (gl lv) none
  chainsHi : ∀ lv, m ≤ lv → lv < HEIGHT →
      ChainSeg stm lv none ((gl lv).erase t) none
  prevP : ∀ i p, i < m → prev.get? i = some p → PrevProp stm gl k i p
  tags : ∀ j, j ∈ gl 0 → j ≠ t → ∀ lv tl,
      stm.loadLevel (some j) lv = some tl → tl.tag = 0
  headTags : ∀ lv tl, stm.loadLevel none lv = some tl → tl.tag = 0
  nlen : stm.nodes.length = st.nodes.length

/-- The intermediate states of `link_nodes` on the fresh node `newId` (key
`k`, height `hN`), relative to the entry state `st`: levels below `i` carry
the new node, levels from `i` up are untouched, the new node holds `i`
references and all of its links are untagged. -/
structure LinkMid [LinearOrder K] (st : SkipState K V) (gl : Nat → List Nat)
    (k : K) (newId hN : Nat) (prev : List Ref) (i : Nat)
    (sti : SkipState K V) : Prop where
  core : ∀ j, (sti.node? j).map Node.core = (st.node? j).map Node.core
  lens : ∀ j, (sti.node? j).map (fun n => n.levels.length) =
      (st.node? j).map (fun n => n.levels.length)
  refsO : ∀ j, j ≠ newId → (sti.node? j).map (fun n => n.refs) =
      (st.node? j).map (fun n => n.refs)
  remE : ∀ j, (sti.node? j).map (fun n => n.removed) =
      (st.node? j).map (fun n => n.removed)
  refsN : ∃ n, sti.node? newId = some n ∧ n.refs = i
  headLen : sti.headLevels.length = HEIGHT
  maxH : sti.maxHeight = st.maxHeight
  chainsLo : ∀ lv, lv < i → lv < HEIGHT →
      ChainSeg sti lv none (glInsert st gl k newId hN lv) none
  chainsHi : ∀ lv, i ≤ lv → lv < HEIGHT → ChainSeg sti lv none (gl lv) none
  newHi : ∀ lv, i ≤ lv → lv < hN →
      sti.loadLevel (some newId) lv = some TL.null
  tagsN : ∀ lv tl, sti.loadLevel (some newId) lv = some tl → tl.tag = 0
  prevP : ∀ lv p, i ≤ lv → lv < HEIGHT → prev.get? lv = some p →
      PrevProp sti gl k lv p
  tags : ∀ j, j ∈ gl 0 → ∀ lv tl, sti.loadLevel (some j) lv = some tl →
      tl.tag = 0
  headTags : ∀ lv tl, sti.loadLevel none lv = some tl → tl.tag = 0

/-- States reachable from a fresh list by sequences of completed inserts and
removes. -/
inductive Reach [LinearOrder K] : SkipState K V → Prop where
  | init (seed : Nat) : Reach (newList K V seed)
  | insertStep {st : SkipState K V} {rf sf : Nat} {k : K} {v : V}
      {r : Option (K × V)} {st' : SkipState K V} :
      Reach st → insertE rf sf st k v = .ok (r, st') → Reach st'
  | removeStep {st : SkipState K V} {rf sf : Nat} {k : K}
      {r : Option (K × V)} {st' : SkipState K V} :
      Reach st → removeE rf sf st k = .ok (r, st') → Reach st'

/-- Frame relation of a search: the counter, the list metadata, the heap
domain and every node's key, value, height and removed flag are unchanged
(only level links, reference counts and the retirement list may move). -/
def FrameEq (st st' : SkipState K V) : Prop :=
  st'.len = st.len ∧ st'.maxHeight = st.maxHeight ∧ st'.seed = st.seed ∧
  st'.headLevels.length = st.headLevels.length ∧
  st'.nodes.length = st.nodes.length ∧
  ∀ i, (st'.node? i).map Node.skel = (st.node? i).map Node.skel

/-! ### Concrete witness states -/

/-- A fresh list over `Nat` keys and values with seed 1. -/
def st0 : SkipState Nat Nat := newList Nat Nat 1

/-- Run one insert with generous fuel, keeping the state. -/
def doInsert (st : SkipState Nat Nat) (k v : Nat) : SkipState Nat Nat :=
  match insertE 50 500 st k v with
  | .ok (_, st) => st
  | .error _ => st

/-- The list after inserting keys 3, 4, 5 (values 30, 40, 50). -/
def st345 : SkipState Nat Nat := doInsert (doInsert (doInsert st0 3 30) 4 40) 5 50

/-- `st345` with the removed bit of the key-4 node (id 1) set by hand, as in
the source's `test_find_removed`. -/
def st345marked : SkipState Nat Nat := (setRemoved st345 1).2

/-- The list after inserting keys 3, 5, 1, 4, 2 in that order. -/
def st35142 : SkipState Nat Nat :=
  doInsert (doInsert (doInsert (doInsert (doInsert st0 3 3) 5 5) 1 1) 4 4) 2 2

/-- A singleton list holding the pair (7, 70). -/
def stSingle : SkipState Nat Nat := doInsert st0 7 70

/-- A node whose only level is pre-tagged by another remover: `set_removed`
will succeed on it and `tag_levels(1)` will fail. -/
def stTagged : SkipState Nat Nat :=
  { nodes := [{ key := 5, val := 50, height := 1, removed := false,
                refs := 1, levels := [⟨none, 1⟩] }],
    headLevels := (List.replicate HEIGHT TL.null).set 0 ⟨some 0, 0⟩,
    len := 1, maxHeight := 1, seed := 1, retired := [] }

/-- A list whose level-0 chain holds a node whose own level-0 link is tagged
1 (as left mid-removal by a concurrent remover): the configuration claim C6
quantifies over. -/
def stHelping : SkipState Nat Nat :=
  { nodes := [{ key := 5, val := 50, height := 1, removed := true,
                refs := 1, levels := [⟨none, 1⟩] }],
    headLevels := (List.replicate HEIGHT TL.null).set 0 ⟨some 0, 0⟩,
    len := 1, maxHeight := 1, seed := 1, retired := [] }

/-- The state left by `Entry::remove` on the singleton list's entry. -/
def stSingleRemoved : SkipState Nat Nat :=
  match entryRemove 50 500 stSingle 0 with
  | .ok (_, st) => st
  | .error _ => stSingle

/-- The result of the exact search for key 4 on `st345`. -/
def findRes345 : SearchRes × SkipState Nat Nat :=
  match findE (4 : Nat) false 50 500 st345 with
  | .ok p => p
  | .error _ => (⟨[], none⟩, st345)

/-- The list after inserting keys 3 and 5 only. -/
def st35 : SkipState Nat Nat := doInsert (doInsert st0 3 30) 5 50

/-- Result and state of the first `remove(4)` on `st345`. -/
def rm4 : Option (Nat × Nat) × SkipState Nat Nat :=
  match removeE 50 500 st345 4 with
  | .ok p => p
  | .error _ => (none, st345)

/-- Result and state of a second `remove(4)` after `rm4`. -/
def rm4b : Option (Nat × Nat) × SkipState Nat Nat :=
  match removeE 50 500 rm4.2 4 with
  | .ok p => p
  | .error _ => (none, rm4.2)

/-- Result and state of `remove(4)` on the list without key 4. -/
def rm35 : Option (Nat × Nat) × SkipState Nat Nat :=
  match removeE 50 500 st35 4 with
  | .ok p => p
  | .error _ => (none, st35)

/-- A quiescent singleton list whose node has height 2 (hence the head links
to it at levels 0 and 1). -/
def stTall : SkipState Nat Nat :=
  { nodes := [{ key := 1, val := 10, height := 2, removed := false,
                refs := 2, levels := [TL.null, TL.null] }],
    headLevels := ((List.replicate HEIGHT TL.null).set 0 ⟨some 0, 0⟩).set 1
        ⟨some 0, 0⟩,
    len := 1, maxHeight := 2, seed := 1, retired := [] }

/-- One full insert with generous fuel, keeping the returned handle and the
state (the error fallback is never taken on these small lists). -/
def insStep (st : SkipState Nat Nat) (k v : Nat) :
    Option (Nat × Nat) × SkipState Nat Nat :=
  match insertE 50 500 st k v with
  | .ok p => p
  | .error _ => (none, st)

/-- The singleton list holding (7, 70), built by one insert. -/
def stIns7 : SkipState Nat Nat := (insStep st0 7 70).2

/-- The result of the replacing insert of (7, 71) on `stIns7`. -/
def insRes71 : Option (Nat × Nat) × SkipState Nat Nat := insStep stIns7 7 71

/-! ## Frame lemmas: searches leave the counter and the node skeletons alone -/

theorem node?_setNode (st : SkipState K V) (i : Nat) (n : Node K V) (j : Nat) :
    (st.setNode i n).node? j =
      if i = j then (fun _ => n) <$> st.node? j else st.node? j := by
  simp only [SkipState.setNode, SkipState.node?]
  exact List.get?_set n st.nodes

theorem frameEq_refl (st : SkipState K V) : FrameEq st st :=
  ⟨rfl, rfl, rfl, rfl, rfl, fun _ => rfl⟩

theorem frameEq_trans {a b c : SkipState K V}
    (h1 : FrameEq a b) (h2 : FrameEq b c) : FrameEq a c := by
  obtain ⟨l1, m1, s1, h1', n1, f1⟩ := h1
  obtain ⟨l2, m2, s2, h2', n2, f2⟩ := h2
  exact ⟨l2.trans l1, m2.trans m1, s2.trans s1, h2'.trans h1', n2.trans n1,
    fun i => (f2 i).trans (f1 i)⟩

theorem frameEq_setNode (st : SkipState K V) (i : Nat) {n n' : Node K V}
    (h : st.node? i = some n) (hs : n'.skel = n.skel) :
    FrameEq st (st.setNode i n') := by
  refine ⟨rfl, rfl, rfl, rfl, by simp [SkipState.setNode], fun j => ?_⟩
  rw [node?_setNode]
  by_cases hij : i = j
  · subst hij
    rw [h]
    simp [hs]
  · simp [hij]

theorem frameEq_storeLevel (st : SkipState K V) (r : Ref) (lv : Nat)
    (tl : TL) : FrameEq st (st.storeLevel r lv tl) := by
  cases r with
  | none =>
    exact ⟨rfl, rfl, rfl, by simp [SkipState.storeLevel], rfl, fun _ => rfl⟩
  | some i =>
    cases h : st.node? i with
    | none =>
      simp only [SkipState.storeLevel, h]
      exact frameEq_refl st
    | some n =>
      simp only [SkipState.storeLevel, h]
      exact frameEq_setNode st i h rfl

theorem frameEq_retired (st : SkipState K V) (l : List Nat) :
    FrameEq st { st with retired := l } :=
  ⟨rfl, rfl, rfl, rfl, rfl, fun _ => rfl⟩

theorem frameEq_subRefNode (st : SkipState K V) (i : Nat) :
    FrameEq st (subRefNode st i).2 := by
  unfold subRefNode
  cases h : st.node? i with
  | none => exact frameEq_refl st
  | some n => exact frameEq_setNode st i h rfl

theorem frameEq_subRefRetire (st : SkipState K V) (i : Nat) :
    FrameEq st (subRefRetire st i).2 := by
  unfold subRefRetire
  by_cases h : (subRefNode st i).1 = 0
  · simp only [h, if_pos rfl]
    exact frameEq_trans (frameEq_subRefNode st i)
      (frameEq_retired (subRefNode st i).2 _)
  · simp only [if_neg h]
    exact frameEq_subRefNode st i

theorem frameEq_addRef (st : SkipState K V) (i : Nat) :
    FrameEq st (addRef st i) := by
  unfold addRef
  cases h : st.node? i with
  | none => exact frameEq_refl st
  | some n => exact frameEq_setNode st i h rfl

theorem frameEq_tryAddRef (st : SkipState K V) (i : Nat) :
    FrameEq st (tryAddRef st i).2 := by
  unfold tryAddRef
  cases h : st.node? i with
  | none => exact frameEq_refl st
  | some n =>
    by_cases hr : n.refs = 0
    · simp only [hr, if_pos rfl]
      exact frameEq_refl st
    · simp only [if_neg hr]
      exact frameEq_setNode st i h rfl

theorem frameEq_tagLevelsGo (i tag : Nat) (lvs : List Nat) :
    ∀ st : SkipState K V, FrameEq st (tagLevelsGo i tag st lvs).2 := by
  induction lvs with
  | nil => intro st; exact frameEq_refl st
  | cons lv rest ih =>
    intro st
    simp only [tagLevelsGo]
    cases st.loadLevel (some i) lv with
    | none => exact frameEq_refl st
    | some tl =>
      by_cases ht : tl.tag = 0
      · simp only [ht, if_pos rfl]
        exact frameEq_trans (frameEq_storeLevel st (some i) lv _) (ih _)
      · simp only [if_neg ht]
        exact frameEq_refl st

theorem frameEq_tagLevels (st : SkipState K V) (i tag : Nat) :
    FrameEq st (tagLevels st i tag).2 :=
  frameEq_tagLevelsGo i tag _ st

theorem frameEq_unlinkLevel {st : SkipState K V} {prevR : Ref} {curr : Nat}
    {next : Option Nat} {level : Nat} {out : Option (Option Nat)}
    {st' : SkipState K V}
    (h : unlinkLevel st prevR curr next level = .ok (out, st')) :
    FrameEq st st' := by
  unfold unlinkLevel at h
  split at h
  · exact absurd h (by simp)
  · split at h
    · simp only [Except.ok.injEq, Prod.mk.injEq] at h
      obtain ⟨-, h2⟩ := h
      subst h2
      exact frameEq_trans (frameEq_storeLevel st _ level _)
        (frameEq_subRefRetire _ curr)
    · simp only [Except.ok.injEq, Prod.mk.injEq] at h
      obtain ⟨-, h2⟩ := h
      subst h2
      exact frameEq_refl st

theorem frameEq_skipTagged (checkIdx unlinkIdx : Nat) :
    ∀ (fuel : Nat) (st : SkipState K V) (curr : Ref) (next : Option Nat)
      (out : HelpOut K V),
      skipTagged checkIdx unlinkIdx fuel st curr next = .ok out →
      FrameEq st out.state := by
  intro fuel
  induction fuel with
  | zero =>
    intro st curr next out h
    exact absurd h (by simp [skipTagged])
  | succ f ih =>
    intro st curr next out h
    simp only [skipTagged] at h
    split at h
    · cases h
      exact frameEq_refl st
    · split at h
      · exact absurd h (by simp)
      · split at h
        · cases h
          exact frameEq_refl st
        · split at h
          · exact absurd h (by simp)
          · split at h
            · exact absurd h (by simp)
            next st2 hu =>
              cases h
              exact frameEq_unlinkLevel hu
            next n2 st2 hu =>
              exact frameEq_trans (frameEq_unlinkLevel hu) (ih st2 _ _ _ h)

theorem frameEq_findGo [LinearOrder K] (key : K) (sc : Bool) :
    ∀ (fuel : Nat) (st : SkipState K V) (level : Nat) (curr : Ref)
      (prev : List Ref) (out : FindOut K V),
      findGo key sc fuel st level curr prev = .ok out →
      FrameEq st out.state := by
  intro fuel
  induction fuel with
  | zero =>
    intro st level curr prev out h
    exact absurd h (by simp [findGo])
  | succ f ih =>
    intro st level curr prev out h
    simp only [findGo] at h
    split at h
    · -- level = 0
      split at h
      · -- search_closest branch
        split at h
        · exact absurd h (by simp)
        · split at h
          · exact absurd h (by simp)
          next st2 hskip =>
            cases h
            exact frameEq_skipTagged _ _ _ _ _ _ _ hskip
          next nx st2 hskip =>
            cases h
            exact frameEq_skipTagged _ _ _ _ _ _ _ hskip
      · -- exact branch
        split at h
        · exact absurd h (by simp)
        · split at h
          · exact absurd h (by simp)
          · split at h
            · cases h
              exact frameEq_refl st
            · split at h
              · exact absurd h (by simp)
              · split at h
                · cases h
                  exact frameEq_refl st
                · cases h
                  exact frameEq_refl st
    · -- level > 0 stage
      split at h
      · exact absurd h (by simp)
      · split at h
        · exact absurd h (by simp)
        next st2 hskip =>
          cases h
          exact frameEq_skipTagged _ _ _ _ _ _ _ hskip
        next nx st2 hskip =>
          split at h
          · split at h
            · exact absurd h (by simp)
            · split at h
              · exact frameEq_trans
                  (frameEq_skipTagged _ _ _ _ _ _ _ hskip) (ih _ _ _ _ _ h)
              · exact frameEq_trans
                  (frameEq_skipTagged _ _ _ _ _ _ _ hskip) (ih _ _ _ _ _ h)
          · exact frameEq_trans
              (frameEq_skipTagged _ _ _ _ _ _ _ hskip) (ih _ _ _ _ _ h)

theorem frameEq_find [LinearOrder K] (key : K) (sc : Bool) :
    ∀ (rf sf : Nat) (st : SkipState K V) (prev : List Ref) (res : SearchRes)
      (st' : SkipState K V),
      find key sc rf sf st prev = .ok (res, st') → FrameEq st st' := by
  intro rf
  induction rf with
  | zero =>
    intro sf st prev res st' h
    exact absurd h (by simp [find])
  | succ r ih =>
    intro sf st prev res st' h
    rw [find] at h
    split at h
    · exact absurd h (by simp)
    next prev2 st2 hgo =>
      exact frameEq_trans
        (frameEq_findGo key sc _ _ _ _ _ _ hgo) (ih _ _ _ _ _ h)
    next res2 st2 hgo =>
      cases h
      exact frameEq_findGo key sc _ _ _ _ _ _ hgo

theorem frameEq_findE [LinearOrder K] {key : K} {sc : Bool} {rf sf : Nat}
    {st : SkipState K V} {res : SearchRes} {st' : SkipState K V}
    (h : findE key sc rf sf st = .ok (res, st')) : FrameEq st st' :=
  frameEq_find key sc rf sf st _ res st' h

theorem len_setRemoved (st : SkipState K V) (i : Nat) :
    (setRemoved st i).2.len = st.len := by
  unfold setRemoved
  split
  · rfl
  · split
    · rfl
    · rfl

/-- A frame-equal state reports the same removed flags. -/
theorem FrameEq.removedOf_eq {a b : SkipState K V} (h : FrameEq a b)
    (i : Nat) : b.removedOf i = a.removedOf i := by
  have hs := h.2.2.2.2.2 i
  unfold SkipState.removedOf
  cases hb : b.node? i with
  | none =>
    rw [hb] at hs
    cases ha : a.node? i with
    | none => rfl
    | some na => rw [ha] at hs; exact absurd hs (by simp)
  | some nb =>
    rw [hb] at hs
    cases ha : a.node? i with
    | none => rw [ha] at hs; exact absurd hs (by simp)
    | some na =>
      rw [ha] at hs
      have hsk : nb.skel = na.skel := by simpa using hs
      unfold Node.skel at hsk
      exact congrArg (fun q => q.2.2.2) hsk

/-! ## Claim C3: `len()` versus the number of live keys (code bug) -/

/-- Claim C3 fails on the code: after one insert into a fresh list (and
likewise after three), the internal counter equals the number of live keys,
but `len()` reports 0 — the guard in `SkipList::len`'s match is inverted, so
every counter value below `isize::MAX` is reported as 0. -/
theorem c3_len_reports_zero :
    (insertE 50 500 st0 1 10).toOption.map
        (fun p => (lenFn p.2, liveCount p.2, p.2.len)) = some (0, 1, 1) ∧
    (lenFn st345, liveCount st345, st345.len) = (0, 3, 3) := by
  exact ⟨rfl, rfl⟩

/-! ## Claim C6: helping at the closest-search epilogue is out of bounds -/

/-- Claim C6 fails on the code: in the `search_closest` epilogue of `find`
(`level = 0`), encountering a tagged level-0 successor makes the code call
`unlink_level` with level index `0 - 1`, which wraps to `2^64 - 1` — an
out-of-bounds tower index (an overflow panic in a debug build, undefined
behaviour in release) — so the helping step does not use only in-bounds
indices.  Part 1 exhibits the concrete execution on a list whose level-0
chain holds a node with a tagged level-0 link; part 2 shows no state with a
tower shorter than `2^64 - 1` entries can survive that access. -/
theorem c6_closest_helping_oob :
    findGo (4 : Nat) true 100 stHelping 0 none
        (List.replicate HEIGHT (none : Ref)) =
      (.error .oob : Except Err (FindOut Nat Nat)) ∧
    (∀ (K V : Type) (st : SkipState K V) (prevR : Ref) (curr : Nat)
       (next : Option Nat), (st.levelsOf prevR).length < USIZE - 1 →
       unlinkLevel st prevR curr next (USIZE - 1) = .error .oob) := by
  constructor
  · rfl
  · intro K V st prevR curr next hlen
    unfold unlinkLevel
    have hnone : st.loadLevel prevR (USIZE - 1) = none := by
      unfold SkipState.loadLevel
      exact List.get?_eq_none.mpr (by omega)
    rw [hnone]

/-! ## Claim C7: random height generation (corrected) -/

theorem clampHeight_of_le_three (hl : List TL) (h : Nat) (hle : h ≤ 3) :
    clampHeight hl h = h := by
  interval_cases h <;> rfl

theorem clampHeight_le (hl : List TL) (h : Nat) : clampHeight hl h ≤ h := by
  induction h using clampHeight.induct (L := hl) with
  | case1 => exact Nat.le_refl _
  | case2 => exact Nat.le_refl _
  | case3 => exact Nat.le_refl _
  | case4 => exact Nat.le_refl _
  | case5 h tl hget hnull ih =>
    simp only [clampHeight, hget, if_pos hnull]
    omega
  | case6 h tl hget hnull =>
    simp only [clampHeight, hget, if_neg hnull]
    omega
  | case7 h hget =>
    simp only [clampHeight, hget]
    omega

theorem clampHeight_ge (hl : List TL) (h : Nat) :
    min 3 h ≤ clampHeight hl h := by
  induction h using clampHeight.induct (L := hl) with
  | case1 =>
    have e : clampHeight hl 0 = 0 := rfl
    omega
  | case2 =>
    have e : clampHeight hl 1 = 1 := rfl
    omega
  | case3 =>
    have e : clampHeight hl 2 = 2 := rfl
    omega
  | case4 =>
    have e : clampHeight hl 3 = 3 := rfl
    omega
  | case5 h tl hget hnull ih =>
    simp only [clampHeight, hget, if_pos hnull]
    omega
  | case6 h tl hget hnull =>
    simp only [clampHeight, hget, if_neg hnull]
    omega
  | case7 h hget =>
    simp only [clampHeight, hget]
    omega

theorem clampWhile_eq_clampHeight (hl : List TL) :
    ∀ (fuel h : Nat), h ≤ fuel + 3 → clampWhile hl fuel h = clampHeight hl h := by
  intro fuel
  induction fuel with
  | zero =>
    intro h hle
    rw [clampHeight_of_le_three hl h (by omega)]
    rfl
  | succ f ih =>
    intro h hle
    by_cases h4 : 4 ≤ h
    · obtain ⟨k, rfl⟩ : ∃ k, h = k + 4 := ⟨h - 4, by omega⟩
      have hidx : k + 4 - 2 = k + 2 := by omega
      rw [clampWhile, if_pos h4, hidx]
      cases hget : hl.get? (k + 2) with
      | none => simp only [clampHeight, hget]
      | some tl =>
        by_cases hnull : tl.ptr = none
        · simp only [if_pos hnull]
          have hk3 : k + 4 - 1 = k + 3 := by omega
          rw [hk3, ih (k + 3) (by omega)]
          simp only [clampHeight, hget, if_pos hnull]
        · simp only [if_neg hnull]
          simp only [clampHeight, hget, if_neg hnull]
    · rw [clampWhile, if_neg h4]
      rw [clampHeight_of_le_three hl h (by omega)]

theorem genHeight_unfold (st : SkipState K V) :
    genHeight st =
      (clampHeight st.headLevels
         (min HEIGHT (trailingZeros (xorshift st.seed) + 1)),
       if st.maxHeight <
            clampHeight st.headLevels
              (min HEIGHT (trailingZeros (xorshift st.seed) + 1)) then
         { st with seed := xorshift st.seed,
                   maxHeight := clampHeight st.headLevels
                     (min HEIGHT (trailingZeros (xorshift st.seed) + 1)) }
       else { st with seed := xorshift st.seed }) := rfl

theorem genHeightAmended_unfold (st : SkipState K V) :
    genHeightAmended st =
      (clampWhile st.headLevels
         (min HEIGHT (trailingZeros (xorshift st.seed) + 1))
         (min HEIGHT (trailingZeros (xorshift st.seed) + 1)),
       if st.maxHeight <
            clampWhile st.headLevels
              (min HEIGHT (trailingZeros (xorshift st.seed) + 1))
              (min HEIGHT (trailingZeros (xorshift st.seed) + 1)) then
         { st with seed := xorshift st.seed,
                   maxHeight := clampWhile st.headLevels
                     (min HEIGHT (trailingZeros (xorshift st.seed) + 1))
                     (min HEIGHT (trailingZeros (xorshift st.seed) + 1)) }
       else { st with seed := xorshift st.seed }) := rfl

/-- Claim C7, amended: `gen_height` xorshifts the seed, takes candidate
`min(32, trailing_zeros + 1)`, decrements it while it is at least 4 and the
Head's level at index `height - 2` is null, raises `max_height` to the
result when larger, and returns a height in `[1, 32]`. -/
theorem c7_gen_height_amended :
    ∀ (K V : Type) (st : SkipState K V),
      genHeight st = genHeightAmended st ∧
      1 ≤ (genHeight st).1 ∧ (genHeight st).1 ≤ HEIGHT ∧
      (genHeight st).2.maxHeight = max st.maxHeight (genHeight st).1 ∧
      (genHeight st).2.seed = xorshift st.seed := by
  intro K V st
  have hwhile := clampWhile_eq_clampHeight st.headLevels
    (min HEIGHT (trailingZeros (xorshift st.seed) + 1))
    (min HEIGHT (trailingZeros (xorshift st.seed) + 1)) (by omega)
  have hge := clampHeight_ge st.headLevels
    (min HEIGHT (trailingZeros (xorshift st.seed) + 1))
  have hle := clampHeight_le st.headLevels
    (min HEIGHT (trailingZeros (xorshift st.seed) + 1))
  have hH : (1 : Nat) ≤ HEIGHT := by norm_num [HEIGHT, HEIGHT_BITS]
  have hcandH : min HEIGHT (trailingZeros (xorshift st.seed) + 1) ≤ HEIGHT :=
    Nat.min_le_left _ _
  have hcand1 : 1 ≤ min HEIGHT (trailingZeros (xorshift st.seed) + 1) := by
    omega
  have hfst : (genHeight st).1 =
      clampHeight st.headLevels
        (min HEIGHT (trailingZeros (xorshift st.seed) + 1)) := by
    rw [genHeight_unfold]
  have hsnd : (genHeight st).2 =
      if st.maxHeight <
           clampHeight st.headLevels
             (min HEIGHT (trailingZeros (xorshift st.seed) + 1)) then
        { st with seed := xorshift st.seed,
                  maxHeight := clampHeight st.headLevels
                    (min HEIGHT (trailingZeros (xorshift st.seed) + 1)) }
      else { st with seed := xorshift st.seed } := by
    rw [genHeight_unfold]
  refine ⟨?_, ?_, ?_, ?_, ?_⟩
  · rw [genHeight_unfold, genHeightAmended_unfold, hwhile]
  · rw [hfst]
    omega
  · rw [hfst]
    omega
  · rw [hsnd, hfst]
    by_cases hlt : st.maxHeight <
        clampHeight st.headLevels
          (min HEIGHT (trailingZeros (xorshift st.seed) + 1))
    · rw [if_pos hlt]
      exact (Nat.max_eq_right (Nat.le_of_lt hlt)).symm
    · rw [if_neg hlt]
      exact (Nat.max_eq_left (Nat.le_of_not_lt hlt)).symm
  · rw [hsnd]
    split
    · rfl
    · rfl

/-- Claim C7 as stated is refuted on a fresh list with seed 0: the candidate
height is 32 and every head level is null, so the claimed clamp loop (no
`height ≥ 4` guard) would descend to 1, but the code stops at 3. -/
theorem c7_counterexample :
    (genHeight (newList Nat Nat 0)).1 = 3 ∧
    (genHeightClaimed (newList Nat Nat 0)).1 = 1 := by
  exact ⟨rfl, rfl⟩

/-! ## Claim C8: `try_remove_and_tag` never reverses `set_removed` -/

/-- Claim C8: when `set_removed` succeeds and the subsequent `tag_levels(1)`
fails, `try_remove_and_tag` reports failure with the removed flag still set:
the failure path never clears the removed bit. -/
theorem c8_no_reversal :
    ∀ (K V : Type) (st st1 st2 : SkipState K V) (i : Nat),
      setRemoved st i = (true, st1) → tagLevels st1 i 1 = (false, st2) →
      tryRemoveAndTag st i = (false, st2) ∧ st2.removedOf i = true := by
  intro K V st st1 st2 i hsr htag
  have hrem1 : st1.removedOf i = true := by
    unfold setRemoved at hsr
    split at hsr
    · exact absurd hsr (by simp)
    next n hn =>
      split at hsr
      · exact absurd hsr (by simp)
      · simp only [Prod.mk.injEq] at hsr
        obtain ⟨-, h2⟩ := hsr
        subst h2
        unfold SkipState.removedOf
        rw [node?_setNode]
        simp [hn]
  have hrem2 : st2.removedOf i = true := by
    have hf := frameEq_tagLevels st1 i 1
    rw [htag] at hf
    rw [hf.removedOf_eq i]
    exact hrem1
  constructor
  · simp only [tryRemoveAndTag, hsr, htag]
  · exact hrem2

/-- Witness for C8 at a concrete node whose single level is pre-tagged. -/
theorem c8_no_reversal_witness :
    tryRemoveAndTag stTagged 0 =
      (false, (tagLevels (setRemoved stTagged 0).2 0 1).2) ∧
    (tagLevels (setRemoved stTagged 0).2 0 1).2.removedOf 0 = true :=
  c8_no_reversal Nat Nat stTagged (setRemoved stTagged 0).2
    (tagLevels (setRemoved stTagged 0).2 0 1).2 0 rfl rfl

/-! ## Claim C10: `Entry::remove` leaves the `len` counter alone -/

/-- Claim C10: `Entry::remove` — the building block of `pop_first` and
`pop_last` — never modifies the `len` counter, whatever the state; on the
concrete singleton list, `pop_first()` removes the only node yet the counter
still reads 1 and `is_empty()` is false, whereas `SkipList::remove`
decrements the counter to 0. -/
theorem c10_entry_remove_preserves_len :
    (∀ (K V : Type) (inst : LinearOrder K) (rf sf : Nat)
       (st : SkipState K V) (i : Nat) (r : Option Nat) (st' : SkipState K V),
       entryRemove rf sf st i = .ok (r, st') → st'.len = st.len) ∧
    (popFirst 50 500 stSingle).toOption.map
        (fun p => (p.1, p.2.len, isEmpty p.2)) = some (some 0, 1, false) ∧
    (removeE 50 500 stSingle 7).toOption.map
        (fun p => (p.1.isSome, p.2.len)) = some (true, 0) := by
  refine ⟨?_, rfl, rfl⟩
  intro K V inst rf sf st i r st' h
  unfold entryRemove at h
  split at h
  next st1 hsr =>
    cases h
    have hl := len_setRemoved st i
    rw [hsr] at hl
    exact hl
  next st1 hsr =>
    have h1 : st1.len = st.len := by
      have hl := len_setRemoved st i
      rw [hsr] at hl
      exact hl
    split at h
    · exact absurd h (by simp)
    next st2 htg =>
      have h2 : st2.len = st1.len := by
        have hf := (frameEq_tagLevels st1 i 1).1
        rw [htg] at hf
        exact hf
      split at h
      · exact absurd h (by simp)
      next n hn =>
        split at h
        · exact absurd h (by simp)
        next =>
          rename_i hfind
          cases h
          have h3 := (frameEq_findE hfind).1
          omega

/-- Witness for C10 on the singleton list. -/
theorem c10_witness :
    entryRemove 50 500 stSingle 0 = .ok (some 0, stSingleRemoved) ∧
    stSingleRemoved.len = stSingle.len :=
  ⟨rfl, c10_entry_remove_preserves_len.1 Nat Nat inferInstance 50 500
    stSingle 0 (some 0) stSingleRemoved rfl⟩

/-- Witness for C6: the concrete helping state's head tower (32 entries) is
far shorter than the wrapped index. -/
theorem c6_witness :
    unlinkLevel stHelping none 0 none (USIZE - 1) = .error .oob :=
  c6_closest_helping_oob.2 Nat Nat stHelping none 0 none (by
    have h32 : (stHelping.levelsOf none).length = 32 := rfl
    rw [h32]
    norm_num [USIZE])

/-! ## Claim C2: exact-search postcondition -/

theorem findGo_exact_post [LinearOrder K] (k : K) :
    ∀ (fuel : Nat) (st : SkipState K V) (level : Nat) (curr : Ref)
      (prev : List Ref) (res : SearchRes) (st' : SkipState K V),
      findGo k false fuel st level curr prev = .ok (.finished res st') →
      ∃ p0, res.prev.get? 0 = some p0 ∧ res.target = exactTarget st' p0 k := by
  intro fuel
  induction fuel with
  | zero =>
    intro st level curr prev res st' h
    exact absurd h (by simp [findGo])
  | succ f ih =>
    intro st level curr prev res st' h
    simp only [findGo] at h
    split at h
    · -- level = 0
      split at h
      · -- the search_closest branch is off
        next hcond => exact absurd hcond (by simp)
      · split at h
        · exact absurd h (by simp)
        next p0 hp0 =>
          split at h
          · exact absurd h (by simp)
          next tl htl =>
            split at h
            next hptr =>
              cases h
              refine ⟨p0, hp0, ?_⟩
              simp only [exactTarget, htl, hptr]
            next nid hptr =>
              split at h
              · exact absurd h (by simp)
              next n hn =>
                split at h
                next hkey =>
                  cases h
                  refine ⟨p0, hp0, ?_⟩
                  simp only [exactTarget, htl, hptr, hn, if_pos hkey]
                next hkey =>
                  cases h
                  refine ⟨p0, hp0, ?_⟩
                  simp only [exactTarget, htl, hptr, hn, if_neg hkey]
    · -- level > 0 stage
      split at h
      · exact absurd h (by simp)
      · split at h
        · exact absurd h (by simp)
        next st2 hskip => exact absurd h (by simp)
        next nx st2 hskip =>
          split at h
          · split at h
            · exact absurd h (by simp)
            · split at h
              · exact ih _ _ _ _ _ _ h
              · exact ih _ _ _ _ _ _ h
          · exact ih _ _ _ _ _ _ h

theorem find_exact_post [LinearOrder K] (k : K) :
    ∀ (rf sf : Nat) (st : SkipState K V) (prev : List Ref)
      (res : SearchRes) (st' : SkipState K V),
      find k false rf sf st prev = .ok (res, st') →
      ∃ p0, res.prev.get? 0 = some p0 ∧ res.target = exactTarget st' p0 k := by
  intro rf
  induction rf with
  | zero =>
    intro sf st prev res st' h
    exact absurd h (by simp [find])
  | succ r ih =>
    intro sf st prev res st' h
    rw [find] at h
    split at h
    · exact absurd h (by simp)
    next prev2 st2 hgo =>
      exact ih _ _ _ _ _ h
    next res2 st2 hgo =>
      cases h
      exact findGo_exact_post k _ _ _ _ _ _ _ hgo

/-- Claim C2: for every completed exact search, the target is exactly the
level-0 successor of the final `prev[0]` filtered by key equality and the
removed flag; concretely, after inserting 3, 4, 5 and manually marking the
key-4 node removed, `find(4, false)` has no target and `remove(4)` returns
`None`. -/
theorem c2_find_exact_semantics :
    (∀ (K V : Type) (inst : LinearOrder K) (rf sf : Nat) (st : SkipState K V)
       (k : K) (res : SearchRes) (st' : SkipState K V),
       findE k false rf sf st = .ok (res, st') →
       ∃ p0, res.prev.get? 0 = some p0 ∧ res.target = exactTarget st' p0 k) ∧
    (findE (4 : Nat) false 50 500 st345marked).toOption.map
        (fun p => p.1.target) = some none ∧
    (removeE 50 500 st345marked 4).toOption.map (·.1) = some none := by
  refine ⟨?_, rfl, rfl⟩
  intro K V inst rf sf st k res st' h
  exact find_exact_post k rf sf st _ res st' h

/-- Witness for C2 on the unmarked three-node list. -/
theorem c2_witness :
    ∃ p0, findRes345.1.prev.get? 0 = some p0 ∧
      findRes345.1.target = exactTarget findRes345.2 p0 4 :=
  c2_find_exact_semantics.1 Nat Nat inferInstance 50 500 st345 4
    findRes345.1 findRes345.2 rfl

/-! ## Claim C9: consuming iteration -/

theorem isChainB_isSome {st : SkipState K V} {lv : Nat} {r : Ref}
    {xs : List Nat} (h : isChainB st lv r xs = true) :
    ∃ tl, st.loadLevel r lv = some tl := by
  cases xs with
  | nil =>
    have hs : succPtr st r lv = some none := of_decide_eq_true h
    unfold succPtr at hs
    cases hl : st.loadLevel r lv with
    | none => rw [hl] at hs; exact absurd hs (by simp)
    | some tl => exact ⟨tl, rfl⟩
  | cons j js =>
    rw [isChainB, Bool.and_eq_true] at h
    have hs : succPtr st r lv = some (some j) := of_decide_eq_true h.1
    unfold succPtr at hs
    cases hl : st.loadLevel r lv with
    | none => rw [hl] at hs; exact absurd hs (by simp)
    | some tl => exact ⟨tl, rfl⟩

theorem isChainB_to_ptr {st : SkipState K V} {lv : Nat} :
    ∀ (xs : List Nat) (r : Ref) (tl : TL),
      isChainB st lv r xs = true → st.loadLevel r lv = some tl →
      isPtrChainB st lv tl.ptr xs = true := by
  intro xs
  induction xs with
  | nil =>
    intro r tl h hl
    have hs : succPtr st r lv = some none := of_decide_eq_true h
    unfold succPtr at hs
    rw [hl] at hs
    simp only [Option.map_some'] at hs
    rw [isPtrChainB]
    exact decide_eq_true (Option.some.inj hs)
  | cons j js ih =>
    intro r tl h hl
    rw [isChainB, Bool.and_eq_true] at h
    have hs : succPtr st r lv = some (some j) := of_decide_eq_true h.1
    unfold succPtr at hs
    rw [hl] at hs
    simp only [Option.map_some'] at hs
    have hptr : tl.ptr = some j := Option.some.inj hs
    rw [isPtrChainB, hptr, Bool.and_eq_true]
    refine ⟨decide_eq_true rfl, ?_⟩
    obtain ⟨tl2, hl2⟩ := isChainB_isSome h.2
    rw [hl2]
    exact ih (some j) tl2 h.2 hl2

theorem intoIterGo_cons (st : SkipState K V) (fuel j : Nat) (n : Node K V)
    (tl : TL) (acc : List (K × V)) (freed : List Nat)
    (hn : st.node? j = some n) (hl0 : n.levels.get? 0 = some tl) :
    intoIterGo (fuel + 1) st (some j) acc freed =
      intoIterGo fuel st tl.ptr ((n.key, n.val) :: acc) (j :: freed) := by
  simp only [intoIterGo, hn, hl0]

theorem intoIterGo_spec (st : SkipState K V) :
    ∀ (xs : List Nat) (p : Option Nat) (ps : List (K × V))
      (acc : List (K × V)) (freed : List Nat),
      isPtrChainB st 0 p xs = true →
      xs.map st.entryOf = ps.map some →
      intoIterGo (xs.length + 1) st p acc freed =
        .ok (acc.reverse ++ ps, freed.reverse ++ xs, st) := by
  intro xs
  induction xs with
  | nil =>
    intro p ps acc freed hchain hps
    have hp : p = none := of_decide_eq_true hchain
    have hps' : ps = [] := by
      cases ps with
      | nil => rfl
      | cons a as => exact absurd hps (by simp)
    subst hp hps'
    simp [intoIterGo]
  | cons j js ih =>
    intro p ps acc freed hchain hps
    rw [isPtrChainB, Bool.and_eq_true] at hchain
    obtain ⟨hpj, hrest⟩ := hchain
    have hp : p = some j := of_decide_eq_true hpj
    subst hp
    cases hload : st.loadLevel (some j) 0 with
    | none => rw [hload] at hrest; exact absurd hrest (by simp)
    | some tl =>
      rw [hload] at hrest
      cases hn : st.node? j with
      | none =>
        have : st.loadLevel (some j) 0 = none := by
          simp [SkipState.loadLevel, SkipState.levelsOf, hn]
        rw [this] at hload
        exact absurd hload (by simp)
      | some n =>
        cases ps with
        | nil => exact absurd hps (by simp)
        | cons q qs =>
          simp only [List.map_cons] at hps
          have h1 : st.entryOf j = some q := (List.cons.inj hps).1
          have h2 : js.map st.entryOf = qs.map some := (List.cons.inj hps).2
          have hqval : q = (n.key, n.val) := by
            unfold SkipState.entryOf at h1
            rw [hn] at h1
            simp only [Option.map_some'] at h1
            exact (Option.some.inj h1).symm
          have hl0 : n.levels.get? 0 = some tl := by
            have : st.loadLevel (some j) 0 = n.levels.get? 0 := by
              simp [SkipState.loadLevel, SkipState.levelsOf, hn]
            rw [this] at hload
            exact hload
          have hstep := ih tl.ptr qs ((n.key, n.val) :: acc) (j :: freed)
            hrest h2
          subst hqval
          show intoIterGo (js.length + 1 + 1) st (some j) acc freed = _
          rw [intoIterGo_cons st (js.length + 1) j n tl acc freed hn hl0,
            hstep]
          simp [List.append_assoc]

theorem mem_of_map_entry {st : SkipState K V} :
    ∀ (xs : List Nat) (ps : List (K × V)),
      xs.map st.entryOf = ps.map some →
      ∀ q ∈ ps, ∃ b ∈ xs, st.entryOf b = some q := by
  intro xs
  induction xs with
  | nil =>
    intro ps hps q hq
    cases ps with
    | nil => exact absurd hq (by simp)
    | cons a as => exact absurd hps (by simp)
  | cons j js ih =>
    intro ps hps q hq
    cases ps with
    | nil => exact absurd hq (by simp)
    | cons a as =>
      simp only [List.map_cons] at hps
      have h1 : st.entryOf j = some a := (List.cons.inj hps).1
      have h2 : js.map st.entryOf = as.map some := (List.cons.inj hps).2
      rcases List.mem_cons.mp hq with hqa | hqas
      · exact ⟨j, List.mem_cons_self j js, hqa ▸ h1⟩
      · obtain ⟨b, hb, hbe⟩ := ih as h2 q hqas
        exact ⟨b, List.mem_cons_of_mem j hb, hbe⟩

theorem pairwise_keys_of_map [LinearOrder K] {st : SkipState K V} :
    ∀ (xs : List Nat) (ps : List (K × V)),
      xs.map st.entryOf = ps.map some →
      xs.Pairwise (fun a b => keyLtB st a b = true) →
      (ps.map Prod.fst).Pairwise (· < ·) := by
  intro xs
  induction xs with
  | nil =>
    intro ps hps hsort
    cases ps with
    | nil => simp
    | cons a as => exact absurd hps (by simp)
  | cons j js ih =>
    intro ps hps hsort
    cases ps with
    | nil => exact absurd hps (by simp)
    | cons q qs =>
      simp only [List.map_cons] at hps
      have h1 : st.entryOf j = some q := (List.cons.inj hps).1
      have h2 : js.map st.entryOf = qs.map some := (List.cons.inj hps).2
      rcases List.pairwise_cons.mp hsort with ⟨hhead, htail⟩
      rw [List.map_cons]
      refine List.pairwise_cons.mpr ⟨?_, ih qs h2 htail⟩
      intro y hy
      obtain ⟨p2, hp2, hp2y⟩ := List.mem_map.mp hy
      obtain ⟨b, hb, hbe⟩ := mem_of_map_entry js qs h2 p2 hp2
      have hlt := hhead b hb
      unfold keyLtB at hlt
      cases hnj : st.node? j with
      | none =>
        rw [hnj] at hlt
        exact absurd hlt (by simp)
      | some nj =>
        cases hnb : st.node? b with
        | none =>
          rw [hnj, hnb] at hlt
          exact absurd hlt (by simp)
        | some nb =>
          rw [hnj, hnb] at hlt
          have hklt : nj.key < nb.key := of_decide_eq_true hlt
          have hq : q = (nj.key, nj.val) := by
            unfold SkipState.entryOf at h1
            rw [hnj] at h1
            simp only [Option.map_some'] at h1
            exact (Option.some.inj h1).symm
          have hp2' : p2 = (nb.key, nb.val) := by
            unfold SkipState.entryOf at hbe
            rw [hnb] at hbe
            simp only [Option.map_some'] at hbe
            exact (Option.some.inj hbe).symm
          rw [hq, ← hp2y, hp2']
          exact hklt

theorem nodup_of_pairwise_keys [LinearOrder K] {st : SkipState K V}
    {xs : List Nat} (h : xs.Pairwise (fun a b => keyLtB st a b = true)) :
    xs.Nodup := by
  refine List.Pairwise.imp ?_ h
  intro a b hab
  intro heq
  subst heq
  unfold keyLtB at hab
  cases hn : st.node? a with
  | none => rw [hn] at hab; exact absurd hab (by simp)
  | some n =>
    rw [hn] at hab
    exact absurd (of_decide_eq_true hab) (lt_irrefl n.key)

theorem detach_node? (st : SkipState K V) (i : Nat) :
    ((intoIterFromList st).2).node? i = st.node? i := by
  unfold intoIterFromList
  cases h : st.headLevels.get? 0 with
  | none => rfl
  | some tl =>
    show (st.storeLevel none 0 ⟨none, 0⟩).node? i = st.node? i
    rfl

theorem detach_loadLevel_node (st : SkipState K V) (j lv : Nat) :
    ((intoIterFromList st).2).loadLevel (some j) lv =
      st.loadLevel (some j) lv := by
  unfold SkipState.loadLevel
  simp only [SkipState.levelsOf]
  rw [detach_node?]

theorem detach_isPtrChain (st : SkipState K V) :
    ∀ (xs : List Nat) (p : Option Nat),
      isPtrChainB ((intoIterFromList st).2) 0 p xs = isPtrChainB st 0 p xs := by
  intro xs
  induction xs with
  | nil => intro p; rfl
  | cons j js ih =>
    intro p
    rw [isPtrChainB, isPtrChainB, detach_loadLevel_node]
    cases st.loadLevel (some j) 0 with
    | none => rfl
    | some tl => simp only [ih]

theorem detach_map_entry (st : SkipState K V) (xs : List Nat) :
    xs.map ((intoIterFromList st).2).entryOf = xs.map st.entryOf := by
  refine List.map_congr_left ?_
  intro i _
  unfold SkipState.entryOf
  rw [detach_node?]

/-- Claim C9, amended: `into_iter` nulls the Head's level-0 pointer (the
declared pointer array of `Levels` has static length 1, so the
`iter_mut` in `IntoIter::from_list` visits exactly index 0), then walks the
detached level-0 chain, yielding each live pair exactly once in ascending
key order and freeing each node right after yielding it; the list built by
inserting 3, 5, 1, 4, 2 yields (1,_),(2,_),(3,_),(4,_),(5,_). -/
theorem c9_into_iter_amended :
    (∀ (K V : Type) (inst : LinearOrder K) (st : SkipState K V)
       (xs : List Nat) (ps : List (K × V)),
       isChainB st 0 none xs = true →
       xs.map st.entryOf = ps.map some →
       xs.Pairwise (fun a b => keyLtB st a b = true) →
       intoIterAll (xs.length + 1) st = .ok (ps, xs, (intoIterFromList st).2) ∧
       (ps.map Prod.fst).Pairwise (· < ·) ∧ xs.Nodup ∧
       (intoIterFromList st).2.headLevels.get? 0 = some ⟨none, 0⟩) ∧
    (intoIterAll 100 st35142).toOption.map (fun p => (p.1, p.2.1)) =
      some ([(1, 1), (2, 2), (3, 3), (4, 4), (5, 5)], [2, 4, 0, 3, 1]) := by
  refine ⟨?_, rfl⟩
  intro K V inst st xs ps hchain hps hsort
  obtain ⟨tl0, hl0⟩ := isChainB_isSome hchain
  have hl0' : st.headLevels.get? 0 = some tl0 := hl0
  have hptr := isChainB_to_ptr xs none tl0 hchain hl0
  refine ⟨?_, pairwise_keys_of_map xs ps hps hsort,
    nodup_of_pairwise_keys hsort, ?_⟩
  · have hfst : (intoIterFromList st).1 = tl0.ptr := by
      unfold intoIterFromList
      rw [hl0']
    show intoIterGo (xs.length + 1) (intoIterFromList st).2
      (intoIterFromList st).1 [] [] = _
    rw [hfst]
    have hchain2 : isPtrChainB ((intoIterFromList st).2) 0 tl0.ptr xs = true := by
      rw [detach_isPtrChain]
      exact hptr
    have hmap2 : xs.map ((intoIterFromList st).2).entryOf = ps.map some := by
      rw [detach_map_entry]
      exact hps
    exact intoIterGo_spec _ xs tl0.ptr ps [] [] hchain2 hmap2
  · unfold intoIterFromList
    rw [hl0']
    show (st.storeLevel none 0 ⟨none, 0⟩).headLevels.get? 0 = some ⟨none, 0⟩
    unfold SkipState.storeLevel
    have h0 : 0 < st.headLevels.length := by
      by_contra hlen
      have : st.headLevels.get? 0 = none :=
        List.get?_eq_none.mpr (by omega)
      rw [this] at hl0'
      exact absurd hl0' (by simp)
    show (st.headLevels.set 0 ⟨none, 0⟩).get? 0 = some ⟨none, 0⟩
    rw [List.get?_set_eq]
    cases hg : st.headLevels.get? 0 with
    | none => rw [hg] at hl0'; exact absurd hl0' (by simp)
    | some tl => rfl

/-- Claim C9 as stated is refuted on a quiescent singleton list whose node
has height 2: the consuming iteration completes normally, yet after the
detach the Head's level-1 pointer still holds the node — `from_list` nulls
only level 0 because `Levels.pointers` is declared `[MaybeTagged<_>; 1]`. -/
theorem c9_counterexample :
    (intoIterFromList stTall).2.headLevels.get? 1 = some ⟨some 0, 0⟩ ∧
    intoIterAll 100 stTall = .ok ([(1, 10)], [0], (intoIterFromList stTall).2) := by
  exact ⟨rfl, rfl⟩

/-! ## Claim C5: remove idempotence and removal of absent keys -/

theorem noTags_of_B {st : SkipState K V} (h : noTagsB st = true) :
    NoTags st := by
  intro i lv tl hload
  unfold SkipState.loadLevel at hload
  simp only [SkipState.levelsOf] at hload
  cases hn : st.node? i with
  | none => rw [hn] at hload; exact absurd hload (by simp)
  | some n =>
    rw [hn] at hload
    have hmem : tl ∈ n.levels := List.get?_mem hload
    have hnm : n ∈ st.nodes := List.get?_mem hn
    have h1 := (List.all_eq_true.mp h) n hnm
    have h2 := (List.all_eq_true.mp h1) tl hmem
    exact Nat.beq_eq_true_eq tl.tag 0 ▸ h2

theorem length_le_one_mem {l : List Nat} (h : l.length ≤ 1) {a b : Nat}
    (ha : a ∈ l) (hb : b ∈ l) : a = b := by
  cases l with
  | nil => exact absurd ha (by simp)
  | cons x xs =>
    cases xs with
    | nil =>
      rw [List.mem_singleton] at ha hb
      rw [ha, hb]
    | cons y ys => simp at h

theorem mem_liveK [LinearOrder K] {st : SkipState K V} {k : K} {t : Nat}
    {n : Node K V} (hn : st.node? t = some n) (hk : n.key = k)
    (hr : n.removed = false) : t ∈ liveK st k := by
  unfold liveK
  rw [List.mem_filter]
  constructor
  · rw [List.mem_range]
    have := List.get?_eq_some.mp hn
    exact this.1
  · simp only [hn]
    simp [hk, hr]

theorem uniqueLiveK_of_liveK [LinearOrder K] {st : SkipState K V} {k : K}
    (h : (liveK st k).length ≤ 1) : UniqueLiveK st k := by
  intro t1 t2 n1 n2 h1 h2 hk1 hk2 hr1 hr2
  exact length_le_one_mem h (mem_liveK h1 hk1 hr1) (mem_liveK h2 hk2 hr2)

theorem allKRemoved_of_liveK [LinearOrder K] {st : SkipState K V} {k : K}
    (h : liveK st k = []) : AllKRemoved st k := by
  intro i n hn hk
  cases hx : n.removed with
  | true => rfl
  | false =>
    have hm := mem_liveK hn hk hx
    rw [h] at hm
    exact absurd hm (by simp)

theorem skelEq_of_frameEq {st st' : SkipState K V} (h : FrameEq st st') :
    SkelEq st st' :=
  h.2.2.2.2.2

theorem skelEq_refl (st : SkipState K V) : SkelEq st st := fun _ => rfl

theorem skelEq_trans {a b c : SkipState K V} (h1 : SkelEq a b)
    (h2 : SkelEq b c) : SkelEq a c :=
  fun i => (h2 i).trans (h1 i)

theorem skelEq_node {st st' : SkipState K V} (h : SkelEq st st') {i : Nat}
    {n' : Node K V} (hn' : st'.node? i = some n') :
    ∃ n, st.node? i = some n ∧ n.key = n'.key ∧ n.val = n'.val ∧
      n.height = n'.height ∧ n.removed = n'.removed := by
  have hs := h i
  rw [hn'] at hs
  cases hn : st.node? i with
  | none => rw [hn] at hs; exact absurd hs (by simp)
  | some n =>
    rw [hn] at hs
    have hsk : n'.skel = n.skel := by simpa using hs
    unfold Node.skel at hsk
    refine ⟨n, rfl, ?_, ?_, ?_, ?_⟩
    · exact (congrArg (fun q => q.1) hsk).symm
    · exact (congrArg (fun q => q.2.1) hsk).symm
    · exact (congrArg (fun q => q.2.2.1) hsk).symm
    · exact (congrArg (fun q => q.2.2.2) hsk).symm

theorem skelEq_node_rev {st st' : SkipState K V} (h : SkelEq st st') {i : Nat}
    {n : Node K V} (hn : st.node? i = some n) :
    ∃ n', st'.node? i = some n' ∧ n'.key = n.key ∧ n'.val = n.val ∧
      n'.height = n.height ∧ n'.removed = n.removed := by
  have hs := h i
  rw [hn] at hs
  cases hn' : st'.node? i with
  | none => rw [hn'] at hs; exact absurd hs (by simp)
  | some n' =>
    rw [hn'] at hs
    have hsk : n'.skel = n.skel := by simpa using hs
    unfold Node.skel at hsk
    refine ⟨n', rfl, ?_, ?_, ?_, ?_⟩
    · exact congrArg (fun q => q.1) hsk
    · exact congrArg (fun q => q.2.1) hsk
    · exact congrArg (fun q => q.2.2.1) hsk
    · exact congrArg (fun q => q.2.2.2) hsk

theorem allKRemoved_skel [LinearOrder K] {st st' : SkipState K V} {k : K}
    (h : SkelEq st st') (ha : AllKRemoved st k) : AllKRemoved st' k := by
  intro i n' hn' hk
  obtain ⟨n, hn, hkey, -, -, hrem⟩ := skelEq_node h hn'
  rw [← hrem]
  exact ha i n hn (hkey.trans hk)

theorem uniqueLiveK_skel [LinearOrder K] {st st' : SkipState K V} {k : K}
    (h : SkelEq st st') (hu : UniqueLiveK st k) : UniqueLiveK st' k := by
  intro t1 t2 n1 n2 h1 h2 hk1 hk2 hr1 hr2
  obtain ⟨m1, hm1, hkey1, -, -, hrem1⟩ := skelEq_node h h1
  obtain ⟨m2, hm2, hkey2, -, -, hrem2⟩ := skelEq_node h h2
  exact hu t1 t2 m1 m2 hm1 hm2 (hkey1 ▸ hk1) (hkey2 ▸ hk2)
    (hrem1 ▸ hr1) (hrem2 ▸ hr2)

theorem skipTagged_noTags {st : SkipState K V} (hnt : NoTags st)
    (cI uI : Nat) :
    ∀ (fuel : Nat) (curr : Ref) (p : Option Nat) (out : HelpOut K V),
      skipTagged cI uI fuel st curr p = .ok out → out = .done p st := by
  intro fuel curr p out h
  cases fuel with
  | zero => exact absurd h (by simp [skipTagged])
  | succ f =>
    simp only [skipTagged] at h
    split at h
    · cases h; rfl
    next n =>
      split at h
      · exact absurd h (by simp)
      next tl htl =>
        split at h
        · cases h; rfl
        next hne => exact absurd (hnt n _ tl htl) hne

theorem findGo_noTags [LinearOrder K] {st : SkipState K V} (hnt : NoTags st)
    (k : K) (sc : Bool) :
    ∀ (fuel level : Nat) (curr : Ref) (prev : List Ref) (out : FindOut K V),
      findGo k sc fuel st level curr prev = .ok out →
      ∃ res, out = .finished res st := by
  intro fuel
  induction fuel with
  | zero =>
    intro level curr prev out h
    exact absurd h (by simp [findGo])
  | succ f ih =>
    intro level curr prev out h
    simp only [findGo] at h
    split at h
    · split at h
      · -- search_closest
        split at h
        · exact absurd h (by simp)
        · split at h
          · exact absurd h (by simp)
          next st2 hskip =>
            have := skipTagged_noTags hnt _ _ _ _ _ _ hskip
            exact absurd this (by simp)
          next nx st2 hskip =>
            have hd := skipTagged_noTags hnt _ _ _ _ _ _ hskip
            cases hd
            cases h
            exact ⟨_, rfl⟩
      · split at h
        · exact absurd h (by simp)
        · split at h
          · exact absurd h (by simp)
          · split at h
            · cases h; exact ⟨_, rfl⟩
            · split at h
              · exact absurd h (by simp)
              · split at h
                · cases h; exact ⟨_, rfl⟩
                · cases h; exact ⟨_, rfl⟩
    · split at h
      · exact absurd h (by simp)
      · split at h
        · exact absurd h (by simp)
        next st2 hskip =>
          have := skipTagged_noTags hnt _ _ _ _ _ _ hskip
          exact absurd this (by simp)
        next nx st2 hskip =>
          have hd := skipTagged_noTags hnt _ _ _ _ _ _ hskip
          cases hd
          split at h
          · split at h
            · exact absurd h (by simp)
            · split at h
              · exact ih _ _ _ _ h
              · exact ih _ _ _ _ h
          · exact ih _ _ _ _ h

theorem find_noTags [LinearOrder K] {st : SkipState K V} (hnt : NoTags st)
    (k : K) (sc : Bool) :
    ∀ (rf sf : Nat) (prev : List Ref) (res : SearchRes)
      (st' : SkipState K V),
      find k sc rf sf st prev = .ok (res, st') → st' = st := by
  intro rf
  induction rf with
  | zero =>
    intro sf prev res st' h
    exact absurd h (by simp [find])
  | succ r ih =>
    intro sf prev res st' h
    rw [find] at h
    split at h
    · exact absurd h (by simp)
    next prev2 st2 hgo =>
      obtain ⟨res2, hres⟩ := findGo_noTags hnt k sc _ _ _ _ _ hgo
      exact absurd hres (by simp)
    next res2 st2 hgo =>
      obtain ⟨res3, hres⟩ := findGo_noTags hnt k sc _ _ _ _ _ hgo
      cases h
      cases hres
      rfl

theorem exactTarget_some [LinearOrder K] {st : SkipState K V} {p0 : Ref}
    {k : K} {t : Nat} (h : exactTarget st p0 k = some t) :
    ∃ n, st.node? t = some n ∧ n.key = k ∧ n.removed = false := by
  unfold exactTarget at h
  split at h
  · exact absurd h (by simp)
  · split at h
    · exact absurd h (by simp)
    next nid hptr =>
      split at h
      · exact absurd h (by simp)
      next n hn =>
        split at h
        next hcond =>
          cases h
          exact ⟨n, hn, hcond.1, hcond.2⟩
        · exact absurd h (by simp)

theorem find_target_live [LinearOrder K] {rf sf : Nat} {st : SkipState K V}
    {k : K} {res : SearchRes} {st' : SkipState K V} {t : Nat}
    (h : findE k false rf sf st = .ok (res, st'))
    (ht : res.target = some t) :
    ∃ n, st'.node? t = some n ∧ n.key = k ∧ n.removed = false := by
  obtain ⟨p0, -, htar⟩ := find_exact_post k rf sf st _ res st' h
  rw [ht] at htar
  exact exactTarget_some htar.symm

theorem skelEq_unlinkFinish (st : SkipState K V) :
    SkelEq st (unlinkFinish st) := by
  intro i
  unfold unlinkFinish SkipState.node?
  rfl

theorem skelEq_unlinkGo {t : Nat} {prev : List Ref} :
    ∀ (lvs : List Nat) (st : SkipState K V) (r : Option Nat)
      (st' : SkipState K V),
      unlinkGo t prev st lvs = .ok (r, st') → SkelEq st st' := by
  intro lvs
  induction lvs with
  | nil =>
    intro st r st' h
    simp only [unlinkGo] at h
    cases h
    exact skelEq_unlinkFinish st
  | cons i rest ih =>
    intro st r st' h
    simp only [unlinkGo] at h
    split at h
    · exact absurd h (by simp)
    next tl htl =>
      split at h
      · exact absurd h (by simp)
      next prevR hprev =>
        split at h
        · exact absurd h (by simp)
        next tlp htlp =>
          split at h
          · have h1 := skelEq_of_frameEq
              (frameEq_storeLevel st prevR i ⟨tl.ptr, 0⟩)
            have h2 := skelEq_of_frameEq
              (frameEq_subRefRetire (st.storeLevel prevR i ⟨tl.ptr, 0⟩) t)
            split at h
            next st2 hsub =>
              cases h
              rw [hsub] at h2
              exact skelEq_trans (skelEq_trans h1 h2) (skelEq_unlinkFinish _)
            next r2 st2 hsub =>
              rw [hsub] at h2
              exact skelEq_trans (skelEq_trans h1 h2) (ih _ _ _ h)
          · cases h
            exact skelEq_refl st

theorem setRemoved_true_spec {st : SkipState K V} {i : Nat}
    {st1 : SkipState K V} (h : setRemoved st i = (true, st1)) :
    ∃ n, st.node? i = some n ∧ n.removed = false ∧
      st1 = st.setNode i { n with removed := true } := by
  unfold setRemoved at h
  split at h
  · exact absurd h (by simp)
  next n hn =>
    split at h
    · exact absurd h (by simp)
    next hrem =>
      simp only [Prod.mk.injEq] at h
      exact ⟨n, hn, by simpa using hrem, h.2.symm⟩

theorem allKRemoved_setRemoved [LinearOrder K] {st : SkipState K V} {k : K}
    {t : Nat} {st1 : SkipState K V} (hu : UniqueLiveK st k)
    {n : Node K V} (hn : st.node? t = some n) (hk : n.key = k)
    (h : setRemoved st t = (true, st1)) : AllKRemoved st1 k := by
  obtain ⟨m, hm, hmrem, hst1⟩ := setRemoved_true_spec h
  have hmn : m = n := by rw [hm] at hn; exact Option.some.inj hn
  subst hmn
  intro i ni hni hkey
  subst hst1
  rw [node?_setNode] at hni
  by_cases hti : t = i
  · subst hti
    rw [if_pos rfl, hm] at hni
    have hx : ({ m with removed := true } : Node K V) = ni :=
      Option.some.inj hni
    rw [← hx]
  · rw [if_neg hti] at hni
    by_cases hrem : ni.removed = true
    · exact hrem
    · have hrf : ni.removed = false := by
        cases hx : ni.removed
        · rfl
        · exact absurd hx hrem
      exact absurd (hu i t ni m hni hm hkey hk hrf hmrem).symm hti

theorem setRemoved_false_spec {st : SkipState K V} {i : Nat}
    {st1 : SkipState K V} (h : setRemoved st i = (false, st1)) : st1 = st := by
  unfold setRemoved at h
  split at h
  · simp only [Prod.mk.injEq] at h
    exact h.2.symm
  · split at h
    · simp only [Prod.mk.injEq] at h
      exact h.2.symm
    · exact absurd h (by simp)

theorem skelEq_unlink {st : SkipState K V} {t hgt : Nat} {prev : List Ref}
    {r : Option Nat} {st' : SkipState K V}
    (h : unlink st t hgt prev = .ok (r, st')) : SkelEq st st' := by
  unfold unlink at h
  exact skelEq_unlinkGo _ _ _ _ h

theorem removeE_allKRemoved [LinearOrder K] {rf sf : Nat}
    {st : SkipState K V} {k : K} {p : K × V} {st1 : SkipState K V}
    (hu : UniqueLiveK st k)
    (h : removeE rf sf st k = .ok (some p, st1)) : AllKRemoved st1 k := by
  unfold removeE at h
  split at h
  · exact absurd h (by simp)
  next res stm hfind =>
    have hskel0 : SkelEq st stm := skelEq_of_frameEq (frameEq_findE hfind)
    have hu2 : UniqueLiveK stm k := uniqueLiveK_skel hskel0 hu
    split at h
    · exact absurd h (by simp)
    next t htarget =>
      obtain ⟨n, hn, hkey, hrem⟩ := find_target_live hfind htarget
      split at h
      next sta hsr => exact absurd h (by simp)
      next sta hsr =>
        have hall : AllKRemoved sta k :=
          allKRemoved_setRemoved hu2 hn hkey hsr
        unfold removeFinish at h
        split at h
        · exact absurd h (by simp)
        next stb htag =>
          have hskelb : SkelEq sta stb := by
            have hx := skelEq_of_frameEq (frameEq_tagLevels sta t 1)
            rw [htag] at hx
            exact hx
          have hallb := allKRemoved_skel hskelb hall
          split at h
          · exact absurd h (by simp)
          next u stc hunlink =>
            have hallc := allKRemoved_skel (skelEq_unlink hunlink) hallb
            split at h
            · exact absurd h (by simp)
            next res2 std hfind2 =>
              simp only [Except.ok.injEq, Prod.mk.injEq] at h
              obtain ⟨-, h2⟩ := h
              subst h2
              exact allKRemoved_skel
                (skelEq_of_frameEq (frameEq_findE hfind2)) hallc
          next stc hunlink =>
            simp only [Except.ok.injEq, Prod.mk.injEq] at h
            obtain ⟨-, h2⟩ := h
            subst h2
            exact allKRemoved_skel (skelEq_unlink hunlink) hallb

theorem removeE_none_of_allKRemoved [LinearOrder K] {rf sf : Nat}
    {st1 : SkipState K V} {k : K} {r2 : Option (K × V)}
    {st2 : SkipState K V} (ha : AllKRemoved st1 k)
    (h : removeE rf sf st1 k = .ok (r2, st2)) : r2 = none := by
  unfold removeE at h
  split at h
  · exact absurd h (by simp)
  next res stm hfind =>
    have hskel0 : SkelEq st1 stm := skelEq_of_frameEq (frameEq_findE hfind)
    split at h
    · simp only [Except.ok.injEq, Prod.mk.injEq] at h
      exact h.1.symm
    next t htarget =>
      obtain ⟨n, hn, hkey, hrem⟩ := find_target_live hfind htarget
      have := allKRemoved_skel hskel0 ha t n hn hkey
      rw [hrem] at this
      exact absurd this (by simp)

theorem removeE_noTags_absent [LinearOrder K] {rf sf : Nat}
    {st : SkipState K V} {k : K} {r : Option (K × V)} {st1 : SkipState K V}
    (hnt : NoTags st) (ha : AllKRemoved st k)
    (h : removeE rf sf st k = .ok (r, st1)) : r = none ∧ st1 = st := by
  unfold removeE at h
  split at h
  · exact absurd h (by simp)
  next res stm hfind =>
    have hstm : stm = st := find_noTags hnt k false rf sf _ res stm hfind
    subst hstm
    split at h
    · simp only [Except.ok.injEq, Prod.mk.injEq] at h
      exact ⟨h.1.symm, h.2.symm⟩
    next t htarget =>
      obtain ⟨n, hn, hkey, hrem⟩ := find_target_live hfind htarget
      have := ha t n hn hkey
      rw [hrem] at this
      exact absurd this (by simp)

/-- Claim C5: on a quiescent state with at most one live node for `k`,
`remove(k); remove(k)` has the second call return `None`; and `remove(k)` on
a list containing no live node with key `k` returns `None` and leaves the
whole state (in particular every node) unchanged. -/
theorem c5_remove_idempotent_absent :
    (∀ (K V : Type) (inst : LinearOrder K) (rf sf : Nat)
       (st st1 st2 : SkipState K V) (k : K) (r1 r2 : Option (K × V)),
       UniqueLiveK st k → NoTags st →
       removeE rf sf st k = .ok (r1, st1) →
       removeE rf sf st1 k = .ok (r2, st2) →
       r2 = none) ∧
    (∀ (K V : Type) (inst : LinearOrder K) (rf sf : Nat)
       (st : SkipState K V) (k : K) (r : Option (K × V))
       (st1 : SkipState K V),
       NoTags st → AllKRemoved st k →
       removeE rf sf st k = .ok (r, st1) →
       r = none ∧ st1 = st) := by
  constructor
  · intro K V inst rf sf st st1 st2 k r1 r2 hu hnt h1 h2
    cases r1 with
    | some p => exact removeE_none_of_allKRemoved (removeE_allKRemoved hu h1) h2
    | none =>
      have hst1 : st1 = st := by
        unfold removeE at h1
        split at h1
        · exact absurd h1 (by simp)
        next res stm hfind =>
          have hstm : stm = st := find_noTags hnt k false rf sf _ res stm hfind
          subst hstm
          split at h1
          · simp only [Except.ok.injEq, Prod.mk.injEq] at h1
            exact h1.2.symm
          next t htarget =>
            obtain ⟨n, hn, hkey, hrem⟩ := find_target_live hfind htarget
            split at h1
            next sta hsr =>
              have hsta : sta = stm := setRemoved_false_spec hsr
              simp only [Except.ok.injEq, Prod.mk.injEq] at h1
              rw [← h1.2, hsta]
            next sta hsr =>
              exfalso
              unfold removeFinish at h1
              have hsta_node : sta.node? t =
                  some ({ n with removed := true } : Node K V) := by
                obtain ⟨m, hm, hmrem, hst⟩ := setRemoved_true_spec hsr
                have hmn : m = n := by
                  rw [hm] at hn
                  exact Option.some.inj hn
                subst hmn
                subst hst
                rw [node?_setNode, if_pos rfl, hm]
                rfl
              have hsome : ∀ (stx : SkipState K V), SkelEq sta stx →
                  ∃ q, stx.entryOf t = some q := by
                intro stx hsk
                obtain ⟨n3, hn3, -⟩ := skelEq_node_rev hsk hsta_node
                refine ⟨(n3.key, n3.val), ?_⟩
                unfold SkipState.entryOf
                rw [hn3]
                rfl
              split at h1
              · exact absurd h1 (by simp)
              next stb htag =>
                have hskelb : SkelEq sta stb := by
                  have hx := skelEq_of_frameEq (frameEq_tagLevels sta t 1)
                  rw [htag] at hx
                  exact hx
                split at h1
                · exact absurd h1 (by simp)
                next u stc hunlink =>
                  split at h1
                  · exact absurd h1 (by simp)
                  next res2 std hfind2 =>
                    obtain ⟨q, hq⟩ := hsome std
                      (skelEq_trans hskelb (skelEq_trans
                        (skelEq_unlink hunlink)
                        (skelEq_of_frameEq (frameEq_findE hfind2))))
                    rw [hq] at h1
                    simp at h1
                next stc hunlink =>
                  obtain ⟨q, hq⟩ := hsome stc
                    (skelEq_trans hskelb (skelEq_unlink hunlink))
                  rw [hq] at h1
                  simp at h1
      subst hst1
      have := h1.symm.trans h2
      simp only [Except.ok.injEq, Prod.mk.injEq] at this
      exact this.1.symm
  · intro K V inst rf sf st k r st1 hnt ha h
    exact removeE_noTags_absent hnt ha h

/-- Witness for C5: on the concrete three-key list, the second `remove(4)`
returns `None`; removing the absent key 4 from the two-key list returns
`None` and leaves the state unchanged. -/
theorem c5_witness :
    rm4b.1 = none ∧ rm35.1 = none ∧ rm35.2 = st35 := by
  refine ⟨?_, ?_⟩
  · exact c5_remove_idempotent_absent.1 Nat Nat inferInstance 50 500 st345
      rm4.2 rm4b.2 4 rm4.1 rm4b.1 (uniqueLiveK_of_liveK (by decide))
      (noTags_of_B (by decide)) rfl rfl
  · exact c5_remove_idempotent_absent.2 Nat Nat inferInstance 50 500 st35 4
      rm35.1 rm35.2 (noTags_of_B (by decide))
      (allKRemoved_of_liveK (by decide)) rfl

/-! ## Chain segments and the quiescent-state toolkit (for C1, C4) -/

theorem seg_head {st : SkipState K V} {lv : Nat} {r : Ref} {xs : List Nat}
    {q : Option Nat} (h : ChainSeg st lv r xs q) :
    succPtr st r lv = some (segNext xs q) := by
  cases h with
  | nil r q hq => exact hq
  | cons r j js q hj hs => exact hj

theorem seg_loadLevel {st : SkipState K V} {lv : Nat} {r : Ref}
    {xs : List Nat} {q : Option Nat} (h : ChainSeg st lv r xs q) :
    ∃ tl, st.loadLevel r lv = some tl ∧ tl.ptr = segNext xs q := by
  have hs := seg_head h
  unfold succPtr at hs
  cases hl : st.loadLevel r lv with
  | none => rw [hl] at hs; exact absurd hs (by simp)
  | some tl =>
    rw [hl] at hs
    exact ⟨tl, rfl, by simpa using hs⟩

theorem seg_glue {st : SkipState K V} {lv : Nat} :
    ∀ {as : List Nat} {r : Ref} {b : Nat} {bs : List Nat} {q : Option Nat},
      ChainSeg st lv r as (some b) → ChainSeg st lv (some b) bs q →
      ChainSeg st lv r (as ++ b :: bs) q := by
  intro as
  induction as with
  | nil =>
    intro r b bs q h1 h2
    cases h1 with
    | nil _ _ hq => exact ChainSeg.cons _ _ _ _ hq h2
  | cons a as ih =>
    intro r b bs q h1 h2
    cases h1 with
    | cons _ _ _ _ ha hs => exact ChainSeg.cons _ _ _ _ ha (ih hs h2)

theorem seg_split_cons {st : SkipState K V} {lv : Nat} :
    ∀ {as : List Nat} {r : Ref} {b : Nat} {bs : List Nat} {q : Option Nat},
      ChainSeg st lv r (as ++ b :: bs) q →
      ChainSeg st lv r as (some b) ∧ ChainSeg st lv (some b) bs q := by
  intro as
  induction as with
  | nil =>
    intro r b bs q h
    cases h with
    | cons _ _ _ _ hb hs => exact ⟨ChainSeg.nil _ _ hb, hs⟩
  | cons a as ih =>
    intro r b bs q h
    cases h with
    | cons _ _ _ _ ha hs =>
      obtain ⟨h1, h2⟩ := ih hs
      exact ⟨ChainSeg.cons _ _ _ _ ha h1, h2⟩

theorem seg_mono {st st2 : SkipState K V} {lv : Nat} :
    ∀ {xs : List Nat} {r : Ref} {q : Option Nat},
      ChainSeg st lv r xs q →
      succPtr st2 r lv = succPtr st r lv →
      (∀ j, j ∈ xs → succPtr st2 (some j) lv = succPtr st (some j) lv) →
      ChainSeg st2 lv r xs q := by
  intro xs
  induction xs with
  | nil =>
    intro r q h hr hall
    cases h with
    | nil _ _ hq => exact ChainSeg.nil _ _ (hr.trans hq)
  | cons j js ih =>
    intro r q h hr hall
    cases h with
    | cons _ _ _ _ hj hs =>
      refine ChainSeg.cons _ _ _ _ (hr.trans hj) (ih hs ?_ ?_)
      · exact hall j (List.mem_cons_self j js)
      · intro x hx
        exact hall x (List.mem_cons_of_mem j hx)

theorem keyLtB_iff [LinearOrder K] {st : SkipState K V} {a b : Nat}
    {na nb : Node K V} (ha : st.node? a = some na)
    (hb : st.node? b = some nb) :
    keyLtB st a b = true ↔ na.key < nb.key := by
  unfold keyLtB
  rw [ha, hb]
  simp

theorem Inv.subZero [LinearOrder K] {st : SkipState K V}
    {gl : Nat → List Nat} (hInv : Inv st gl) (lv : Nat) :
    List.Sublist (gl lv) (gl 0) := by
  induction lv with
  | zero => exact List.Sublist.refl _
  | succ l ih => exact (hInv.sub l).trans ih

theorem Inv.memZero [LinearOrder K] {st : SkipState K V}
    {gl : Nat → List Nat} (hInv : Inv st gl) {lv i : Nat}
    (h : i ∈ gl lv) : i ∈ gl 0 :=
  (hInv.subZero lv).subset h

theorem Inv.nodupAt [LinearOrder K] {st : SkipState K V}
    {gl : Nat → List Nat} (hInv : Inv st gl) (lv : Nat) : (gl lv).Nodup :=
  nodup_of_pairwise_keys (hInv.sorted lv)

theorem Inv.loadLevel_of_node [LinearOrder K] {st : SkipState K V}
    {gl : Nat → List Nat} (hInv : Inv st gl) {i : Nat} {n : Node K V}
    (hn : st.node? i = some n) {lv : Nat} (hlt : lv < n.height) :
    ∃ tl, st.loadLevel (some i) lv = some tl := by
  have hstruct := (hInv.nodeStruct i n hn).1
  unfold SkipState.loadLevel
  simp only [SkipState.levelsOf]
  rw [hn]
  cases hl : n.levels.get? lv with
  | none =>
    have := List.get?_eq_none.mp hl
    omega
  | some tl => exact ⟨tl, rfl⟩

theorem inv_succ [LinearOrder K] {st : SkipState K V} {gl : Nat → List Nat}
    (hInv : Inv st gl) {lv : Nat} (hlv : lv < HEIGHT) {r : Ref}
    (hr : r = none ∨ ∃ i, r = some i ∧ i ∈ gl lv) :
    ∃ tl, st.loadLevel r lv = some tl ∧ tl.tag = 0 ∧
      (tl.ptr = none ∨ ∃ j nj, tl.ptr = some j ∧ st.node? j = some nj ∧
        j ∈ gl lv ∧
        ∀ i ni, r = some i → st.node? i = some ni → ni.key < nj.key) := by
  rcases hr with hr | ⟨i, hr, hmem⟩
  · subst hr
    obtain ⟨tl, htl, hptr⟩ := seg_loadLevel (hInv.chains lv hlv)
    refine ⟨tl, htl, hInv.headTags0 lv tl htl, ?_⟩
    cases hgl : gl lv with
    | nil =>
      rw [hgl] at hptr
      simp only [segNext] at hptr
      exact Or.inl hptr
    | cons j js =>
      rw [hgl] at hptr
      simp only [segNext] at hptr
      have hjmem : j ∈ gl lv := by rw [hgl]; exact List.mem_cons_self j js
      obtain ⟨nj, hnj, -, -⟩ := hInv.memProps lv j hjmem
      exact Or.inr ⟨j, nj, hptr, hnj, List.mem_cons_self j js,
        fun i ni hri _ => by exact absurd hri (by simp)⟩
  · subst hr
    obtain ⟨as, bs, hsplit⟩ := List.append_of_mem hmem
    have hchain := hInv.chains lv hlv
    rw [hsplit] at hchain
    obtain ⟨-, hseg⟩ := seg_split_cons hchain
    cases hseg with
    | nil _ _ hq =>
      obtain ⟨tl, htl, hptr⟩ : ∃ tl, st.loadLevel (some i) lv = some tl ∧
          tl.ptr = none := by
        unfold succPtr at hq
        cases hl : st.loadLevel (some i) lv with
        | none => rw [hl] at hq; exact absurd hq (by simp)
        | some tl =>
          rw [hl] at hq
          exact ⟨tl, rfl, by simpa using hq⟩
      exact ⟨tl, htl, hInv.tags0 i (hInv.memZero hmem) lv tl htl,
        Or.inl hptr⟩
    | cons _ b bs2 _ hb hseg2 =>
      obtain ⟨tl, htl, hptr⟩ : ∃ tl, st.loadLevel (some i) lv = some tl ∧
          tl.ptr = some b := by
        unfold succPtr at hb
        cases hl : st.loadLevel (some i) lv with
        | none => rw [hl] at hb; exact absurd hb (by simp)
        | some tl =>
          rw [hl] at hb
          exact ⟨tl, rfl, by simpa using hb⟩
      have hbmem : b ∈ gl lv := by
        rw [hsplit]
        exact List.mem_append_right as (List.mem_cons_of_mem i
          (List.mem_cons_self b bs2))
      obtain ⟨nb, hnb, -, -⟩ := hInv.memProps lv b hbmem
      refine ⟨tl, htl, hInv.tags0 i (hInv.memZero hmem) lv tl htl,
        Or.inr ⟨b, nb, hptr, hnb, hbmem, ?_⟩⟩
      intro i2 ni hri hni
      have hii : i2 = i := (Option.some.inj hri).symm
      rw [hii] at hni
      have hsorted := hInv.sorted lv
      rw [hsplit] at hsorted
      have hpair : List.Pairwise (fun a b => keyLtB st a b = true)
          (i :: b :: bs2) := (List.pairwise_append.mp hsorted).2.1
      have hlt := (List.pairwise_cons.mp hpair).1 b
        (List.mem_cons_self b bs2)
      exact (keyLtB_iff hni hnb).mp hlt

/-! ### Cell-level frame lemmas for the store/ref-count operations -/

theorem loadLevel_node {st : SkipState K V} {i : Nat} {n : Node K V}
    (hn : st.node? i = some n) (lv : Nat) :
    st.loadLevel (some i) lv = n.levels.get? lv := by
  unfold SkipState.loadLevel
  simp only [SkipState.levelsOf]
  rw [hn]

theorem loadLevel_isSome_of {st : SkipState K V} {i : Nat} {n : Node K V}
    (hn : st.node? i = some n) {lv : Nat} (hlt : lv < n.levels.length) :
    ∃ tl, st.loadLevel (some i) lv = some tl := by
  rw [loadLevel_node hn]
  cases hl : n.levels.get? lv with
  | none => exact absurd (List.get?_eq_none.mp hl) (by omega)
  | some tl => exact ⟨tl, rfl⟩

theorem loadLevel_head (st : SkipState K V) (lv : Nat) :
    st.loadLevel none lv = st.headLevels.get? lv := rfl

theorem storeLevel_none_eq (st : SkipState K V) (lv : Nat) (tl : TL) :
    st.storeLevel none lv tl =
      { st with headLevels := st.headLevels.set lv tl } := rfl

theorem storeLevel_some_eq (st : SkipState K V) (i lv : Nat) (tl : TL) :
    st.storeLevel (some i) lv tl =
      match st.node? i with
      | some n => st.setNode i { n with levels := n.levels.set lv tl }
      | none => st := rfl

theorem headLevels_storeLevel_node (st : SkipState K V) (i lv : Nat)
    (tl : TL) : (st.storeLevel (some i) lv tl).headLevels = st.headLevels := by
  rw [storeLevel_some_eq]
  cases hn : st.node? i <;> rfl

theorem node?_storeLevel_ne {st : SkipState K V} {r : Ref} {lv : Nat}
    {tl : TL} {j : Nat} (h : r ≠ some j) :
    (st.storeLevel r lv tl).node? j = st.node? j := by
  cases r with
  | none => rfl
  | some i =>
    rw [storeLevel_some_eq]
    cases hn : st.node? i with
    | none => rfl
    | some n =>
      rw [node?_setNode]
      simp only [if_neg (fun hij : i = j => h (by rw [hij]))]

theorem loadLevel_store_self {st : SkipState K V} {r : Ref} {lv : Nat}
    {tl tl0 : TL} (h : st.loadLevel r lv = some tl0) :
    (st.storeLevel r lv tl).loadLevel r lv = some tl := by
  cases r with
  | none =>
    rw [loadLevel_head] at h
    show (st.headLevels.set lv tl).get? lv = some tl
    rw [List.get?_set, if_pos rfl, h]
    rfl
  | some i =>
    cases hn : st.node? i with
    | none =>
      simp only [SkipState.loadLevel, SkipState.levelsOf, hn] at h
      exact absurd h (by simp)
    | some n =>
      rw [loadLevel_node hn] at h
      simp only [storeLevel_some_eq, hn]
      rw [loadLevel_node (n := { n with levels := n.levels.set lv tl })
        (by rw [node?_setNode]; simp [hn])]
      show ((n.levels.set lv tl).get? lv) = some tl
      rw [List.get?_set, if_pos rfl, h]
      rfl

theorem loadLevel_store_other {st : SkipState K V} {r r' : Ref}
    {lv lv' : Nat} {tl : TL} (h : r' ≠ r ∨ lv' ≠ lv) :
    (st.storeLevel r lv tl).loadLevel r' lv' = st.loadLevel r' lv' := by
  cases r with
  | none =>
    cases r' with
    | none =>
      have hlv : lv' ≠ lv := by
        rcases h with h | h
        · exact absurd rfl h
        · exact h
      show (st.headLevels.set lv tl).get? lv' = st.headLevels.get? lv'
      rw [List.get?_set, if_neg (fun he : lv = lv' => hlv he.symm)]
    | some j => rfl
  | some i =>
    cases hn : st.node? i with
    | none => simp only [storeLevel_some_eq, hn]
    | some n =>
      simp only [storeLevel_some_eq, hn]
      cases r' with
      | none => rfl
      | some j =>
        by_cases hij : i = j
        · subst hij
          have hlv : lv' ≠ lv := by
            rcases h with h | h
            · exact absurd rfl h
            · exact h
          rw [loadLevel_node (n := { n with levels := n.levels.set lv tl })
            (by rw [node?_setNode]; simp [hn]), loadLevel_node hn]
          show ((n.levels.set lv tl).get? lv') = n.levels.get? lv'
          rw [List.get?_set, if_neg (fun he : lv = lv' => hlv he.symm)]
        · unfold SkipState.loadLevel
          simp only [SkipState.levelsOf, node?_setNode, if_neg hij]

theorem node?_storeLevel_fields (st : SkipState K V) (r : Ref) (lv : Nat)
    (tl : TL) (j : Nat) :
    ((st.storeLevel r lv tl).node? j).map Node.core =
        (st.node? j).map Node.core ∧
    ((st.storeLevel r lv tl).node? j).map (fun n => n.levels.length) =
        (st.node? j).map (fun n => n.levels.length) ∧
    ((st.storeLevel r lv tl).node? j).map (fun n => n.refs) =
        (st.node? j).map (fun n => n.refs) ∧
    ((st.storeLevel r lv tl).node? j).map (fun n => n.removed) =
        (st.node? j).map (fun n => n.removed) := by
  by_cases hr : r = some j
  · subst hr
    cases hn : st.node? j with
    | none =>
      have he : st.storeLevel (some j) lv tl = st := by
        simp only [storeLevel_some_eq, hn]
      rw [he, hn]
      exact ⟨rfl, rfl, rfl, rfl⟩
    | some n =>
      have hj : (st.storeLevel (some j) lv tl).node? j =
          some { n with levels := n.levels.set lv tl } := by
        simp only [storeLevel_some_eq, hn, node?_setNode]
        simp [hn]
      rw [hj]
      refine ⟨rfl, ?_, rfl, rfl⟩
      simp [List.length_set]
  · rw [node?_storeLevel_ne hr]
    exact ⟨rfl, rfl, rfl, rfl⟩

theorem node?_of_core {st st' : SkipState K V}
    (hcore : ∀ j, (st'.node? j).map Node.core = (st.node? j).map Node.core)
    {i : Nat} {n : Node K V} (hn : st.node? i = some n) :
    ∃ n', st'.node? i = some n' ∧ n'.key = n.key ∧ n'.val = n.val ∧
      n'.height = n.height := by
  have h := hcore i
  rw [hn] at h
  cases ho : st'.node? i with
  | none => rw [ho] at h; exact absurd h (by simp)
  | some n' =>
    rw [ho] at h
    simp only [Option.map_some', Option.some.injEq, Node.core,
      Prod.mk.injEq] at h
    exact ⟨n', rfl, h.1, h.2.1, h.2.2⟩

theorem node?_of_core_rev {st st' : SkipState K V}
    (hcore : ∀ j, (st'.node? j).map Node.core = (st.node? j).map Node.core)
    {i : Nat} {n' : Node K V} (hn : st'.node? i = some n') :
    ∃ n, st.node? i = some n ∧ n'.key = n.key ∧ n'.val = n.val ∧
      n'.height = n.height := by
  have h := hcore i
  rw [hn] at h
  cases ho : st.node? i with
  | none => rw [ho] at h; exact absurd h (by simp)
  | some n =>
    rw [ho] at h
    simp only [Option.map_some', Option.some.injEq, Node.core,
      Prod.mk.injEq] at h
    exact ⟨n, rfl, h.1, h.2.1, h.2.2⟩

theorem keyLtB_congr [LinearOrder K] {st st' : SkipState K V}
    (hcore : ∀ j, (st'.node? j).map Node.core = (st.node? j).map Node.core)
    (a b : Nat) : keyLtB st' a b = keyLtB st a b := by
  unfold keyLtB
  cases ha : st.node? a with
  | none =>
    have ha' : st'.node? a = none := by
      have h := hcore a
      rw [ha] at h
      cases ho : st'.node? a with
      | none => rfl
      | some x => rw [ho] at h; exact absurd h (by simp)
    rw [ha']
  | some na =>
    obtain ⟨na', ha', hka, -, -⟩ := node?_of_core hcore ha
    rw [ha']
    cases hb : st.node? b with
    | none =>
      have hb' : st'.node? b = none := by
        have h := hcore b
        rw [hb] at h
        cases ho : st'.node? b with
        | none => rfl
        | some x => rw [ho] at h; exact absurd h (by simp)
      rw [hb']
    | some nb =>
      obtain ⟨nb', hb', hkb, -, -⟩ := node?_of_core hcore hb
      rw [hb']
      show decide (na'.key < nb'.key) = decide (na.key < nb.key)
      rw [hka, hkb]

theorem prevProp_mono {st st' : SkipState K V} [LinearOrder K]
    {gl : Nat → List Nat} {k : K} {lv : Nat} {p : Ref}
    (h : PrevProp st gl k lv p)
    (hcell : st'.loadLevel p lv = st.loadLevel p lv)
    (hcore : ∀ j, (st'.node? j).map Node.core = (st.node? j).map Node.core) :
    PrevProp st' gl k lv p := by
  obtain ⟨h1, tl, htl, htag, hptr⟩ := h
  refine ⟨?_, tl, by rw [hcell, htl], htag, ?_⟩
  · rcases h1 with h1 | ⟨i, ni, hp, hni, hm, hk⟩
    · exact Or.inl h1
    · obtain ⟨ni', hni', hk', -, -⟩ := node?_of_core hcore hni
      exact Or.inr ⟨i, ni', hp, hni', hm, by rw [hk']; exact hk⟩
  · rcases hptr with hptr | ⟨j, nj, hj, hnj, hm, hk⟩
    · exact Or.inl hptr
    · obtain ⟨nj', hnj', hk', -, -⟩ := node?_of_core hcore hnj
      exact Or.inr ⟨j, nj', hj, hnj', hm, by rw [hk']; exact hk⟩

/-! ### Key uniqueness and successor position on a sorted chain -/

theorem sorted_key_unique [LinearOrder K] {st : SkipState K V}
    {xs : List Nat}
    (hs : xs.Pairwise (fun a b => keyLtB st a b = true)) :
    ∀ {i j : Nat} {ni nj : Node K V}, i ∈ xs → j ∈ xs →
      st.node? i = some ni → st.node? j = some nj → ni.key = nj.key →
      i = j := by
  induction xs with
  | nil =>
    intro i j ni nj hi
    exact absurd hi (by simp)
  | cons x xs ih =>
    obtain ⟨hx, hxs⟩ := List.pairwise_cons.mp hs
    intro i j ni nj hi hj hni hnj hk
    rcases List.mem_cons.mp hi with hix | hitail
    · rcases List.mem_cons.mp hj with hjx | hjtail
      · rw [hix, hjx]
      · rw [hix] at hni
        have := (keyLtB_iff hni hnj).mp (hx j hjtail)
        rw [hk] at this
        exact absurd this (lt_irrefl _)
    · rcases List.mem_cons.mp hj with hjx | hjtail
      · rw [hjx] at hnj
        have := (keyLtB_iff hnj hni).mp (hx i hitail)
        rw [hk] at this
        exact absurd this (lt_irrefl _)
      · exact ih hxs hitail hjtail hni hnj hk

theorem chain_succ_at [LinearOrder K] {st : SkipState K V} {lv : Nat}
    {xs : List Nat} (hchain : ChainSeg st lv none xs none)
    (hs : xs.Pairwise (fun a b => keyLtB st a b = true)) {k : K} {p : Ref}
    (hp : p = none ∨ ∃ ip nip, p = some ip ∧ st.node? ip = some nip ∧
      ip ∈ xs ∧ nip.key < k)
    {q : Option Nat} (hq : succPtr st p lv = some q)
    (hqge : q = none ∨ ∃ j nj, q = some j ∧ st.node? j = some nj ∧
      j ∈ xs ∧ k ≤ nj.key)
    {i : Nat} {ni : Node K V} (hi : i ∈ xs) (hni : st.node? i = some ni)
    (hik : ni.key = k) : q = some i := by
  rcases hp with hp | ⟨ip, nip, hp, hnip, hipm, hiplt⟩
  · subst hp
    have hhead := seg_head hchain
    rw [hq] at hhead
    have hqeq : q = segNext xs none := Option.some.inj hhead
    cases hxs : xs with
    | nil => rw [hxs] at hi; exact absurd hi (by simp)
    | cons x rest =>
      rw [hxs] at hqeq
      simp only [segNext] at hqeq
      subst hqeq
      rw [hxs] at hi hs
      rcases List.mem_cons.mp hi with hi | hi
      · rw [hi]
      · obtain ⟨hx, -⟩ := List.pairwise_cons.mp hs
        rcases hqge with hqge | ⟨j, nj, hj, hnj, -, hjk⟩
        · exact absurd hqge (by simp)
        · have hxj : x = j := Option.some.inj hj
          have hnx : st.node? x = some nj := by rw [hxj]; exact hnj
          have hlt := (keyLtB_iff hnx hni).mp (hx i hi)
          rw [hik] at hlt
          exact absurd (lt_of_le_of_lt hjk hlt) (lt_irrefl _)
  · subst hp
    obtain ⟨as, bs, hsplit⟩ := List.append_of_mem hipm
    rw [hsplit] at hchain hs
    obtain ⟨-, h2⟩ := seg_split_cons hchain
    cases h2 with
    | nil _ _ hnil =>
      rw [hq] at hnil
      have hqeq : q = none := Option.some.inj hnil
      subst hqeq
      rcases hqge with hqge | ⟨j, nj, hj, hnj, hjm, hjk⟩
      · -- `i` must lie beyond `ip`, but the chain ends at `ip`
        rw [hsplit] at hi
        rcases List.mem_append.mp hi with hi | hi
        · have := (keyLtB_iff hni hnip).mp
            ((List.pairwise_append.mp hs).2.2 i hi ip
              (List.mem_cons_self ip []) )
          rw [hik] at this
          exact absurd (lt_trans this hiplt) (lt_irrefl _)
        · rcases List.mem_cons.mp hi with hi | hi
          · subst hi
            rw [hni] at hnip
            have := Option.some.inj hnip
            rw [← this] at hiplt
            rw [hik] at hiplt
            exact absurd hiplt (lt_irrefl _)
          · exact absurd hi (by simp)
      · exact absurd hj (by simp)
    | cons _ b bs2 _ hb hrest =>
      rw [hq] at hb
      have hqeq : q = some b := Option.some.inj hb
      subst hqeq
      rw [hsplit] at hi
      have hpair := List.pairwise_append.mp hs
      obtain ⟨hpas, hpbs, hcross⟩ := hpair
      obtain ⟨hiph, hpbs2⟩ := List.pairwise_cons.mp hpbs
      rcases List.mem_append.mp hi with hi | hi
      · have := (keyLtB_iff hni hnip).mp (hcross i hi ip
          (List.mem_cons_self ip _))
        rw [hik] at this
        exact absurd (lt_trans this hiplt) (lt_irrefl _)
      · rcases List.mem_cons.mp hi with hi | hi
        · subst hi
          rw [hni] at hnip
          have := Option.some.inj hnip
          rw [← this] at hiplt
          rw [hik] at hiplt
          exact absurd hiplt (lt_irrefl _)
        · rcases List.mem_cons.mp hi with hi | hi
          · rw [hi]
          · obtain ⟨hbh, -⟩ := List.pairwise_cons.mp hpbs2
            rcases hqge with hqge | ⟨j, nj, hj, hnj, -, hjk⟩
            · exact absurd hqge (by simp)
            · have hbj : b = j := Option.some.inj hj
              have hnb : st.node? b = some nj := by rw [hbj]; exact hnj
              have hlt := (keyLtB_iff hnb hni).mp (hbh i hi)
              rw [hik] at hlt
              exact absurd (lt_of_le_of_lt hjk hlt) (lt_irrefl _)

/-! ### The descent on a quiescent state -/

theorem Inv.sublist_le [LinearOrder K] {st : SkipState K V}
    {gl : Nat → List Nat} (hInv : Inv st gl) {lv' lv : Nat} (h : lv' ≤ lv) :
    List.Sublist (gl lv) (gl lv') := by
  induction lv, h using Nat.le_induction with
  | base => exact List.Sublist.refl _
  | succ n hn ih => exact (hInv.sub n).trans ih

theorem Inv.mem_mono [LinearOrder K] {st : SkipState K V}
    {gl : Nat → List Nat} (hInv : Inv st gl) {lv' lv i : Nat}
    (h : lv' ≤ lv) (hm : i ∈ gl lv) : i ∈ gl lv' :=
  (hInv.sublist_le h).subset hm

theorem skipTagged_done {st : SkipState K V} {ci ui fuel : Nat} {curr : Ref}
    {next : Option Nat} {out : HelpOut K V}
    (hnext : next = none ∨ ∃ n tl, next = some n ∧
      st.loadLevel (some n) ci = some tl ∧ tl.tag = 0)
    (h : skipTagged ci ui fuel st curr next = .ok out) :
    out = .done next st := by
  cases fuel with
  | zero => exact absurd h (by simp [skipTagged])
  | succ f =>
    rcases hnext with hnext | ⟨n, tl, hnext, htl, htag⟩
    · subst hnext
      simp only [skipTagged] at h
      exact (Except.ok.inj h).symm
    · subst hnext
      simp only [skipTagged, htl] at h
      rw [if_pos htag] at h
      exact (Except.ok.inj h).symm

theorem startLevel_le (hl : List TL) (m : Nat) : startLevel hl m ≤ m := by
  induction m using startLevel.induct (L := hl) with
  | case1 => exact Nat.le_refl _
  | case2 => exact Nat.le_refl _
  | case3 l tl hget hnull ih =>
    simp only [startLevel, hget, if_pos hnull]
    omega
  | case4 l tl hget hnull =>
    simp only [startLevel, hget, if_neg hnull]
    omega
  | case5 l hget =>
    simp only [startLevel, hget]
    omega

theorem startLevel_pos (hl : List TL) {m : Nat} (hm : 1 ≤ m) :
    1 ≤ startLevel hl m := by
  induction m using startLevel.induct (L := hl) with
  | case1 => exact absurd hm (by omega)
  | case2 => exact Nat.le_refl _
  | case3 l tl hget hnull ih =>
    simp only [startLevel, hget, if_pos hnull]
    exact ih (by omega)
  | case4 l tl hget hnull =>
    simp only [startLevel, hget, if_neg hnull]
    omega
  | case5 l hget =>
    simp only [startLevel, hget]
    omega

theorem startLevel_null (hl : List TL) {m : Nat} :
    ∀ {lv : Nat}, startLevel hl m ≤ lv → lv < m → ∀ tl,
      hl.get? lv = some tl → tl.ptr = none := by
  induction m using startLevel.induct (L := hl) with
  | case1 =>
    intro lv h1 h2 tl ht
    omega
  | case2 =>
    intro lv h1 h2 tl ht
    have he : startLevel hl 1 = 1 := rfl
    omega
  | case3 l tl0 hget hnull ih =>
    intro lv h1 h2 tl ht
    simp only [startLevel, hget, if_pos hnull] at h1
    by_cases hlv : lv = l + 1
    · subst hlv
      rw [hget] at ht
      rw [← Option.some.inj ht]
      exact hnull
    · exact ih h1 (by omega) tl ht
  | case4 l tl0 hget hnull =>
    intro lv h1 h2 tl ht
    simp only [startLevel, hget, if_neg hnull] at h1
    omega
  | case5 l hget =>
    intro lv h1 h2 tl ht
    simp only [startLevel, hget] at h1
    omega

theorem findGo_inv [LinearOrder K] {st : SkipState K V}
    {gl : Nat → List Nat} (hInv : Inv st gl) (k : K) :
    ∀ (fuel : Nat) (level : Nat) (curr : Ref) (prev : List Ref)
      (out : FindOut K V),
      level ≤ HEIGHT →
      prev.length = HEIGHT →
      (curr = none ∨ ∃ i ni, curr = some i ∧ st.node? i = some ni ∧
        i ∈ gl (level - 1) ∧ ni.key < k) →
      (∀ lv p, level ≤ lv → lv < HEIGHT → prev.get? lv = some p →
        PrevProp st gl k lv p) →
      findGo k false fuel st level curr prev = .ok out →
      ∃ res, out = .finished res st ∧ SRProps st gl k res := by
  intro fuel
  induction fuel with
  | zero =>
    intro level curr prev out _ _ _ _ h
    exact absurd h (by simp [findGo])
  | succ f ih =>
    intro level curr prev out hlev hlen hcurr hprev h
    simp only [findGo] at h
    split at h
    next hL0 =>
      -- level = 0: the exact epilogue
      split at h
      next hsc => exact absurd hsc (by simp)
      split at h
      · exact absurd h (by simp)
      next p0 hp0 =>
        have hPP : PrevProp st gl k 0 p0 :=
          hprev 0 p0 (by omega) (by decide) hp0
        obtain ⟨hfirst, tl, htl, htag, hptr⟩ := hPP
        split at h
        next heq =>
          rw [heq] at htl
          exact absurd htl (by simp)
        next tl' heq =>
          have htleq : tl = tl' := by
            rw [heq] at htl
            exact (Option.some.inj htl).symm
          subst htleq
          split at h
          next hptr0 =>
            cases h
            refine ⟨⟨prev, none⟩, rfl, hlen, ?_⟩
            intro lv p hlv hget
            exact hprev lv p (by omega) hlv hget
          next nid hptr0 =>
            split at h
            · exact absurd h (by simp)
            next n hn =>
              split at h
              · cases h
                refine ⟨⟨prev, some nid⟩, rfl, hlen, ?_⟩
                intro lv p hlv hget
                exact hprev lv p (by omega) hlv hget
              · cases h
                refine ⟨⟨prev, none⟩, rfl, hlen, ?_⟩
                intro lv p hlv hget
                exact hprev lv p (by omega) hlv hget
    next hL0 =>
      -- level ≥ 1: one descent step
      have hr : curr = none ∨ ∃ i, curr = some i ∧ i ∈ gl (level - 1) := by
        rcases hcurr with hc | ⟨i, ni, he, hn, hm, hk⟩
        · exact Or.inl hc
        · exact Or.inr ⟨i, he, hm⟩
      have hlvH2 : level - 1 < HEIGHT := by omega
      obtain ⟨tl, htl, htag, hdisj⟩ :=
        inv_succ hInv hlvH2 hr
      have hnext : tl.ptr = none ∨ ∃ n tln, tl.ptr = some n ∧
          st.loadLevel (some n) (level - 1) = some tln ∧ tln.tag = 0 := by
        rcases hdisj with hd | ⟨j, nj, hj, hnj, hjm, -⟩
        · exact Or.inl hd
        · obtain ⟨njm, hnjm, -, hhgt⟩ := hInv.memProps _ j hjm
          obtain ⟨tlj, htlj⟩ := hInv.loadLevel_of_node hnjm hhgt
          exact Or.inr ⟨j, tlj, hj, htlj,
            hInv.tags0 j (hInv.memZero hjm) _ _ htlj⟩
      split at h
      next heq =>
        rw [heq] at htl
        exact absurd htl (by simp)
      next tl' heq =>
        have htleq : tl = tl' := by
          rw [heq] at htl
          exact (Option.some.inj htl).symm
        subst htleq
        split at h
        · exact absurd h (by simp)
        next st2 hskip =>
          have := skipTagged_done hnext hskip
          exact absurd this (by simp)
        next nx st2 hskip =>
          have hdone := skipTagged_done hnext hskip
          injection hdone with hnx hst2
          subst hnx
          have hst2' : st = st2 := hst2.symm
          subst hst2'
          split at h
          next n hptrn =>
            -- successor is a node
            have hmemn : n ∈ gl (level - 1) ∧ ∃ njn,
                st.node? n = some njn := by
              rcases hdisj with hd | ⟨j, nj, hj, hnj, hjm, -⟩
              · rw [hd] at hptrn
                exact absurd hptrn (by simp)
              · rw [hj] at hptrn
                have : j = n := Option.some.inj hptrn
                subst this
                exact ⟨hjm, nj, hnj⟩
            obtain ⟨hmn, njn, hnjn⟩ := hmemn
            split at h
            next hnone => exact absurd (hnone ▸ hnjn) (by simp)
            next nd hnd =>
              have hndeq : nd = njn := by
                rw [hnd] at hnjn
                exact Option.some.inj hnjn
              split at h
              next hlt =>
                -- move right on the same level
                refine ih level (some n) (prev.set (level - 1) curr) out
                  hlev (by rw [List.length_set]; exact hlen) ?_ ?_ h
                · exact Or.inr ⟨n, nd, rfl, hnd, hmn, hlt⟩
                · intro lv p hlv hlvH hget
                  rw [List.get?_set] at hget
                  rw [if_neg (by omega)] at hget
                  exact hprev lv p hlv hlvH hget
              next hnlt =>
                -- descend
                refine ih (level - 1) curr (prev.set (level - 1) curr) out
                  (by omega) (by rw [List.length_set]; exact hlen) ?_ ?_ h
                · rcases hcurr with hc | ⟨i, ni, he, hni, hm, hk⟩
                  · exact Or.inl hc
                  · exact Or.inr ⟨i, ni, he, hni,
                      hInv.mem_mono (Nat.sub_le _ 1) hm, hk⟩
                · intro lv p hlv hlvH hget
                  rw [List.get?_set] at hget
                  by_cases hlveq : level - 1 = lv
                  · subst hlveq
                    rw [if_pos rfl] at hget
                    cases hold : prev.get? (level - 1) with
                    | none => rw [hold] at hget; exact absurd hget (by simp)
                    | some pold =>
                      rw [hold] at hget
                      have hpc : p = curr :=
                        (Option.some.inj hget).symm
                      subst hpc
                      exact ⟨hcurr, tl, htl, htag,
                        Or.inr ⟨n, nd, hptrn, hnd, hmn,
                          le_of_not_lt hnlt⟩⟩
                  · rw [if_neg hlveq] at hget
                    exact hprev lv p (by omega) hlvH hget
          next hptrn =>
            -- null successor: descend
            refine ih (level - 1) curr (prev.set (level - 1) curr) out
              (by omega) (by rw [List.length_set]; exact hlen) ?_ ?_ h
            · rcases hcurr with hc | ⟨i, ni, he, hni, hm, hk⟩
              · exact Or.inl hc
              · exact Or.inr ⟨i, ni, he, hni,
                  hInv.mem_mono (Nat.sub_le _ 1) hm, hk⟩
            · intro lv p hlv hlvH hget
              rw [List.get?_set] at hget
              by_cases hlveq : level - 1 = lv
              · subst hlveq
                rw [if_pos rfl] at hget
                cases hold : prev.get? (level - 1) with
                | none => rw [hold] at hget; exact absurd hget (by simp)
                | some pold =>
                  rw [hold] at hget
                  have hpc : p = curr := (Option.some.inj hget).symm
                  subst hpc
                  exact ⟨hcurr, tl, htl, htag, Or.inl hptrn⟩
              · rw [if_neg hlveq] at hget
                exact hprev lv p (by omega) hlvH hget

theorem get?_replicate_lt {α : Type} {a : α} :
    ∀ {n lv : Nat}, lv < n → (List.replicate n a).get? lv = some a := by
  intro n
  induction n with
  | zero => intro lv h; omega
  | succ m ih =>
    intro lv h
    cases lv with
    | zero => rfl
    | succ l => exact ih (by omega)

theorem findE_inv [LinearOrder K] {st : SkipState K V} {gl : Nat → List Nat}
    (hInv : Inv st gl) {k : K} {rf sf : Nat} {res : SearchRes}
    {st' : SkipState K V} (h : findE k false rf sf st = .ok (res, st')) :
    st' = st ∧ SRProps st gl k res ∧
    ∃ p0, res.prev.get? 0 = some p0 ∧ res.target = exactTarget st p0 k := by
  have hpost := find_exact_post k rf sf st _ res st' h
  unfold findE at h
  cases rf with
  | zero => exact absurd h (by simp [find])
  | succ r =>
    rw [find] at h
    have hprev0 : ∀ lv p, startLevel st.headLevels st.maxHeight ≤ lv →
        lv < HEIGHT → (List.replicate HEIGHT (none : Ref)).get? lv = some p →
        PrevProp st gl k lv p := by
      intro lv p hsl hlv hget
      have hpn : p = none := List.eq_of_mem_replicate (List.get?_mem hget)
      subst hpn
      refine ⟨Or.inl rfl, ?_⟩
      cases hh : st.headLevels.get? lv with
      | none =>
        have := List.get?_eq_none.mp hh
        rw [hInv.headLen] at this
        omega
      | some tl =>
        refine ⟨tl, hh, hInv.headTags0 lv tl hh, Or.inl ?_⟩
        by_cases hmx : lv < st.maxHeight
        · exact startLevel_null st.headLevels hsl hmx tl hh
        · have hgl : gl lv = [] := hInv.emptyHi lv (by omega)
          have hch := hInv.chains lv hlv
          rw [hgl] at hch
          have := seg_head hch
          unfold succPtr at this
          rw [loadLevel_head, hh] at this
          simpa using this
    split at h
    · exact absurd h (by simp)
    next prev2 st2 hgo =>
      obtain ⟨res2, habs, -⟩ := findGo_inv hInv k _ _ _ _ _
        (le_trans (startLevel_le _ _) hInv.maxLe)
        (List.length_replicate _ _) (Or.inl rfl) hprev0 hgo
      exact absurd habs (by simp)
    next res2 st2 hgo =>
      obtain ⟨resq, hfin, hSR⟩ := findGo_inv hInv k _ _ _ _ _
        (le_trans (startLevel_le _ _) hInv.maxLe)
        (List.length_replicate _ _) (Or.inl rfl) hprev0 hgo
      have hres : res2 = resq ∧ st2 = st := by
        injection hfin with h1 h2
        exact ⟨h1, h2⟩
      obtain ⟨hr1, hr2⟩ := hres
      have hok : res2 = res ∧ st2 = st' := by
        injection h with h3
        injection h3 with h4 h5
        exact ⟨h4, h5⟩
      obtain ⟨ho1, ho2⟩ := hok
      have hsteq : st' = st := by rw [← ho2, hr2]
      have hreseq : res = resq := by rw [← ho1, hr1]
      refine ⟨hsteq, by rw [hreseq]; exact hSR, ?_⟩
      obtain ⟨p0, hp0, htgt⟩ := hpost
      exact ⟨p0, hp0, by rw [htgt, hsteq]⟩

theorem srProps_target [LinearOrder K] {st : SkipState K V}
    {gl : Nat → List Nat} (hInv : Inv st gl) {k : K} {res : SearchRes}
    (hSR : SRProps st gl k res) {p0 : Ref}
    (hp0 : res.prev.get? 0 = some p0)
    (htgt : res.target = exactTarget st p0 k) :
    (∀ i ni, i ∈ gl 0 → st.node? i = some ni → ni.key = k →
      res.target = some i) ∧
    (∀ t, res.target = some t → t ∈ gl 0 ∧ ∃ n, st.node? t = some n ∧
      n.key = k ∧ n.removed = false) := by
  obtain ⟨hlen, hpp⟩ := hSR
  have hPP := hpp 0 p0 (by decide) hp0
  obtain ⟨hfirst, tl, htl, htag, hptr⟩ := hPP
  constructor
  · intro i ni hi hni hk
    have hq : succPtr st p0 0 = some tl.ptr := by
      unfold succPtr
      rw [htl]
      rfl
    have hqi := chain_succ_at (hInv.chains 0 (by decide)) (hInv.sorted 0)
      hfirst hq hptr hi hni hk
    have hrem : ni.removed = false := by
      obtain ⟨nmem, hnmem, hrm, -⟩ := hInv.memProps 0 i hi
      rw [hni] at hnmem
      rw [← Option.some.inj hnmem] at hrm
      exact hrm
    rw [htgt]
    unfold exactTarget
    rw [htl]
    show (match tl.ptr with
      | none => none
      | some nid =>
        match st.node? nid with
        | none => none
        | some n => if n.key = k ∧ n.removed = false then some nid
          else none) = some i
    rw [hqi]
    show (match st.node? i with
      | none => none
      | some n => if n.key = k ∧ n.removed = false then some i
        else none) = some i
    rw [hni]
    show (if ni.key = k ∧ ni.removed = false then some i else none) = some i
    rw [if_pos ⟨hk, hrem⟩]
  · intro t ht
    rw [htgt] at ht
    unfold exactTarget at ht
    rw [htl] at ht
    have ht' : (match tl.ptr with
      | none => none
      | some nid =>
        match st.node? nid with
        | none => none
        | some n => if n.key = k ∧ n.removed = false then some nid
          else none) = some t := ht
    rcases hptr with hnullp | ⟨j, nj, hj, hnj, hjm, hjk⟩
    · rw [hnullp] at ht'
      exact absurd ht' (by simp)
    · rw [hj] at ht'
      have ht2 : (match st.node? j with
        | none => none
        | some n => if n.key = k ∧ n.removed = false then some j
          else none) = some t := ht'
      rw [hnj] at ht2
      have ht3 : (if nj.key = k ∧ nj.removed = false then some j
        else none) = some t := ht2
      split at ht3
      next hcond =>
        have hteq : t = j := (Option.some.inj ht3).symm
        subst hteq
        exact ⟨hjm, nj, hnj, hcond.1, hcond.2⟩
      next hcond => exact absurd ht3 (by simp)

theorem inv_newList [LinearOrder K] (seed : Nat) :
    Inv (newList K V seed) (fun _ => ([] : List Nat)) := by
  have hnode : ∀ i, (newList K V seed).node? i = none := by
    intro i
    simp [newList, SkipState.node?]
  refine
    { headLen := by simp [newList]
      maxLe := by norm_num [newList, HEIGHT, HEIGHT_BITS]
      maxPos := le_refl 1
      emptyHi := fun _ _ => rfl
      chains := fun lv hlv => ChainSeg.nil _ _ ?_
      sorted := fun _ => List.Pairwise.nil
      sub := fun _ => List.Sublist.refl _
      memProps := fun lv i hi => absurd hi (by simp)
      nodeStruct := fun i n hn => absurd (hn ▸ hnode i) (by simp)
      tags0 := fun i hi => absurd hi (by simp)
      headTags0 := fun lv tl htl => ?_
      full := fun i hi => absurd hi (by simp)
      refsEq := fun i n hi => absurd hi (by simp)
      liveInChain := fun i n hn => absurd (hn ▸ hnode i) (by simp) }
  · unfold succPtr
    rw [loadLevel_head]
    show ((List.replicate HEIGHT TL.null).get? lv).map TL.ptr = some none
    rw [get?_replicate_lt hlv]
    rfl
  · rw [loadLevel_head] at htl
    have := List.eq_of_mem_replicate (List.get?_mem
      (by exact htl : (List.replicate HEIGHT TL.null).get? lv = some tl))
    rw [this]
    rfl

/-! ### Logical removal and tagging on a quiescent state -/

theorem setRemoved_of_live {st : SkipState K V} {t : Nat} {n : Node K V}
    (hn : st.node? t = some n) (hrm : n.removed = false) :
    setRemoved st t = (true, st.setNode t { n with removed := true }) := by
  unfold setRemoved
  rw [hn]
  show (if n.removed = true then (false, st)
    else (true, st.setNode t { n with removed := true })) = _
  rw [if_neg (by simp [hrm])]

theorem storeLevel_meta (st : SkipState K V) (r : Ref) (lv : Nat) (tl : TL) :
    (st.storeLevel r lv tl).len = st.len ∧
    (st.storeLevel r lv tl).maxHeight = st.maxHeight ∧
    (st.storeLevel r lv tl).seed = st.seed ∧
    (st.storeLevel r lv tl).retired = st.retired ∧
    (st.storeLevel r lv tl).nodes.length = st.nodes.length := by
  cases r with
  | none => exact ⟨rfl, rfl, rfl, rfl, rfl⟩
  | some i =>
    rw [storeLevel_some_eq]
    cases hn : st.node? i with
    | none => exact ⟨rfl, rfl, rfl, rfl, rfl⟩
    | some n =>
      refine ⟨rfl, rfl, rfl, rfl, ?_⟩
      simp [SkipState.setNode]

theorem loadLevel_setNode_ne {st : SkipState K V} {i j : Nat}
    (hij : i ≠ j) (n : Node K V) (lv : Nat) :
    (st.setNode i n).loadLevel (some j) lv = st.loadLevel (some j) lv := by
  unfold SkipState.loadLevel
  simp only [SkipState.levelsOf, node?_setNode, if_neg hij]

theorem loadLevel_setNode_head (st : SkipState K V) (i : Nat)
    (n : Node K V) (lv : Nat) :
    (st.setNode i n).loadLevel none lv = st.loadLevel none lv := rfl

theorem loadLevel_setNode_levels {st : SkipState K V} {i : Nat}
    {n n' : Node K V} (hn : st.node? i = some n)
    (hlv : n'.levels = n.levels) (lv : Nat) :
    (st.setNode i n').loadLevel (some i) lv = st.loadLevel (some i) lv := by
  unfold SkipState.loadLevel
  simp only [SkipState.levelsOf, node?_setNode]
  simp [hn, hlv]

theorem tagLevelsGo_spec {t : Nat} :
    ∀ (L : List Nat) (stc : SkipState K V), L.Nodup →
      (∀ lv ∈ L, ∃ tl, stc.loadLevel (some t) lv = some tl ∧ tl.tag = 0) →
      ∃ st2, tagLevelsGo t 1 stc L = (true, st2) ∧
        (∀ j, j ≠ t → st2.node? j = stc.node? j) ∧
        st2.headLevels = stc.headLevels ∧
        st2.len = stc.len ∧ st2.maxHeight = stc.maxHeight ∧
        st2.retired = stc.retired ∧
        st2.nodes.length = stc.nodes.length ∧
        (∀ lv, lv ∉ L →
          st2.loadLevel (some t) lv = stc.loadLevel (some t) lv) ∧
        (∀ lv ∈ L, ∃ tl, stc.loadLevel (some t) lv = some tl ∧
          st2.loadLevel (some t) lv = some ⟨tl.ptr, 1⟩) ∧
        ((st2.node? t).map Node.core = (stc.node? t).map Node.core) ∧
        ((st2.node? t).map (fun n => n.refs) =
          (stc.node? t).map (fun n => n.refs)) ∧
        ((st2.node? t).map (fun n => n.removed) =
          (stc.node? t).map (fun n => n.removed)) ∧
        ((st2.node? t).map (fun n => n.levels.length) =
          (stc.node? t).map (fun n => n.levels.length)) := by
  intro L
  induction L with
  | nil =>
    intro stc _ _
    exact ⟨stc, rfl, fun _ _ => rfl, rfl, rfl, rfl, rfl, rfl,
      fun _ _ => rfl, fun lv hlv => absurd hlv (by simp), rfl, rfl, rfl, rfl⟩
  | cons lv rest ih =>
    intro stc hnd hcells
    obtain ⟨tl, htl, htag⟩ := hcells lv (List.mem_cons_self lv rest)
    have hlvrest : lv ∉ rest := (List.nodup_cons.mp hnd).1
    have hndrest : rest.Nodup := (List.nodup_cons.mp hnd).2
    have hstep : tagLevelsGo t 1 stc (lv :: rest) =
        tagLevelsGo t 1 (stc.storeLevel (some t) lv ⟨tl.ptr, 1⟩) rest := by
      simp only [tagLevelsGo, htl]
      rw [if_pos htag]
    obtain ⟨st2, hrun, hjne, hhead, hlen, hmax, hret, hnlen, hout, hin,
      hcore, hrefs, hrem, hlens⟩ := ih (stc.storeLevel (some t) lv
        ⟨tl.ptr, 1⟩) hndrest (by
          intro lv' hlv'
          obtain ⟨tl', htl', htag'⟩ := hcells lv' (List.mem_cons_of_mem _ hlv')
          refine ⟨tl', ?_, htag'⟩
          rw [loadLevel_store_other (Or.inr
            (fun he => hlvrest (by rw [← he]; exact hlv')))]
          exact htl')
    refine ⟨st2, by rw [hstep]; exact hrun, ?_, ?_, ?_, ?_, ?_, ?_, ?_, ?_,
      ?_, ?_, ?_, ?_⟩
    · intro j hj
      rw [hjne j hj, node?_storeLevel_ne (fun he => hj
        (Option.some.inj he).symm)]
    · rw [hhead, headLevels_storeLevel_node]
    · rw [hlen, (storeLevel_meta stc (some t) lv ⟨tl.ptr, 1⟩).1]
    · rw [hmax, (storeLevel_meta stc (some t) lv ⟨tl.ptr, 1⟩).2.1]
    · rw [hret, (storeLevel_meta stc (some t) lv ⟨tl.ptr, 1⟩).2.2.2.1]
    · rw [hnlen, (storeLevel_meta stc (some t) lv ⟨tl.ptr, 1⟩).2.2.2.2]
    · intro lv' hlv'
      have h1 : lv' ∉ rest := fun hc => hlv' (List.mem_cons_of_mem _ hc)
      have h2 : lv' ≠ lv := fun hc => hlv'
        (by rw [hc]; exact List.mem_cons_self lv rest)
      rw [hout lv' h1, loadLevel_store_other (Or.inr h2)]
    · intro lv' hlv'
      rcases List.mem_cons.mp hlv' with hlv' | hlv'
      · subst hlv'
        refine ⟨tl, htl, ?_⟩
        rw [hout lv' hlvrest]
        exact loadLevel_store_self htl
      · obtain ⟨tl', htl', hst2⟩ := hin lv' hlv'
        refine ⟨tl', ?_, hst2⟩
        rw [loadLevel_store_other (Or.inr
          (fun he => hlvrest (by rw [← he]; exact hlv')))] at htl'
        exact htl'
    · rw [hcore, (node?_storeLevel_fields stc (some t) lv ⟨tl.ptr, 1⟩ t).1]
    · rw [hrefs,
        (node?_storeLevel_fields stc (some t) lv ⟨tl.ptr, 1⟩ t).2.2.1]
    · rw [hrem,
        (node?_storeLevel_fields stc (some t) lv ⟨tl.ptr, 1⟩ t).2.2.2]
    · rw [hlens,
        (node?_storeLevel_fields stc (some t) lv ⟨tl.ptr, 1⟩ t).2.1]

theorem range_reverse_succ (m : Nat) :
    (List.range (m + 1)).reverse = m :: (List.range m).reverse := by
  rw [List.range_succ, List.reverse_append]
  rfl

/-! ### Chain surgery: erasing and inserting one node at one level -/

theorem succPtr_congr {s s' : SkipState K V} {r : Ref} {lv : Nat}
    (h : s'.loadLevel r lv = s.loadLevel r lv) :
    succPtr s' r lv = succPtr s r lv := by
  unfold succPtr
  rw [h]

theorem node?_congr {s s' : SkipState K V} (hn : s'.nodes = s.nodes)
    (j : Nat) : s'.node? j = s.node? j := by
  unfold SkipState.node?
  rw [hn]

theorem loadLevel_congr {s s' : SkipState K V} (hn : s'.nodes = s.nodes)
    (hh : s'.headLevels = s.headLevels) (r : Ref) (lv : Nat) :
    s'.loadLevel r lv = s.loadLevel r lv := by
  simp only [SkipState.loadLevel, SkipState.levelsOf, SkipState.node?, hn, hh]

theorem seg_erase_head {st st' : SkipState K V} {lv t : Nat} {bs : List Nat}
    (htail : ChainSeg st lv (some t) bs none)
    (hnew : succPtr st' none lv = some (segNext bs none))
    (hmono : ∀ j, j ∈ bs → succPtr st' (some j) lv = succPtr st (some j) lv) :
    ChainSeg st' lv none bs none := by
  cases htail with
  | nil _ _ hq2 => exact ChainSeg.nil _ _ hnew
  | cons _ b bs' _ hb hrest =>
    exact ChainSeg.cons _ _ _ _ hnew
      (seg_mono hrest (hmono b (List.mem_cons_self b bs'))
        (fun x hx => hmono x (List.mem_cons_of_mem b hx)))

theorem seg_erase_mid {st st' : SkipState K V} {lv : Nat} {cs : List Nat}
    {ip t : Nat} {ds2 : List Nat}
    (hc1 : ChainSeg st lv none cs (some ip))
    (hc3 : ChainSeg st lv (some t) ds2 none)
    (hnew : succPtr st' (some ip) lv = some (segNext ds2 none))
    (hmono0 : succPtr st' none lv = succPtr st none lv)
    (hmonoCs : ∀ j, j ∈ cs →
      succPtr st' (some j) lv = succPtr st (some j) lv)
    (hmonoDs : ∀ j, j ∈ ds2 →
      succPtr st' (some j) lv = succPtr st (some j) lv) :
    ChainSeg st' lv none (cs ++ ip :: ds2) none := by
  have hcs' : ChainSeg st' lv none cs (some ip) :=
    seg_mono hc1 hmono0 hmonoCs
  have hds' : ChainSeg st' lv (some ip) ds2 none := by
    cases hc3 with
    | nil _ _ hq2 => exact ChainSeg.nil _ _ hnew
    | cons _ d ds3 _ hd hrest =>
      exact ChainSeg.cons _ _ _ _ hnew
        (seg_mono hrest (hmonoDs d (List.mem_cons_self d ds3))
          (fun x hx => hmonoDs x (List.mem_cons_of_mem d hx)))
  exact seg_glue hcs' hds'

theorem seg_insert_head {st st' : SkipState K V} {lv w : Nat}
    {xs : List Nat} (hchain : ChainSeg st lv none xs none)
    (hneww : succPtr st' (some w) lv = some (segNext xs none))
    (hnewh : succPtr st' none lv = some (some w))
    (hmono : ∀ j, j ∈ xs → succPtr st' (some j) lv = succPtr st (some j) lv) :
    ChainSeg st' lv none (w :: xs) none := by
  refine ChainSeg.cons _ _ _ _ hnewh ?_
  cases hchain with
  | nil _ _ hq => exact ChainSeg.nil _ _ hneww
  | cons _ b bs' _ hb hrest =>
    exact ChainSeg.cons _ _ _ _ hneww
      (seg_mono hrest (hmono b (List.mem_cons_self b bs'))
        (fun x hx => hmono x (List.mem_cons_of_mem b hx)))

theorem seg_insert_mid {st st' : SkipState K V} {lv : Nat} {cs : List Nat}
    {ip w : Nat} {ds : List Nat}
    (hc1 : ChainSeg st lv none cs (some ip))
    (hc2 : ChainSeg st lv (some ip) ds none)
    (hnewip : succPtr st' (some ip) lv = some (some w))
    (hneww : succPtr st' (some w) lv = some (segNext ds none))
    (hmono0 : succPtr st' none lv = succPtr st none lv)
    (hmonoCs : ∀ j, j ∈ cs →
      succPtr st' (some j) lv = succPtr st (some j) lv)
    (hmonoDs : ∀ j, j ∈ ds →
      succPtr st' (some j) lv = succPtr st (some j) lv) :
    ChainSeg st' lv none (cs ++ ip :: w :: ds) none := by
  have hcs' : ChainSeg st' lv none cs (some ip) :=
    seg_mono hc1 hmono0 hmonoCs
  have hwd : ChainSeg st' lv (some ip) (w :: ds) none := by
    refine ChainSeg.cons _ _ _ _ hnewip ?_
    cases hc2 with
    | nil _ _ hq => exact ChainSeg.nil _ _ hneww
    | cons _ d ds3 _ hd hrest =>
      exact ChainSeg.cons _ _ _ _ hneww
        (seg_mono hrest (hmonoDs d (List.mem_cons_self d ds3))
          (fun x hx => hmonoDs x (List.mem_cons_of_mem d hx)))
  exact seg_glue hcs' hwd

theorem midInv_meta [LinearOrder K] {st : SkipState K V}
    {gl : Nat → List Nat} {k : K} {t : Nat} {prev : List Ref} {m : Nat}
    {s s' : SkipState K V} (h : MidInv st gl k t prev m s)
    (hn : s'.nodes = s.nodes) (hh : s'.headLevels = s.headLevels)
    (hm : s'.maxHeight = s.maxHeight) : MidInv st gl k t prev m s' := by
  have hcell := loadLevel_congr hn hh
  have hnode := node?_congr hn
  refine
    { core := fun j => by rw [hnode j]; exact h.core j
      lens := fun j => by rw [hnode j]; exact h.lens j
      refsO := fun j hj => by rw [hnode j]; exact h.refsO j hj
      remO := fun j hj => by rw [hnode j]; exact h.remO j hj
      tRec := by rw [hnode t]; exact h.tRec
      headLen := by rw [hh]; exact h.headLen
      maxH := by rw [hm]; exact h.maxH
      chainsLo := fun lv h1 h2 => seg_mono (h.chainsLo lv h1 h2)
        (succPtr_congr (hcell none lv))
        (fun j _ => succPtr_congr (hcell (some j) lv))
      chainsHi := fun lv h1 h2 => seg_mono (h.chainsHi lv h1 h2)
        (succPtr_congr (hcell none lv))
        (fun j _ => succPtr_congr (hcell (some j) lv))
      prevP := fun i p h1 h2 => prevProp_mono (h.prevP i p h1 h2)
        (hcell p i) (fun j => by rw [hnode j])
      tags := fun j hj hjt lv tl htl => h.tags j hj hjt lv tl
        (by rw [← hcell (some j) lv]; exact htl)
      headTags := fun lv tl htl => h.headTags lv tl
        (by rw [← hcell none lv]; exact htl)
      nlen := by rw [hn]; exact h.nlen }

theorem storeLevel_headLen (st : SkipState K V) (r : Ref) (lv : Nat)
    (tl : TL) :
    (st.storeLevel r lv tl).headLevels.length = st.headLevels.length := by
  cases r with
  | none => simp [storeLevel_none_eq]
  | some i => rw [headLevels_storeLevel_node]

theorem unlink_step [LinearOrder K] {st : SkipState K V} {gl : Nat → List Nat}
    (hInv : Inv st gl) {k : K} {t : Nat} {nt : Node K V}
    (hnt : st.node? t = some nt) (hkey : nt.key = k) (htm : t ∈ gl 0)
    {prev : List Ref} {m : Nat} {stm : SkipState K V}
    (hm1 : m + 1 ≤ nt.height)
    (hMid : MidInv st gl k t prev (m + 1) stm)
    {prevR : Ref} (hget : prev.get? m = some prevR) :
    ∃ tl tlp ntm,
      stm.loadLevel (some t) m = some tl ∧
      stm.loadLevel prevR m = some tlp ∧
      tlp = ⟨some t, 0⟩ ∧
      stm.node? t = some ntm ∧ ntm.refs = m + 1 ∧
      MidInv st gl k t prev m
        ((stm.storeLevel prevR m ⟨tl.ptr, 0⟩).setNode t
          { ntm with refs := ntm.refs - 1 }) := by
  have hHlt : nt.height ≤ HEIGHT := (hInv.nodeStruct t nt hnt).2.2
  have hmH : m < HEIGHT := by omega
  obtain ⟨ntm, hntm, hrm, hrefs⟩ := hMid.tRec
  have hlenm : ntm.levels.length = nt.levels.length := by
    have h := hMid.lens t
    rw [hntm, hnt] at h
    simpa using h
  have hlen' : nt.levels.length = nt.height := (hInv.nodeStruct t nt hnt).1
  have hkm : ntm.key = k := by
    obtain ⟨n', hn', hk', -, -⟩ := node?_of_core hMid.core hnt
    rw [hntm] at hn'
    rw [Option.some.inj hn', hk', hkey]
  obtain ⟨tl, htl⟩ := loadLevel_isSome_of hntm
    (show m < ntm.levels.length by omega)
  have hPP := hMid.prevP m prevR (by omega) hget
  obtain ⟨hfirst, tlp, htlp, htag, hptr⟩ := hPP
  have htmm : t ∈ gl m := hInv.full t htm m nt hnt (by omega)
  have hsorted : (gl m).Pairwise (fun a b => keyLtB stm a b = true) := by
    refine (hInv.sorted m).imp ?_
    intro a b hab
    rw [keyLtB_congr hMid.core a b]
    exact hab
  have hsucc : succPtr stm prevR m = some tlp.ptr := by
    unfold succPtr
    rw [htlp]
    rfl
  have hptrT : tlp.ptr = some t :=
    chain_succ_at (hMid.chainsLo m (by omega) hmH) hsorted hfirst hsucc hptr
      htmm hntm hkm
  have htlpv : tlp = ⟨some t, 0⟩ := by
    rcases tlp with ⟨p, tg⟩
    simp only [TL.mk.injEq]
    exact ⟨hptrT, htag⟩
  have hpne : prevR ≠ some t := by
    rcases hfirst with hf | ⟨ip, nip, hpe, hnip, hipm, hiplt⟩
    · rw [hf]
      simp
    · rw [hpe]
      intro he
      rw [Option.some.inj he, hntm] at hnip
      rw [← Option.some.inj hnip] at hiplt
      rw [hkm] at hiplt
      exact absurd hiplt (lt_irrefl k)
  refine ⟨tl, tlp, ntm, htl, htlp, htlpv, hntm, hrefs, ?_⟩
  set stA := stm.storeLevel prevR m ⟨tl.ptr, 0⟩ with hstA
  set stB := stA.setNode t { ntm with refs := ntm.refs - 1 } with hstB
  have hcellB : ∀ (r : Ref) (lv : Nat),
      stB.loadLevel r lv = stA.loadLevel r lv := by
    intro r lv
    cases r with
    | none => exact loadLevel_setNode_head _ _ _ _
    | some j =>
      by_cases hj : j = t
      · subst hj
        exact loadLevel_setNode_levels
          (by rw [hstA, node?_storeLevel_ne hpne]; exact hntm)
          (show ({ ntm with refs := ntm.refs - 1 } : Node K V).levels =
            ntm.levels from rfl) lv
      · exact loadLevel_setNode_ne (fun he => hj he.symm) _ lv
  have hcellA : ∀ (r : Ref) (lv : Nat), (r ≠ prevR ∨ lv ≠ m) →
      stA.loadLevel r lv = stm.loadLevel r lv := by
    intro r lv h
    rw [hstA]
    exact loadLevel_store_other h
  have hcellStore : stA.loadLevel prevR m = some ⟨tl.ptr, 0⟩ := by
    rw [hstA]
    exact loadLevel_store_self htlp
  have hBt : stB.node? t = some { ntm with refs := ntm.refs - 1 } := by
    rw [hstB, node?_setNode, if_pos rfl, hstA, node?_storeLevel_ne hpne,
      hntm]
    rfl
  have hBj : ∀ j, j ≠ t → stB.node? j = stA.node? j := by
    intro j hj
    rw [hstB, node?_setNode, if_neg (fun he => hj he.symm)]
  have hcoreBm : ∀ j,
      (stB.node? j).map Node.core = (stm.node? j).map Node.core := by
    intro j
    by_cases hj : j = t
    · subst hj
      rw [hBt, hntm]
      rfl
    · rw [hBj j hj, hstA]
      exact (node?_storeLevel_fields stm prevR m ⟨tl.ptr, 0⟩ j).1
  have hlensBm : ∀ j, (stB.node? j).map (fun n => n.levels.length) =
      (stm.node? j).map (fun n => n.levels.length) := by
    intro j
    by_cases hj : j = t
    · subst hj
      rw [hBt, hntm]
      rfl
    · rw [hBj j hj, hstA]
      exact (node?_storeLevel_fields stm prevR m ⟨tl.ptr, 0⟩ j).2.1
  have hrefsBm : ∀ j, j ≠ t → (stB.node? j).map (fun n => n.refs) =
      (stm.node? j).map (fun n => n.refs) := by
    intro j hj
    rw [hBj j hj, hstA]
    exact (node?_storeLevel_fields stm prevR m ⟨tl.ptr, 0⟩ j).2.2.1
  have hremBm : ∀ j, j ≠ t → (stB.node? j).map (fun n => n.removed) =
      (stm.node? j).map (fun n => n.removed) := by
    intro j hj
    rw [hBj j hj, hstA]
    exact (node?_storeLevel_fields stm prevR m ⟨tl.ptr, 0⟩ j).2.2.2
  have hchainsHi : ∀ lv, m ≤ lv → lv < HEIGHT →
      ChainSeg stB lv none ((gl lv).erase t) none := by
    intro lv h1 h2
    by_cases hlvm : lv = m
    · subst hlvm
      -- the actual unlink surgery at level `lv`
      have hnd : (gl lv).Nodup := nodup_of_pairwise_keys (hInv.sorted lv)
      have hchm : ChainSeg stm lv none (gl lv) none :=
        hMid.chainsLo lv (by omega) h2
      have h3 : succPtr stm (some t) lv = some tl.ptr := by
        unfold succPtr
        rw [htl]
        rfl
      rcases hfirst with hf | ⟨ip, nip, hpe, hnip, hipm, hiplt⟩
      · subst hf
        have hheadm := seg_head hchm
        have hseg : segNext (gl lv) none = some t := by
          have hx : succPtr stm none lv = some tlp.ptr := hsucc
          rw [hptrT] at hx
          exact Option.some.inj (hheadm.symm.trans hx)
        cases hgm : gl lv with
        | nil =>
          rw [hgm] at hseg
          exact absurd hseg (by simp [segNext])
        | cons x bs =>
          rw [hgm] at hseg
          have hxt : x = t := by simpa [segNext] using hseg
          rw [hgm] at hchm
          cases hchm with
          | cons _ _ _ _ hhd htail =>
            rw [hxt, List.erase_cons_head]
            refine seg_erase_head (t := t) (by rw [← hxt]; exact htail)
              ?_ ?_
            · have hx1 : stB.loadLevel none lv = some ⟨tl.ptr, 0⟩ :=
                (hcellB none lv).trans hcellStore
              have hx2 : succPtr stB none lv = some tl.ptr := by
                unfold succPtr
                rw [hx1]
                rfl
              have hx4 := seg_head htail
              rw [hxt] at hx4
              rw [hx2, Option.some.inj (h3.symm.trans hx4)]
            · intro j hj
              exact succPtr_congr ((hcellB (some j) lv).trans
                (hcellA (some j) lv (Or.inl (by simp))))
      · subst hpe
        obtain ⟨cs, ds, hsplit⟩ := List.append_of_mem hipm
        have hndm := hnd
        rw [hsplit] at hndm
        have hchm2 := hchm
        rw [hsplit] at hchm2
        obtain ⟨hc1, hc2⟩ := seg_split_cons hchm2
        have hip4 := seg_head hc2
        have hseg : segNext ds none = some t := by
          have hx : succPtr stm (some ip) lv = some tlp.ptr := hsucc
          rw [hptrT] at hx
          exact Option.some.inj (hip4.symm.trans hx)
        cases hds : ds with
        | nil =>
          rw [hds] at hseg
          exact absurd hseg (by simp [segNext])
        | cons x ds2 =>
          rw [hds] at hseg
          have hxt : x = t := by simpa [segNext] using hseg
          rw [hds] at hc2
          rw [hds] at hsplit hndm
          cases hc2 with
          | cons _ _ _ _ hipx hc3 =>
            have hnd1 := List.nodup_append.mp hndm
            have hipt : ip ≠ t := fun he => hpne (by rw [he])
            have htcs : t ∉ cs := by
              intro hc
              exact hnd1.2.2 hc (List.mem_cons_of_mem ip
                (by rw [hxt]; exact List.mem_cons_self t ds2))
            have h7 : (ip :: x :: ds2).erase t =
                ip :: ((x :: ds2).erase t) :=
              List.erase_cons_tail (by simp [hipt])
            have herase : (gl lv).erase t = cs ++ ip :: ds2 := by
              rw [hsplit, List.erase_append_right _ htcs, h7, hxt,
                List.erase_cons_head]
            rw [herase]
            refine seg_erase_mid (t := t) hc1 (by rw [← hxt]; exact hc3) ?_ ?_ ?_ ?_
            · have hx1 : stB.loadLevel (some ip) lv = some ⟨tl.ptr, 0⟩ :=
                (hcellB _ lv).trans hcellStore
              have hx2 : succPtr stB (some ip) lv = some tl.ptr := by
                unfold succPtr
                rw [hx1]
                rfl
              have hx6 := seg_head hc3
              rw [hxt] at hx6
              rw [hx2, Option.some.inj (h3.symm.trans hx6)]
            · exact succPtr_congr ((hcellB none lv).trans
                (hcellA none lv (Or.inl (by simp))))
            · intro j hj
              have hjip : j ≠ ip := fun he => hnd1.2.2 hj
                (by rw [he]; exact List.mem_cons_self ip _)
              exact succPtr_congr ((hcellB (some j) lv).trans
                (hcellA (some j) lv (Or.inl (by simp [hjip]))))
            · intro j hj
              have hipnotin : ip ∉ x :: ds2 := (List.nodup_cons.mp
                hnd1.2.1).1
              have hjip : j ≠ ip := fun he => hipnotin
                (by rw [← he]; exact List.mem_cons_of_mem x hj)
              exact succPtr_congr ((hcellB (some j) lv).trans
                (hcellA (some j) lv (Or.inl (by simp [hjip]))))
    · refine seg_mono (hMid.chainsHi lv (by omega) h2) ?_ ?_
      · exact succPtr_congr ((hcellB none lv).trans
          (hcellA none lv (Or.inr hlvm)))
      · intro j _
        exact succPtr_congr ((hcellB (some j) lv).trans
          (hcellA (some j) lv (Or.inr hlvm)))
  refine
    { core := fun j => (hcoreBm j).trans (hMid.core j)
      lens := fun j => (hlensBm j).trans (hMid.lens j)
      refsO := fun j hj => (hrefsBm j hj).trans (hMid.refsO j hj)
      remO := fun j hj => (hremBm j hj).trans (hMid.remO j hj)
      tRec := ⟨{ ntm with refs := ntm.refs - 1 }, hBt, hrm, by
        show ntm.refs - 1 = m
        omega⟩
      headLen := by
        have h1 : stB.headLevels = stA.headLevels := rfl
        rw [h1, hstA, storeLevel_headLen]
        exact hMid.headLen
      maxH := by
        have h1 : stB.maxHeight = stA.maxHeight := rfl
        rw [h1, hstA, (storeLevel_meta stm prevR m ⟨tl.ptr, 0⟩).2.1]
        exact hMid.maxH
      chainsLo := fun lv h1 h2 => by
        refine seg_mono (hMid.chainsLo lv (by omega) h2) ?_ ?_
        · exact succPtr_congr ((hcellB none lv).trans
            (hcellA none lv (Or.inr (by omega))))
        · intro j _
          exact succPtr_congr ((hcellB (some j) lv).trans
            (hcellA (some j) lv (Or.inr (by omega))))
      chainsHi := hchainsHi
      prevP := fun i p h1 hgp => by
        refine prevProp_mono (hMid.prevP i p (by omega) hgp) ?_ hcoreBm
        exact (hcellB p i).trans (hcellA p i (Or.inr (by omega)))
      tags := fun j hj hjt lv tl' hload => by
        rw [hcellB (some j) lv] at hload
        by_cases hcase : (some j : Ref) = prevR ∧ lv = m
        · obtain ⟨he1, he2⟩ := hcase
          subst he2
          rw [← he1] at hcellStore
          rw [hcellStore] at hload
          rw [← Option.some.inj hload]
        · have hor : (some j : Ref) ≠ prevR ∨ lv ≠ m := by
            by_cases hj1 : (some j : Ref) = prevR
            · exact Or.inr (fun he => hcase ⟨hj1, he⟩)
            · exact Or.inl hj1
          rw [hcellA (some j) lv hor] at hload
          exact hMid.tags j hj hjt lv tl' hload
      headTags := fun lv tl' hload => by
        rw [hcellB none lv] at hload
        by_cases hcase : (none : Ref) = prevR ∧ lv = m
        · obtain ⟨he1, he2⟩ := hcase
          subst he2
          rw [← he1] at hcellStore
          rw [hcellStore] at hload
          rw [← Option.some.inj hload]
        · have hor : (none : Ref) ≠ prevR ∨ lv ≠ m := by
            by_cases hj1 : (none : Ref) = prevR
            · exact Or.inr (fun he => hcase ⟨hj1, he⟩)
            · exact Or.inl hj1
          rw [hcellA none lv hor] at hload
          exact hMid.headTags lv tl' hload
      nlen := by
        have hb : stB.nodes.length = stA.nodes.length := by
          rw [hstB]
          simp [SkipState.setNode]
        rw [hb, hstA, (storeLevel_meta stm prevR m ⟨tl.ptr, 0⟩).2.2.2.2]
        exact hMid.nlen }
theorem entryOf_of_core {st s : SkipState K V}
    (hc : ∀ j, (s.node? j).map Node.core = (st.node? j).map Node.core)
    {t : Nat} {nt : Node K V} (hnt : st.node? t = some nt) :
    s.entryOf t = some (nt.key, nt.val) := by
  obtain ⟨n', hn', hk, hv, -⟩ := node?_of_core hc hnt
  unfold SkipState.entryOf
  rw [hn']
  simp [hk, hv]

theorem midInv_to_inv [LinearOrder K] {st : SkipState K V}
    {gl : Nat → List Nat} (hInv : Inv st gl) {k : K} {t : Nat}
    {nt : Node K V} (hnt : st.node? t = some nt) (hkey : nt.key = k)
    (htm : t ∈ gl 0) {prev : List Ref} {s : SkipState K V}
    (h : MidInv st gl k t prev 0 s) :
    Inv s (fun lv => (gl lv).erase t) := by
  have hne : ∀ {lv i : Nat}, i ∈ (gl lv).erase t → i ∈ gl lv ∧ i ≠ t := by
    intro lv i hi
    refine ⟨List.mem_of_mem_erase hi, fun he => ?_⟩
    have hnd : (gl lv).Nodup := nodup_of_pairwise_keys (hInv.sorted lv)
    exact hnd.not_mem_erase (he ▸ hi)
  refine
    { headLen := h.headLen
      maxLe := by rw [h.maxH]; exact hInv.maxLe
      maxPos := by rw [h.maxH]; exact hInv.maxPos
      emptyHi := fun lv hlv => by
        rw [hInv.emptyHi lv (by rw [← h.maxH]; exact hlv)]
        rfl
      chains := fun lv hlv => h.chainsHi lv (Nat.zero_le _) hlv
      sorted := fun lv => by
        refine (((hInv.sorted lv).sublist (List.erase_sublist t
          (gl lv))).imp ?_)
        intro a b hab
        rw [keyLtB_congr h.core a b]
        exact hab
      sub := fun lv => List.Sublist.erase t (hInv.sub lv)
      memProps := fun lv i hi => by
        obtain ⟨him, hit⟩ := hne hi
        obtain ⟨n, hn, hrm, hlt⟩ := hInv.memProps lv i him
        obtain ⟨n', hn', hk', -, hh'⟩ := node?_of_core h.core hn
        refine ⟨n', hn', ?_, by rw [hh']; exact hlt⟩
        have := h.remO i hit
        rw [hn, hn'] at this
        rw [← hrm]
        simpa using this
      nodeStruct := fun i n' hn' => by
        obtain ⟨n, hn, -, -, hh'⟩ := node?_of_core_rev h.core hn'
        have hl := h.lens i
        rw [hn, hn'] at hl
        have hl2 : n'.levels.length = n.levels.length := by simpa using hl
        obtain ⟨h1, h2, h3⟩ := hInv.nodeStruct i n hn
        exact ⟨by rw [hl2, h1, ← hh'], by rw [hh']; exact h2,
          by rw [hh']; exact h3⟩
      tags0 := fun i hi lv tl htl => by
        obtain ⟨him, hit⟩ := hne hi
        exact h.tags i him hit lv tl htl
      headTags0 := h.headTags
      full := fun i hi lv n' hn' hlt => by
        obtain ⟨him, hit⟩ := hne hi
        obtain ⟨n, hn, -, -, hh'⟩ := node?_of_core_rev h.core hn'
        have hmem := hInv.full i him lv n hn (by rw [← hh']; exact hlt)
        exact (List.mem_erase_of_ne hit).mpr hmem
      refsEq := fun i n' hi hn' => by
        obtain ⟨him, hit⟩ := hne hi
        obtain ⟨n, hn, -, -, hh'⟩ := node?_of_core_rev h.core hn'
        have hr := h.refsO i hit
        rw [hn, hn'] at hr
        have : n'.refs = n.refs := by simpa using hr
        rw [this, hInv.refsEq i n him hn, hh']
      liveInChain := fun i n' hn' hrm' => by
        by_cases hit : i = t
        · subst hit
          obtain ⟨nt2, hnt2, hrm2, -⟩ := h.tRec
          rw [hnt2] at hn'
          rw [← Option.some.inj hn'] at hrm'
          rw [hrm2] at hrm'
          exact absurd hrm' (by simp)
        · obtain ⟨n, hn, -, -, -⟩ := node?_of_core_rev h.core hn'
          have hr := h.remO i hit
          rw [hn, hn'] at hr
          have : n'.removed = n.removed := by simpa using hr
          have hmem := hInv.liveInChain i n hn (by rw [← this]; exact hrm')
          exact (List.mem_erase_of_ne hit).mpr hmem }

theorem midInv_init [LinearOrder K] {st : SkipState K V}
    {gl : Nat → List Nat} (hInv : Inv st gl) {k : K} {t : Nat}
    {nt : Node K V} (hnt : st.node? t = some nt) (hkey : nt.key = k)
    (htm : t ∈ gl 0) {prev : List Ref}
    (hprev : ∀ lv p, lv < HEIGHT → prev.get? lv = some p →
      PrevProp st gl k lv p) :
    ∃ st2,
      setRemoved st t = (true, st.setNode t { nt with removed := true }) ∧
      tagLevels (st.setNode t { nt with removed := true }) t 1 =
        (true, st2) ∧
      MidInv st gl k t prev nt.height st2 := by
  have hrm0 : nt.removed = false := by
    obtain ⟨n0, hn0, hr0, -⟩ := hInv.memProps 0 t htm
    rw [hnt] at hn0
    rw [Option.some.inj hn0]
    exact hr0
  have hlen' : nt.levels.length = nt.height := (hInv.nodeStruct t nt hnt).1
  have hsetr := setRemoved_of_live hnt hrm0
  have h1t : (st.setNode t { nt with removed := true }).node? t =
      some { nt with removed := true } := by
    rw [node?_setNode, if_pos rfl, hnt]
    rfl
  have h1j : ∀ j, j ≠ t →
      (st.setNode t { nt with removed := true }).node? j = st.node? j := by
    intro j hj
    rw [node?_setNode, if_neg (fun he => hj he.symm)]
  have h1cell : ∀ (r : Ref) (lv : Nat),
      (st.setNode t { nt with removed := true }).loadLevel r lv =
        st.loadLevel r lv := by
    intro r lv
    cases r with
    | none => exact loadLevel_setNode_head _ _ _ _
    | some j =>
      by_cases hj : j = t
      · subst hj
        exact loadLevel_setNode_levels hnt
          (show ({ nt with removed := true } : Node K V).levels =
            nt.levels from rfl) lv
      · exact loadLevel_setNode_ne (fun he => hj he.symm) _ lv
  have hh1 : (st.setNode t { nt with removed := true }).heightOf t =
      nt.height := by
    unfold SkipState.heightOf
    rw [h1t]
  have hnodL : ((List.range nt.height).reverse).Nodup :=
    List.nodup_reverse.mpr (List.nodup_range _)
  have hmemL : ∀ lv, lv ∈ (List.range nt.height).reverse ↔
      lv < nt.height := by
    intro lv
    rw [List.mem_reverse, List.mem_range]
  obtain ⟨st2, hrun, hjne, hhead, hlen2, hmax2, hret2, hnlen2, hout, hin,
    hcore2, hrefs2, hrem2, hlens2⟩ :=
    tagLevelsGo_spec ((List.range nt.height).reverse)
      (st.setNode t { nt with removed := true }) hnodL (by
        intro lv hlv
        rw [h1cell]
        obtain ⟨tl, htl⟩ := loadLevel_isSome_of hnt
          (show lv < nt.levels.length by
            rw [hlen']
            exact (hmemL lv).mp hlv)
        exact ⟨tl, htl, hInv.tags0 t htm lv tl htl⟩)
  have hcellh2 : ∀ lv, st2.loadLevel none lv =
      st.loadLevel none lv := by
    intro lv
    rw [loadLevel_head, loadLevel_head, hhead]
    rfl
  have hcellj2 : ∀ j, j ≠ t → ∀ lv, st2.loadLevel (some j) lv =
      st.loadLevel (some j) lv := by
    intro j hj lv
    unfold SkipState.loadLevel
    simp only [SkipState.levelsOf, hjne j hj, h1j j hj]
  have hcore : ∀ j, (st2.node? j).map Node.core =
      (st.node? j).map Node.core := by
    intro j
    by_cases hj : j = t
    · subst hj
      rw [hcore2, h1t, hnt]
      rfl
    · rw [hjne j hj, h1j j hj]
  have hsuccAll : ∀ (r : Ref) (lv : Nat),
      succPtr st2 r lv = succPtr st r lv := by
    intro r lv
    cases r with
    | none => exact succPtr_congr (hcellh2 lv)
    | some j =>
      by_cases hj : j = t
      · subst hj
        by_cases hlv : lv < nt.height
        · obtain ⟨tl, htl1, htl2⟩ := hin lv ((hmemL lv).mpr hlv)
          rw [h1cell] at htl1
          unfold succPtr
          rw [htl1, htl2]
          rfl
        · have := hout lv (fun hc => hlv ((hmemL lv).mp hc))
          rw [h1cell] at this
          exact succPtr_congr this
      · exact succPtr_congr (hcellj2 j hj lv)
  obtain ⟨nt2, hnt2⟩ : ∃ nt2, st2.node? t = some nt2 := by
    have hc := hcore2
    rw [h1t] at hc
    cases ho : st2.node? t with
    | none => rw [ho] at hc; exact absurd hc (by simp)
    | some x => exact ⟨x, rfl⟩
  refine ⟨st2, hsetr, by unfold tagLevels; rw [hh1]; exact hrun, ?_⟩
  refine
    { core := hcore
      lens := fun j => by
        by_cases hj : j = t
        · subst hj
          rw [hlens2, h1t, hnt]
          rfl
        · rw [hjne j hj, h1j j hj]
      refsO := fun j hj => by rw [hjne j hj, h1j j hj]
      remO := fun j hj => by rw [hjne j hj, h1j j hj]
      tRec := ?_
      headLen := by
        have : st2.headLevels = st.headLevels := by rw [hhead]; rfl
        rw [this]
        exact hInv.headLen
      maxH := by rw [hmax2]; rfl
      chainsLo := fun lv h1 h2 => seg_mono (hInv.chains lv h2)
        (hsuccAll none lv) (fun j _ => hsuccAll (some j) lv)
      chainsHi := fun lv h1 h2 => by
        have htn : t ∉ gl lv := by
          intro hc
          obtain ⟨n, hn, -, hlt⟩ := hInv.memProps lv t hc
          rw [hnt] at hn
          rw [← Option.some.inj hn] at hlt
          omega
        rw [List.erase_of_not_mem htn]
        exact seg_mono (hInv.chains lv h2) (hsuccAll none lv)
          (fun j _ => hsuccAll (some j) lv)
      prevP := fun i p hi hget => by
        have hPP := hprev i p (by
          have := (hInv.nodeStruct t nt hnt).2.2
          omega) hget
        refine prevProp_mono hPP ?_ hcore
        obtain ⟨hfirst, -⟩ := hPP
        rcases hfirst with hf | ⟨ip, nip, hpe, hnip, hipm, hiplt⟩
        · rw [hf]
          exact hcellh2 i
        · rw [hpe]
          refine hcellj2 ip (fun he => ?_) i
          rw [he, hnt] at hnip
          rw [← Option.some.inj hnip, hkey] at hiplt
          exact absurd hiplt (lt_irrefl k)
      tags := fun j hj hjt lv tl htl => by
        rw [hcellj2 j hjt lv] at htl
        exact hInv.tags0 j hj lv tl htl
      headTags := fun lv tl htl => by
        rw [hcellh2 lv] at htl
        exact hInv.headTags0 lv tl htl
      nlen := by
        rw [hnlen2]
        simp [SkipState.setNode] }
  · -- tRec
    refine ⟨nt2, hnt2, ?_, ?_⟩
    · have hr := hrem2
      rw [hnt2, h1t] at hr
      simpa using hr
    · have hr := hrefs2
      rw [hnt2, h1t] at hr
      have : nt2.refs = nt.refs := by simpa using hr
      rw [this, hInv.refsEq t nt htm hnt]

theorem unlink_run [LinearOrder K] {st : SkipState K V} {gl : Nat → List Nat}
    (hInv : Inv st gl) {k : K} {t : Nat} {nt : Node K V}
    (hnt : st.node? t = some nt) (hkey : nt.key = k) (htm : t ∈ gl 0)
    {prev : List Ref} (hplen : prev.length = HEIGHT) :
    ∀ (m : Nat), 1 ≤ m → m ≤ nt.height →
      ∀ (stm : SkipState K V), MidInv st gl k t prev m stm →
      ∀ {o : Option Nat} {st' : SkipState K V},
      unlinkGo t prev stm ((List.range m).reverse) = .ok (o, st') →
      o = none ∧ MidInv st gl k t prev 0 st' := by
  intro m
  induction m with
  | zero =>
    intro h1
    omega
  | succ m ih =>
    intro h1 hle stm hMid o st' h
    have hmH : m < HEIGHT := by
      have := (hInv.nodeStruct t nt hnt).2.2
      omega
    cases hget : prev.get? m with
    | none =>
      have hn := List.get?_eq_none.mp hget
      rw [hplen] at hn
      omega
    | some prevR =>
      obtain ⟨tl, tlp, ntm, htl, htlp, htlpv, hntm, hrefs, hMid'⟩ :=
        unlink_step hInv hnt hkey htm hle hMid hget
      have hkm : ntm.key = k := by
        obtain ⟨n', hn', hk', -, -⟩ := node?_of_core hMid.core hnt
        rw [hntm] at hn'
        rw [Option.some.inj hn', hk', hkey]
      have hpne : prevR ≠ some t := by
        obtain ⟨hfirst, -⟩ := hMid.prevP m prevR (by omega) hget
        rcases hfirst with hf | ⟨ip, nip, hpe, hnip, hipm, hiplt⟩
        · rw [hf]
          simp
        · rw [hpe]
          intro he
          rw [Option.some.inj he, hntm] at hnip
          rw [← Option.some.inj hnip] at hiplt
          rw [hkm] at hiplt
          exact absurd hiplt (lt_irrefl k)
      have hAnode : (stm.storeLevel prevR m ⟨tl.ptr, 0⟩).node? t =
          some ntm := by
        rw [node?_storeLevel_ne hpne]
        exact hntm
      have hsubnode : subRefNode (stm.storeLevel prevR m ⟨tl.ptr, 0⟩) t =
          (m, (stm.storeLevel prevR m ⟨tl.ptr, 0⟩).setNode t
            { ntm with refs := ntm.refs - 1 }) := by
        simp only [subRefNode, hAnode]
        rw [if_neg (show ¬ntm.refs = 0 by omega)]
        rw [show ntm.refs - 1 = m by omega]
      rw [range_reverse_succ] at h
      simp only [unlinkGo] at h
      split at h
      next heq =>
        rw [heq] at htl
        exact absurd htl (by simp)
      next tl1 heq =>
        have hee : tl = tl1 := by
          rw [heq] at htl
          exact (Option.some.inj htl).symm
        subst hee
        split at h
        next heq2 =>
          rw [heq2] at hget
          exact absurd hget (by simp)
        next pr heq2 =>
          have hee2 : prevR = pr := by
            rw [heq2] at hget
            exact (Option.some.inj hget).symm
          subst hee2
          split at h
          next heq3 =>
            rw [heq3] at htlp
            exact absurd htlp (by simp)
          next tlp1 heq3 =>
            have hee3 : tlp = tlp1 := by
              rw [heq3] at htlp
              exact (Option.some.inj htlp).symm
            subst hee3
            split at h
            next hcond =>
              by_cases hm0 : m = 0
              · subst hm0
                have hsr : subRefRetire
                    (stm.storeLevel prevR 0 ⟨tl.ptr, 0⟩) t =
                    (none, { (stm.storeLevel prevR 0 ⟨tl.ptr, 0⟩).setNode t
                        { ntm with refs := ntm.refs - 1 } with
                      retired := ((stm.storeLevel prevR 0
                        ⟨tl.ptr, 0⟩).setNode t
                        { ntm with refs := ntm.refs - 1 }).retired
                        ++ [t] }) := by
                  unfold subRefRetire
                  rw [hsubnode]
                  rfl
                rw [hsr] at h
                have h2 : (.ok (none,
                    unlinkFinish { (stm.storeLevel prevR 0
                      ⟨tl.ptr, 0⟩).setNode t
                      { ntm with refs := ntm.refs - 1 } with
                    retired := ((stm.storeLevel prevR 0
                      ⟨tl.ptr, 0⟩).setNode t
                      { ntm with refs := ntm.refs - 1 }).retired
                      ++ [t] }) :
                    Except Err (Option Nat × SkipState K V)) =
                    .ok (o, st') := h
                injection h2 with h3
                injection h3 with h4 h5
                refine ⟨h4.symm, ?_⟩
                rw [← h5]
                exact midInv_meta (midInv_meta hMid' rfl rfl rfl) rfl rfl rfl
              · have hsr : subRefRetire
                    (stm.storeLevel prevR m ⟨tl.ptr, 0⟩) t =
                    (some t, (stm.storeLevel prevR m ⟨tl.ptr, 0⟩).setNode t
                      { ntm with refs := ntm.refs - 1 }) := by
                  unfold subRefRetire
                  rw [hsubnode]
                  simp [hm0]
                rw [hsr] at h
                have h2 : unlinkGo t prev
                    ((stm.storeLevel prevR m ⟨tl.ptr, 0⟩).setNode t
                      { ntm with refs := ntm.refs - 1 })
                    ((List.range m).reverse) = .ok (o, st') := h
                exact ih (by omega) (by omega) _ hMid' h2
            next hcond => exact absurd htlpv hcond

theorem removeE_spec [LinearOrder K] {st : SkipState K V}
    {gl : Nat → List Nat} (hInv : Inv st gl) {k : K} {rf sf : Nat}
    {r : Option (K × V)} {st' : SkipState K V}
    (h : removeE rf sf st k = .ok (r, st')) :
    ∃ gl', Inv st' gl' := by
  unfold removeE at h
  split at h
  · exact absurd h (by simp)
  next res st1 hfind =>
    obtain ⟨hst1, hSR, p0, hp0, htgt⟩ := findE_inv hInv hfind
    subst hst1
    split at h
    next heqt =>
      have h2 : (.ok (none, st1) :
          Except Err (Option (K × V) × SkipState K V)) = .ok (r, st') := h
      injection h2 with h3
      injection h3 with h4 h5
      exact ⟨gl, h5 ▸ hInv⟩
    next t heqt =>
      obtain ⟨htmem, nt, hnt, hkey, hrm⟩ :=
        (srProps_target hInv hSR hp0 htgt).2 t heqt
      split at h
      next st2 heqsr =>
        rw [setRemoved_of_live hnt hrm] at heqsr
        exact absurd (congrArg Prod.fst heqsr) (by simp)
      next st2 heqsr =>
        rw [setRemoved_of_live hnt hrm] at heqsr
        have hst2 : st2 = st1.setNode t { nt with removed := true } :=
          (congrArg Prod.snd heqsr).symm
        subst hst2
        obtain ⟨st2', hset2, htag2, hMidI⟩ :=
          midInv_init hInv hnt hkey htmem hSR.2
        have hhgt : (st1.setNode t { nt with removed := true }).heightOf t =
            nt.height := by
          unfold SkipState.heightOf
          rw [node?_setNode, if_pos rfl, hnt]
          rfl
        unfold removeFinish at h
        rw [hhgt] at h
        split at h
        · exact absurd h (by simp)
        next st3 heqtag =>
          rw [htag2] at heqtag
          have hst3 : st3 = st2' := by
            injection heqtag with h1 h2
            exact h2.symm
          subst hst3
          have h1h : 1 ≤ nt.height := (hInv.nodeStruct t nt hnt).2.1
          split at h
          · exact absurd h (by simp)
          next w st4 hequl =>
            unfold unlink at hequl
            obtain ⟨habs, -⟩ := unlink_run hInv hnt hkey htmem hSR.1
              nt.height h1h (le_refl _) st3 hMidI hequl
            exact absurd habs (by simp)
          next st4 hequl =>
            unfold unlink at hequl
            obtain ⟨-, hMid0⟩ := unlink_run hInv hnt hkey htmem hSR.1
              nt.height h1h (le_refl _) st3 hMidI hequl
            have hInv4 := midInv_to_inv hInv hnt hkey htmem hMid0
            have h2 : (.ok (st4.entryOf t, st4) :
                Except Err (Option (K × V) × SkipState K V)) =
                .ok (r, st') := h
            injection h2 with h3
            injection h3 with h4 h5
            exact ⟨fun lv => (gl lv).erase t, h5 ▸ hInv4⟩

theorem insertReplaceLoop_spec [LinearOrder K] {k : K} {rf sf : Nat} :
    ∀ (fuel : Nat) (st : SkipState K V) (gl : Nat → List Nat)
      (ip : SearchRes) (existing : Option Nat),
      Inv st gl → SRProps st gl k ip →
      (∃ p0, ip.prev.get? 0 = some p0 ∧
        ip.target = exactTarget st p0 k) →
      ∀ {out : SearchRes × Option Nat × SkipState K V},
      insertReplaceLoop rf sf k fuel st ip existing = .ok out →
      ∃ gl2, Inv out.2.2 gl2 ∧ SRProps out.2.2 gl2 k out.1 ∧
        (∀ i ni, i ∈ gl2 0 → out.2.2.node? i = some ni → ni.key ≠ k) ∧
        (∀ j, (out.2.2.node? j).map Node.core =
          (st.node? j).map Node.core) ∧
        out.2.2.nodes.length = st.nodes.length ∧
        ((existing = none ∧ (∀ i ni, i ∈ gl 0 → st.node? i = some ni →
            ni.key ≠ k)) → out.2.1 = none) ∧
        (∀ t nt, existing = none → t ∈ gl 0 → st.node? t = some nt →
          nt.key = k → out.2.1 = some t) ∧
        (∀ e, existing = some e → (∀ i ni, i ∈ gl 0 →
          st.node? i = some ni → ni.key ≠ k) → out.2.1 = some e) := by
  intro fuel
  induction fuel with
  | zero =>
    intro st gl ip existing _ _ _ out h
    exact absurd h (by simp [insertReplaceLoop])
  | succ f ih =>
    intro st gl ip existing hInv hSR hlink out h
    obtain ⟨p0, hp0, htgt⟩ := hlink
    simp only [insertReplaceLoop] at h
    split at h
    next heqt =>
      -- no target: the loop exits at once
      have h2 : (.ok (ip, existing, st) :
          Except Err (SearchRes × Option Nat × SkipState K V)) =
          .ok out := h
      have hout : out = (ip, existing, st) := (Except.ok.inj h2).symm
      subst hout
      have hnok : ∀ i ni, i ∈ gl 0 → st.node? i = some ni → ni.key ≠ k := by
        intro i ni hi hni hk
        have := (srProps_target hInv hSR hp0 htgt).1 i ni hi hni hk
        rw [heqt] at this
        exact absurd this (by simp)
      refine ⟨gl, hInv, hSR, hnok, fun _ => rfl, rfl, fun hp => hp.1, ?_,
        fun e he _ => by rw [he]⟩
      intro t nt _ htm hnt hk
      exact absurd (hnok t nt htm hnt hk) (by simp)
    next t heqt =>
      obtain ⟨htmem, nt, hnt, hkey, hrm⟩ :=
        (srProps_target hInv hSR hp0 htgt).2 t heqt
      obtain ⟨st2', hset, htag, hMidI⟩ :=
        midInv_init hInv hnt hkey htmem hSR.2
      have htrt : tryRemoveAndTag st t = (true, st2') := by
        simp only [tryRemoveAndTag, hset, htag]
      split at h
      next stX hX =>
        rw [htrt] at hX
        have hstX : stX = st2' := by
          injection hX with h1 h2
          exact h2.symm
        subst hstX
        have hhgt : stX.heightOf t = nt.height := by
          obtain ⟨nt2, hnt2, -, -⟩ := hMidI.tRec
          obtain ⟨n0, hn0, -, -, hh0⟩ := node?_of_core_rev hMidI.core hnt2
          rw [hn0] at hnt
          unfold SkipState.heightOf
          rw [hnt2]
          show nt2.height = nt.height
          rw [hh0, Option.some.inj hnt]
        rw [hhgt] at h
        have h1h : 1 ≤ nt.height := (hInv.nodeStruct t nt hnt).2.1
        split at h
        · exact absurd h (by simp)
        next w st3 hul =>
          unfold unlink at hul
          obtain ⟨-, hMid0⟩ := unlink_run hInv hnt hkey htmem hSR.1
            nt.height h1h (le_refl _) stX hMidI hul
          have hInv3 := midInv_to_inv hInv hnt hkey htmem hMid0
          have hnok3 : ∀ i ni, i ∈ (gl 0).erase t →
              st3.node? i = some ni → ni.key ≠ k := by
            intro i ni hi hni hk
            have hiz : i ∈ gl 0 := List.mem_of_mem_erase hi
            have hit : i ≠ t := fun he =>
              (nodup_of_pairwise_keys (hInv.sorted 0)).not_mem_erase
                (he ▸ hi)
            obtain ⟨n0, hn0, hk0, -, -⟩ := node?_of_core_rev hMid0.core hni
            have := sorted_key_unique (hInv.sorted 0) hiz htmem hn0 hnt
              (by rw [← hk0, hk, hkey])
            exact hit this
          split at h
          · exact absurd h (by simp)
          next ip2 st4 hfind2 =>
            obtain ⟨hst4, hSR2, p02, hp02, htgt2⟩ := findE_inv hInv3 hfind2
            subst hst4
            have hrec := ih st4 (fun lv => (gl lv).erase t) ip2 (some t)
              hInv3 hSR2 ⟨p02, hp02, htgt2⟩ h
            obtain ⟨gl2, hI2, hS2, hnok2, hcore2, hlen2, hnone2, hlive2,
              hkeep2⟩ := hrec
            refine ⟨gl2, hI2, hS2, hnok2, ?_, ?_, ?_, ?_, ?_⟩
            · intro j
              rw [hcore2 j, hMid0.core j]
            · rw [hlen2, hMid0.nlen]
            · intro hpair
              exact absurd hkey (hpair.2 t nt htmem hnt)
            · intro t' nt' _ ht'm hnt' hk'
              have ht't : t' = t := sorted_key_unique (hInv.sorted 0) ht'm
                htmem hnt' hnt (by rw [hk', hkey])
              rw [ht't]
              exact hkeep2 t rfl hnok3
            · intro e he hnone
              exact absurd hkey (hnone t nt htmem hnt)
      next stX hX =>
        rw [htrt] at hX
        exact absurd (congrArg Prod.fst hX) (by simp)

/-! ### Linking a fresh node (`link_nodes`) -/

theorem belowK_node [LinearOrder K] {st : SkipState K V} {k : K} {j : Nat}
    {n : Node K V} (hn : st.node? j = some n) :
    belowK st k j = decide (n.key < k) := by
  unfold belowK
  rw [hn]

theorem aboveK_node [LinearOrder K] {st : SkipState K V} {k : K} {j : Nat}
    {n : Node K V} (hn : st.node? j = some n) :
    aboveK st k j = decide (k < n.key) := by
  unfold aboveK
  rw [hn]

theorem filter_all_true {α : Type} {p : α → Bool} :
    ∀ {A : List α}, (∀ a ∈ A, p a = true) → A.filter p = A := by
  intro A
  induction A with
  | nil => intro _; rfl
  | cons x xs ih =>
    intro h
    rw [List.filter_cons_of_pos (h x (List.mem_cons_self x xs)),
      ih (fun a ha => h a (List.mem_cons_of_mem x ha))]

theorem filter_all_false {α : Type} {p : α → Bool} :
    ∀ {A : List α}, (∀ a ∈ A, p a = false) → A.filter p = [] := by
  intro A
  induction A with
  | nil => intro _; rfl
  | cons x xs ih =>
    intro h
    rw [List.filter_cons_of_neg (by simp [h x (List.mem_cons_self x xs)]),
      ih (fun a ha => h a (List.mem_cons_of_mem x ha))]

theorem chain_gt_all [LinearOrder K] {st : SkipState K V} {k : K}
    {xs : List Nat}
    (hs : xs.Pairwise (fun a b => keyLtB st a b = true))
    (hhd : ∀ j0 njy, segNext xs none = some j0 →
      st.node? j0 = some njy → k < njy.key) :
    ∀ b nb, b ∈ xs → st.node? b = some nb → k < nb.key := by
  cases xs with
  | nil =>
    intro b nb hb
    exact absurd hb (by simp)
  | cons x rest =>
    intro b nb hb hnb
    rcases List.mem_cons.mp hb with hbx | hbr
    · rw [hbx] at hnb
      exact hhd x nb rfl hnb
    · cases hnx : st.node? x with
      | none =>
        have := (List.pairwise_cons.mp hs).1 b hbr
        unfold keyLtB at this
        rw [hnx] at this
        exact absurd this (by simp)
      | some nx =>
        have hxgt : k < nx.key := hhd x nx rfl hnx
        have hlt := (keyLtB_iff hnx hnb).mp
          ((List.pairwise_cons.mp hs).1 b hbr)
        exact lt_trans hxgt hlt

/-- One round of `link_nodes` preserves the mid-link invariant: if the
level-`i` cell of the predecessor now points at the new node, the new node's
level-`i` cell points at the old successor, its reference count went up by
one and nothing else moved, then `LinkMid` advances from `i` to `i + 1`. -/
theorem link_mid_step [LinearOrder K] {stL : SkipState K V}
    {gl : Nat → List Nat} {k : K} {newId hN : Nat} {prev : List Ref}
    (hfresh : ∀ lv, newId ∉ gl lv)
    (hhNH : hN ≤ HEIGHT)
    (hsorted : ∀ lv, (gl lv).Pairwise (fun a b => keyLtB stL a b = true))
    (hnokL : ∀ i2 ni, i2 ∈ gl 0 → stL.node? i2 = some ni → ni.key ≠ k)
    (hmemZ : ∀ lv i2, i2 ∈ gl lv → i2 ∈ gl 0)
    (hres : ∀ i2, i2 ∈ gl 0 → ∃ n, stL.node? i2 = some n)
    {i : Nat} (hi : i < hN) {sti : SkipState K V}
    (hMid : LinkMid stL gl k newId hN prev i sti)
    {prevR : Ref}
    {tlp : TL} (htlp : sti.loadLevel prevR i = some tlp)
    (hfirst : prevR = none ∨ ∃ ip nip, prevR = some ip ∧
      sti.node? ip = some nip ∧ ip ∈ gl i ∧ nip.key < k)
    (hptrP : tlp.ptr = none ∨ ∃ j nj, tlp.ptr = some j ∧
      sti.node? j = some nj ∧ j ∈ gl i ∧ k ≤ nj.key)
    {stc : SkipState K V}
    (hkeep : ∀ (r : Ref) (lv : Nat), (r ≠ prevR ∨ lv ≠ i) →
      (r ≠ some newId ∨ lv ≠ i) → stc.loadLevel r lv = sti.loadLevel r lv)
    (hcellP : stc.loadLevel prevR i = some ⟨some newId, 0⟩)
    (hcellN : stc.loadLevel (some newId) i = some ⟨tlp.ptr, 0⟩)
    (hfieldsO : ∀ j, j ≠ newId →
      ((stc.node? j).map Node.core = (sti.node? j).map Node.core) ∧
      ((stc.node? j).map (fun n => n.levels.length) =
        (sti.node? j).map (fun n => n.levels.length)) ∧
      ((stc.node? j).map (fun n => n.refs) =
        (sti.node? j).map (fun n => n.refs)) ∧
      ((stc.node? j).map (fun n => n.removed) =
        (sti.node? j).map (fun n => n.removed)))
    (hfieldsN : ((stc.node? newId).map Node.core =
        (sti.node? newId).map Node.core) ∧
      ((stc.node? newId).map (fun n => n.levels.length) =
        (sti.node? newId).map (fun n => n.levels.length)) ∧
      (∃ n, stc.node? newId = some n ∧ n.refs = i + 1) ∧
      ((stc.node? newId).map (fun n => n.removed) =
        (sti.node? newId).map (fun n => n.removed)))
    (hheadLenC : stc.headLevels.length = HEIGHT)
    (hmaxHC : stc.maxHeight = sti.maxHeight) :
    LinkMid stL gl k newId hN prev (i + 1) stc := by
  have hiH : i < HEIGHT := lt_of_lt_of_le hi hhNH
  have hcoreAll : ∀ j, (stc.node? j).map Node.core =
      (sti.node? j).map Node.core := by
    intro j
    by_cases hj : j = newId
    · subst hj
      exact hfieldsN.1
    · exact (hfieldsO j hj).1
  have hlensAll : ∀ j, (stc.node? j).map (fun n => n.levels.length) =
      (sti.node? j).map (fun n => n.levels.length) := by
    intro j
    by_cases hj : j = newId
    · subst hj
      exact hfieldsN.2.1
    · exact (hfieldsO j hj).2.1
  have hremAll : ∀ j, (stc.node? j).map (fun n => n.removed) =
      (sti.node? j).map (fun n => n.removed) := by
    intro j
    by_cases hj : j = newId
    · subst hj
      exact hfieldsN.2.2.2
    · exact (hfieldsO j hj).2.2.2
  have hglikeep : ∀ j, j ∈ gl i → (some j : Ref) ≠ some newId := by
    intro j hj
    simp only [ne_eq, Option.some.injEq]
    intro he
    exact hfresh i (he ▸ hj)
  have hch : ChainSeg sti i none (gl i) none :=
    hMid.chainsHi i (le_refl i) hiH
  have hsurgery : ChainSeg stc i none
      ((gl i).filter (belowK stL k) ++ newId ::
        (gl i).filter (aboveK stL k)) none := by
    rcases hfirst with hf | ⟨ip, nip, hpe, hnip, hipm, hiplt⟩
    · subst hf
      have hhd := seg_head hch
      have hsp : succPtr sti none i = some tlp.ptr := by
        unfold succPtr
        rw [htlp]
        rfl
      have hptreq : tlp.ptr = segNext (gl i) none :=
        Option.some.inj (hsp.symm.trans hhd)
      have hgt : ∀ b nb, b ∈ gl i → sti.node? b = some nb → k < nb.key := by
        refine chain_gt_all ?_ ?_
        · refine (hsorted i).imp ?_
          intro a b hab
          rw [keyLtB_congr hMid.core a b]
          exact hab
        · intro j0 njy hseg0 hnjy
          rw [← hptreq] at hseg0
          rcases hptrP with hnull | ⟨j, nj, hj, hnj, hjm, hjk⟩
          · rw [hnull] at hseg0
            exact absurd hseg0 (by simp)
          · rw [hj] at hseg0
            have hjj : j = j0 := Option.some.inj hseg0
            subst hjj
            have heq : nj = njy := Option.some.inj (hnj.symm.trans hnjy)
            have hne : njy.key ≠ k := by
              obtain ⟨nL, hnL, hkL, -, -⟩ := node?_of_core_rev hMid.core hnjy
              intro hk
              refine hnokL j nL (hmemZ i j hjm) hnL ?_
              rw [← hkL]
              exact hk
            exact lt_of_le_of_ne (heq ▸ hjk) (Ne.symm hne)
      have hfL : (gl i).filter (belowK stL k) = [] := by
        refine filter_all_false ?_
        intro b hb
        obtain ⟨nbL, hnbL⟩ := hres b (hmemZ i b hb)
        obtain ⟨nbi, hnbi, hkb, -, -⟩ := node?_of_core hMid.core hnbL
        rw [belowK_node hnbL]
        have hbk := hgt b nbi hb hnbi
        simp only [decide_eq_false_iff_not, not_lt]
        rw [← hkb]
        exact le_of_lt hbk
      have hfG : (gl i).filter (aboveK stL k) = gl i := by
        refine filter_all_true ?_
        intro b hb
        obtain ⟨nbL, hnbL⟩ := hres b (hmemZ i b hb)
        obtain ⟨nbi, hnbi, hkb, -, -⟩ := node?_of_core hMid.core hnbL
        rw [aboveK_node hnbL]
        have hbk := hgt b nbi hb hnbi
        simp only [decide_eq_true_eq]
        rw [← hkb]
        exact hbk
      rw [hfL, hfG, List.nil_append]
      refine seg_insert_head hch ?_ ?_ ?_
      · rw [← hptreq]
        unfold succPtr
        rw [hcellN]
        rfl
      · unfold succPtr
        rw [hcellP]
        rfl
      · intro j hj
        exact succPtr_congr
          (hkeep (some j) i (Or.inl (by simp)) (Or.inl (hglikeep j hj)))
    · subst hpe
      obtain ⟨cs, ds, hsplit⟩ := List.append_of_mem hipm
      have hch2 := hch
      rw [hsplit] at hch2
      obtain ⟨hc1, hc2⟩ := seg_split_cons hch2
      have hipd := seg_head hc2
      have hsp : succPtr sti (some ip) i = some tlp.ptr := by
        unfold succPtr
        rw [htlp]
        rfl
      have hptreq : tlp.ptr = segNext ds none :=
        Option.some.inj (hsp.symm.trans hipd)
      have hsortL := hsorted i
      rw [hsplit] at hsortL
      have hpairs := List.pairwise_append.mp hsortL
      obtain ⟨nipL, hnipL, hkipL, -, -⟩ := node?_of_core_rev hMid.core hnip
      have hipLlt : nipL.key < k := by
        rw [← hkipL]
        exact hiplt
      have hdsPW : ds.Pairwise (fun a b => keyLtB stL a b = true) :=
        (List.pairwise_cons.mp hpairs.2.1).2
      have hdsMem : ∀ d, d ∈ ds → d ∈ gl i := by
        intro d hd
        rw [hsplit]
        exact List.mem_append_right cs (List.mem_cons_of_mem ip hd)
      have hcsMem : ∀ c, c ∈ cs → c ∈ gl i := by
        intro c hc
        rw [hsplit]
        exact List.mem_append_left _ hc
      have hgtDs : ∀ b nb, b ∈ ds → sti.node? b = some nb → k < nb.key := by
        refine chain_gt_all ?_ ?_
        · refine hdsPW.imp ?_
          intro a b hab
          rw [keyLtB_congr hMid.core a b]
          exact hab
        · intro j0 njy hseg0 hnjy
          rw [← hptreq] at hseg0
          rcases hptrP with hnull | ⟨j, nj, hj, hnj, hjm, hjk⟩
          · rw [hnull] at hseg0
            exact absurd hseg0 (by simp)
          · rw [hj] at hseg0
            have hjj : j = j0 := Option.some.inj hseg0
            subst hjj
            have heq : nj = njy := Option.some.inj (hnj.symm.trans hnjy)
            have hne : njy.key ≠ k := by
              obtain ⟨nL, hnL, hkL, -, -⟩ := node?_of_core_rev hMid.core hnjy
              intro hk
              refine hnokL j nL (hmemZ i j hjm) hnL ?_
              rw [← hkL]
              exact hk
            exact lt_of_le_of_ne (heq ▸ hjk) (Ne.symm hne)
      have hfL : (gl i).filter (belowK stL k) = cs ++ [ip] := by
        rw [hsplit, List.filter_append]
        have h1 : cs.filter (belowK stL k) = cs := by
          refine filter_all_true ?_
          intro c hc
          obtain ⟨ncL, hncL⟩ := hres c (hmemZ i c (hcsMem c hc))
          rw [belowK_node hncL]
          have hcross := hpairs.2.2 c hc ip (List.mem_cons_self ip ds)
          have hlt := (keyLtB_iff hncL hnipL).mp hcross
          simp only [decide_eq_true_eq]
          exact lt_trans hlt hipLlt
        have hipT : belowK stL k ip = true := by
          rw [belowK_node hnipL]
          simp only [decide_eq_true_eq]
          exact hipLlt
        have hdsf : ds.filter (belowK stL k) = [] := by
          refine filter_all_false ?_
          intro d hd
          obtain ⟨ndL, hndL⟩ := hres d (hmemZ i d (hdsMem d hd))
          obtain ⟨ndi, hndi, hkd, -, -⟩ := node?_of_core hMid.core hndL
          rw [belowK_node hndL]
          have hdk := hgtDs d ndi hd hndi
          simp only [decide_eq_false_iff_not, not_lt]
          rw [← hkd]
          exact le_of_lt hdk
        rw [h1, List.filter_cons_of_pos hipT, hdsf]
      have hfG : (gl i).filter (aboveK stL k) = ds := by
        rw [hsplit, List.filter_append]
        have h1 : cs.filter (aboveK stL k) = [] := by
          refine filter_all_false ?_
          intro c hc
          obtain ⟨ncL, hncL⟩ := hres c (hmemZ i c (hcsMem c hc))
          rw [aboveK_node hncL]
          have hcross := hpairs.2.2 c hc ip (List.mem_cons_self ip ds)
          have hlt := (keyLtB_iff hncL hnipL).mp hcross
          simp only [decide_eq_false_iff_not, not_lt]
          exact le_of_lt (lt_trans hlt hipLlt)
        have hipF : aboveK stL k ip = false := by
          rw [aboveK_node hnipL]
          simp only [decide_eq_false_iff_not, not_lt]
          exact le_of_lt hipLlt
        have hdsf : ds.filter (aboveK stL k) = ds := by
          refine filter_all_true ?_
          intro d hd
          obtain ⟨ndL, hndL⟩ := hres d (hmemZ i d (hdsMem d hd))
          obtain ⟨ndi, hndi, hkd, -, -⟩ := node?_of_core hMid.core hndL
          rw [aboveK_node hndL]
          have hdk := hgtDs d ndi hd hndi
          simp only [decide_eq_true_eq]
          rw [← hkd]
          exact hdk
        rw [h1, List.filter_cons_of_neg (by simp [hipF]), hdsf,
          List.nil_append]
      rw [hfL, hfG]
      have hassoc : (cs ++ [ip]) ++ newId :: ds = cs ++ ip :: newId :: ds := by
        simp
      rw [hassoc]
      have hnd : (gl i).Nodup := nodup_of_pairwise_keys (hsorted i)
      rw [hsplit] at hnd
      have hndparts := List.nodup_append.mp hnd
      have hipNotDs : ip ∉ ds := (List.nodup_cons.mp hndparts.2.1).1
      refine seg_insert_mid hc1 hc2 ?_ ?_ ?_ ?_ ?_
      · unfold succPtr
        rw [hcellP]
        rfl
      · rw [← hptreq]
        unfold succPtr
        rw [hcellN]
        rfl
      · exact succPtr_congr
          (hkeep none i (Or.inl (by simp)) (Or.inl (by simp)))
      · intro j hj
        have hjip : (some j : Ref) ≠ some ip := by
          simp only [ne_eq, Option.some.injEq]
          intro he
          refine hndparts.2.2 hj ?_
          rw [he]
          exact List.mem_cons_self ip ds
        exact succPtr_congr (hkeep (some j) i (Or.inl hjip)
          (Or.inl (hglikeep j (hcsMem j hj))))
      · intro j hj
        have hjip : (some j : Ref) ≠ some ip := by
          simp only [ne_eq, Option.some.injEq]
          intro he
          refine hipNotDs ?_
          rw [← he]
          exact hj
        exact succPtr_congr (hkeep (some j) i (Or.inl hjip)
          (Or.inl (hglikeep j (hdsMem j hj))))
  refine ⟨fun j => (hcoreAll j).trans (hMid.core j),
    fun j => (hlensAll j).trans (hMid.lens j),
    fun j hj => ((hfieldsO j hj).2.2.1).trans (hMid.refsO j hj),
    fun j => (hremAll j).trans (hMid.remE j),
    hfieldsN.2.2.1, hheadLenC, hmaxHC.trans hMid.maxH,
    ?_, ?_, ?_, ?_, ?_, ?_, ?_⟩
  · intro lv hlv hlvH
    by_cases hlt : lv < i
    · refine seg_mono (hMid.chainsLo lv hlt hlvH) ?_ ?_
      · exact succPtr_congr
          (hkeep none lv (Or.inr (by omega)) (Or.inr (by omega)))
      · intro j hj
        exact succPtr_congr
          (hkeep (some j) lv (Or.inr (by omega)) (Or.inr (by omega)))
    · have hlveq : lv = i := by omega
      rw [hlveq]
      have hgli : glInsert stL gl k newId hN i =
          (gl i).filter (belowK stL k) ++ newId ::
            (gl i).filter (aboveK stL k) := by
        simp only [glInsert]
        rw [if_pos hi]
      rw [hgli]
      exact hsurgery
  · intro lv hlv hlvH
    refine seg_mono (hMid.chainsHi lv (by omega) hlvH) ?_ ?_
    · exact succPtr_congr
        (hkeep none lv (Or.inr (by omega)) (Or.inr (by omega)))
    · intro j hj
      exact succPtr_congr
        (hkeep (some j) lv (Or.inr (by omega)) (Or.inr (by omega)))
  · intro lv hlv hlvh
    rw [hkeep (some newId) lv (Or.inr (by omega)) (Or.inr (by omega))]
    exact hMid.newHi lv (by omega) hlvh
  · intro lv tl hload
    by_cases hlv : lv = i
    · rw [hlv] at hload
      have htlEq := Option.some.inj (hcellN.symm.trans hload)
      rw [← htlEq]
    · rw [hkeep (some newId) lv (Or.inr hlv) (Or.inr hlv)] at hload
      exact hMid.tagsN lv tl hload
  · intro lv p hlv hlvH hgetp
    refine prevProp_mono (hMid.prevP lv p (by omega) hlvH hgetp) ?_ hcoreAll
    exact hkeep p lv (Or.inr (by omega)) (Or.inr (by omega))
  · intro j hj lv tl hload
    have hjne : (some j : Ref) ≠ some newId := by
      simp only [ne_eq, Option.some.injEq]
      intro he
      exact hfresh 0 (he ▸ hj)
    by_cases hcase : (some j : Ref) = prevR ∧ lv = i
    · obtain ⟨hc1, hc2⟩ := hcase
      rw [hc2, hc1] at hload
      have htlEq := Option.some.inj (hcellP.symm.trans hload)
      rw [← htlEq]
    · have hd : (some j : Ref) ≠ prevR ∨ lv ≠ i := by
        by_cases h1 : (some j : Ref) = prevR
        · right
          intro h2
          exact hcase ⟨h1, h2⟩
        · left
          exact h1
      rw [hkeep (some j) lv hd (Or.inl hjne)] at hload
      exact hMid.tags j hj lv tl hload
  · intro lv tl hload
    by_cases hcase : (none : Ref) = prevR ∧ lv = i
    · obtain ⟨hc1, hc2⟩ := hcase
      rw [hc2, hc1] at hload
      have htlEq := Option.some.inj (hcellP.symm.trans hload)
      rw [← htlEq]
    · have hd : (none : Ref) ≠ prevR ∨ lv ≠ i := by
        by_cases h1 : (none : Ref) = prevR
        · right
          intro h2
          exact hcase ⟨h1, h2⟩
        · left
          exact h1
      rw [hkeep none lv hd (Or.inl (by simp))] at hload
      exact hMid.headTags lv tl hload

/-- One level of `link_nodes` on a mid-link state: both CASes succeed, the
round signals `cont`, and the landing state satisfies exactly the cell-level
description consumed by `link_mid_step`. -/
theorem link_step [LinearOrder K] {stL : SkipState K V}
    {gl : Nat → List Nat} {k : K} {newId hN : Nat} {prev : List Ref}
    {i : Nat} {sti : SkipState K V}
    (hMid : LinkMid stL gl k newId hN prev i sti)
    {prevR : Ref} (hpne : prevR ≠ some newId)
    {tlp tln : TL}
    (htlp : sti.loadLevel prevR i = some tlp) (htagP : tlp.tag = 0)
    (htln : sti.loadLevel (some newId) i = some tln) :
    ∃ stc, linkNodesStep newId i prevR tlp tln sti = .cont stc ∧
      (∀ (r : Ref) (lv : Nat), (r ≠ prevR ∨ lv ≠ i) →
        (r ≠ some newId ∨ lv ≠ i) →
        stc.loadLevel r lv = sti.loadLevel r lv) ∧
      stc.loadLevel prevR i = some ⟨some newId, 0⟩ ∧
      stc.loadLevel (some newId) i = some ⟨tlp.ptr, 0⟩ ∧
      (∀ j, j ≠ newId →
        ((stc.node? j).map Node.core = (sti.node? j).map Node.core) ∧
        ((stc.node? j).map (fun n => n.levels.length) =
          (sti.node? j).map (fun n => n.levels.length)) ∧
        ((stc.node? j).map (fun n => n.refs) =
          (sti.node? j).map (fun n => n.refs)) ∧
        ((stc.node? j).map (fun n => n.removed) =
          (sti.node? j).map (fun n => n.removed))) ∧
      (((stc.node? newId).map Node.core =
          (sti.node? newId).map Node.core) ∧
        ((stc.node? newId).map (fun n => n.levels.length) =
          (sti.node? newId).map (fun n => n.levels.length)) ∧
        (∃ n, stc.node? newId = some n ∧ n.refs = i + 1) ∧
        ((stc.node? newId).map (fun n => n.removed) =
          (sti.node? newId).map (fun n => n.removed))) ∧
      stc.headLevels.length = HEIGHT ∧
      stc.maxHeight = sti.maxHeight := by
  have htagN : tln.tag = 0 := hMid.tagsN i tln htln
  obtain ⟨nN, hnN, hrefsN⟩ := hMid.refsN
  have htlpself : tlp = ⟨tlp.ptr, 0⟩ := by
    rcases tlp with ⟨p, t⟩
    simp only [TL.mk.injEq, true_and]
    exact htagP
  set stA := sti.storeLevel (some newId) i ⟨tlp.ptr, 0⟩ with hstA
  set nA : Node K V := { nN with levels := nN.levels.set i ⟨tlp.ptr, 0⟩ }
    with hnA
  have hA : stA.node? newId = some nA := by
    rw [hstA, storeLevel_some_eq, hnN]
    show (sti.setNode newId
      { nN with levels := nN.levels.set i ⟨tlp.ptr, 0⟩ }).node? newId = _
    rw [node?_setNode, if_pos rfl, hnN]
    rfl
  set nB : Node K V := { nA with refs := nA.refs + 1 } with hnB
  set stB := stA.setNode newId nB with hstB
  set stC := stB.storeLevel prevR i ⟨some newId, 0⟩ with hstC
  have hrefop : (if i = 0 then (true, addRef stA newId)
      else tryAddRef stA newId) = (true, stB) := by
    by_cases hi0 : i = 0
    · rw [if_pos hi0]
      unfold addRef
      rw [hA]
    · rw [if_neg hi0]
      unfold tryAddRef
      rw [hA]
      show (if nA.refs = 0 then (false, stA)
        else (true, stA.setNode newId { nA with refs := nA.refs + 1 })) =
          (true, stB)
      have hnAr : nA.refs = i := hrefsN
      rw [if_neg (by rw [hnAr]; exact hi0)]
  have hBAall : ∀ (r : Ref) (lv : Nat),
      stB.loadLevel r lv = stA.loadLevel r lv := by
    intro r lv
    rw [hstB]
    cases r with
    | none => exact loadLevel_setNode_head _ _ _ _
    | some p =>
      by_cases hp : newId = p
      · rw [← hp]
        exact loadLevel_setNode_levels hA
          (show nB.levels = nA.levels from rfl) lv
      · exact loadLevel_setNode_ne hp _ lv
  have hBload : stB.loadLevel prevR i = some tlp := by
    rw [hBAall prevR i, hstA, loadLevel_store_other (Or.inl hpne), htlp]
  have heq : linkNodesStep newId i prevR tlp tln sti = .cont stC := by
    unfold linkNodesStep
    rw [if_pos htagN]
    simp only [← hstA]
    simp only [hrefop]
    simp only [hBload]
    rw [if_pos htlpself, hstC]
  have hkeep : ∀ (r : Ref) (lv : Nat), (r ≠ prevR ∨ lv ≠ i) →
      (r ≠ some newId ∨ lv ≠ i) →
      stC.loadLevel r lv = sti.loadLevel r lv := by
    intro r lv h1 h2
    rw [hstC, loadLevel_store_other h1, hBAall r lv, hstA,
      loadLevel_store_other h2]
  have hcellP : stC.loadLevel prevR i = some ⟨some newId, 0⟩ := by
    rw [hstC]
    exact loadLevel_store_self hBload
  have hcellN : stC.loadLevel (some newId) i = some ⟨tlp.ptr, 0⟩ := by
    rw [hstC, loadLevel_store_other (Or.inl (fun he => hpne he.symm)),
      hBAall (some newId) i, hstA]
    exact loadLevel_store_self htln
  have hstBj : ∀ j, j ≠ newId → stB.node? j = stA.node? j := by
    intro j hj
    rw [hstB, node?_setNode, if_neg (fun he : newId = j => hj he.symm)]
  have hfieldsO : ∀ j, j ≠ newId →
      ((stC.node? j).map Node.core = (sti.node? j).map Node.core) ∧
      ((stC.node? j).map (fun n => n.levels.length) =
        (sti.node? j).map (fun n => n.levels.length)) ∧
      ((stC.node? j).map (fun n => n.refs) =
        (sti.node? j).map (fun n => n.refs)) ∧
      ((stC.node? j).map (fun n => n.removed) =
        (sti.node? j).map (fun n => n.removed)) := by
    intro j hj
    obtain ⟨c1, l1, r1, m1⟩ :=
      node?_storeLevel_fields stB prevR i ⟨some newId, 0⟩ j
    obtain ⟨c2, l2, r2, m2⟩ :=
      node?_storeLevel_fields sti (some newId) i ⟨tlp.ptr, 0⟩ j
    rw [hstBj j hj] at c1 l1 r1 m1
    rw [← hstA] at c2 l2 r2 m2
    refine ⟨?_, ?_, ?_, ?_⟩
    · rw [hstC]
      exact c1.trans c2
    · rw [hstC]
      exact l1.trans l2
    · rw [hstC]
      exact r1.trans r2
    · rw [hstC]
      exact m1.trans m2
  have hCnew : stC.node? newId = some nB := by
    rw [hstC, node?_storeLevel_ne hpne, hstB, node?_setNode, if_pos rfl, hA]
    rfl
  have hfieldsN : ((stC.node? newId).map Node.core =
      (sti.node? newId).map Node.core) ∧
      ((stC.node? newId).map (fun n => n.levels.length) =
        (sti.node? newId).map (fun n => n.levels.length)) ∧
      (∃ n, stC.node? newId = some n ∧ n.refs = i + 1) ∧
      ((stC.node? newId).map (fun n => n.removed) =
        (sti.node? newId).map (fun n => n.removed)) := by
    refine ⟨?_, ?_, ⟨nB, hCnew, ?_⟩, ?_⟩
    · rw [hCnew, hnN]
      rfl
    · rw [hCnew, hnN]
      show some (nB.levels.length) = some (nN.levels.length)
      have hlevB : nB.levels.length = nN.levels.length := by
        show (nN.levels.set i ⟨tlp.ptr, 0⟩).length = nN.levels.length
        simp
      rw [hlevB]
    · show nN.refs + 1 = i + 1
      rw [hrefsN]
    · rw [hCnew, hnN]
      rfl
  have hheadC : stC.headLevels.length = HEIGHT := by
    rw [hstC, storeLevel_headLen]
    show stA.headLevels.length = HEIGHT
    rw [hstA, storeLevel_headLen]
    exact hMid.headLen
  have hmaxC : stC.maxHeight = sti.maxHeight := by
    rw [hstC, (storeLevel_meta stB prevR i ⟨some newId, 0⟩).2.1]
    show stA.maxHeight = sti.maxHeight
    rw [hstA]
    exact (storeLevel_meta sti (some newId) i ⟨tlp.ptr, 0⟩).2.1
  exact ⟨stC, heq, hkeep, hcellP, hcellN, hfieldsO, hfieldsN, hheadC, hmaxC⟩

/-- The level loop of `link_nodes` on a fresh node over a quiescent state:
with enough fuel every level round succeeds, the loop returns `Ok(None)`
and the mid-link invariant reaches the node's full height. -/
theorem link_run [LinearOrder K] {stL : SkipState K V}
    {gl : Nat → List Nat} {k : K} {newId hN : Nat} {prev : List Ref}
    {nNew : Node K V}
    (hnew : stL.node? newId = some nNew)
    (hkey : nNew.key = k) (hheight : nNew.height = hN)
    (hrem : nNew.removed = false)
    (hfresh : ∀ lv, newId ∉ gl lv)
    (hhNH : hN ≤ HEIGHT)
    (hsorted : ∀ lv, (gl lv).Pairwise (fun a b => keyLtB stL a b = true))
    (hnokL : ∀ i2 ni, i2 ∈ gl 0 → stL.node? i2 = some ni → ni.key ≠ k)
    (hmemZ : ∀ lv i2, i2 ∈ gl lv → i2 ∈ gl 0)
    (hres : ∀ i2, i2 ∈ gl 0 → ∃ n, stL.node? i2 = some n)
    (hprevLen : prev.length = HEIGHT)
    (rf sf : Nat) :
    ∀ (fuel i : Nat) (sti : SkipState K V),
      i ≤ hN →
      LinkMid stL gl k newId hN prev i sti →
      linkNodes rf sf newId fuel sti prev i = .error .fuel ∨
      ∃ stF, linkNodes rf sf newId fuel sti prev i = .ok (none, stF) ∧
        LinkMid stL gl k newId hN prev hN stF := by
  intro fuel
  induction fuel with
  | zero =>
    intro i sti hile hMid
    exact Or.inl rfl
  | succ fu ih =>
    intro i sti hile hMid
    obtain ⟨nn, hnn, hknn, hvnn, hhnn⟩ := node?_of_core hMid.core hnew
    have hnnRem : nn.removed = false := by
      have h := hMid.remE newId
      rw [hnn, hnew] at h
      simp only [Option.map_some', Option.some.injEq] at h
      rw [h]
      exact hrem
    have hnnKey : nn.key = k := hknn.trans hkey
    have hheightOf : sti.heightOf newId = hN := by
      unfold SkipState.heightOf
      rw [hnn]
      show nn.height = hN
      rw [hhnn]
      exact hheight
    have hnremT : ¬(nn.removed = true) := by
      rw [hnnRem]
      exact Bool.false_ne_true
    by_cases hcase : i < hN
    · have hiH : i < HEIGHT := lt_of_lt_of_le hcase hhNH
      obtain ⟨prevR, hget⟩ : ∃ p, prev.get? i = some p := by
        cases hg : prev.get? i with
        | none =>
          have hlen := List.get?_eq_none.mp hg
          rw [hprevLen] at hlen
          exact absurd (lt_of_lt_of_le hiH hlen) (lt_irrefl i)
        | some p => exact ⟨p, rfl⟩
      obtain ⟨hfirst, tlp, htlp, htagP, hptrP⟩ :=
        hMid.prevP i prevR (le_refl i) hiH hget
      have htln : sti.loadLevel (some newId) i = some TL.null :=
        hMid.newHi i (le_refl i) hcase
      have hpne : prevR ≠ some newId := by
        rcases hfirst with h | ⟨ip, ni, hpe, -, hm, -⟩
        · rw [h]
          simp
        · rw [hpe]
          simp only [ne_eq, Option.some.injEq]
          intro he
          exact hfresh i (he ▸ hm)
      obtain ⟨stc, heq, hkeep, hcellP, hcellN, hfO, hfN, hhl, hmh⟩ :=
        link_step hMid hpne htlp htagP htln
      have hMid2 : LinkMid stL gl k newId hN prev (i + 1) stc :=
        link_mid_step hfresh hhNH hsorted hnokL hmemZ hres hcase hMid htlp
          hfirst hptrP hkeep hcellP hcellN hfO hfN hhl hmh
      rcases hptrP with hnone | ⟨nid, nxt, hsome, hnxt, hnidm, hnidk⟩
      · have hstep : linkNodes rf sf newId (fu + 1) sti prev i =
            linkNodes rf sf newId fu stc prev (i + 1) := by
          simp only [linkNodes]
          rw [hheightOf, if_pos hcase]
          simp only [hget, hnn]
          simp only [htlp, htln]
          rw [if_neg hnremT]
          simp only [hnone]
          simp only [heq]
        rw [hstep]
        exact ih (i + 1) stc (by omega) hMid2
      · have hkgt : k < nxt.key := by
          have hneK : nxt.key ≠ k := by
            obtain ⟨nL, hnL, hkL, -, -⟩ := node?_of_core_rev hMid.core hnxt
            intro hkk
            refine hnokL nid nL (hmemZ i nid hnidm) hnL ?_
            rw [← hkL]
            exact hkk
          exact lt_of_le_of_ne hnidk (Ne.symm hneK)
        have hguard : ¬(nxt.key ≤ nn.key ∧ nn.removed = false) := by
          intro hcon
          rw [hnnKey] at hcon
          exact absurd hcon.1 (not_le.mpr hkgt)
        have hstep : linkNodes rf sf newId (fu + 1) sti prev i =
            linkNodes rf sf newId fu stc prev (i + 1) := by
          simp only [linkNodes]
          rw [hheightOf, if_pos hcase]
          simp only [hget, hnn]
          simp only [htlp, htln]
          rw [if_neg hnremT]
          simp only [hsome, hnxt]
          rw [if_neg hguard]
          simp only [heq]
        rw [hstep]
        exact ih (i + 1) stc (by omega) hMid2
    · have hieq : i = hN := by omega
      have hro : sti.removedOf newId = false := by
        unfold SkipState.removedOf
        rw [hnn]
        exact hnnRem
      have hfin : linkNodes rf sf newId (fu + 1) sti prev i =
          .ok (none, sti) := by
        simp only [linkNodes]
        rw [hheightOf, if_neg hcase]
        unfold linkNodesFinish
        rw [if_neg (by rw [hro]; exact Bool.false_ne_true)]
      exact Or.inr ⟨sti, hfin, hieq ▸ hMid⟩

/-- `gen_height` in closed form: the clamped candidate height and the state
with the advanced seed and possibly raised `max_height`. -/
theorem genHeight_eq (st : SkipState K V) :
    genHeight st =
      (clampHeight st.headLevels
          (min HEIGHT (trailingZeros (xorshift st.seed) + 1)),
        if st.maxHeight < clampHeight st.headLevels
            (min HEIGHT (trailingZeros (xorshift st.seed) + 1)) then
          { st with seed := xorshift st.seed, maxHeight := clampHeight st.headLevels (min HEIGHT (trailingZeros (xorshift st.seed) + 1)) }
        else { st with seed := xorshift st.seed }) := rfl

/-- What `gen_height` does to the state: the heap, head tower, counter and
retirement list are untouched, the height lands in `[1, 32]`, and
`max_height` only grows, to at least the returned height. -/
theorem genHeight_facts (st : SkipState K V) :
    (genHeight st).2.nodes = st.nodes ∧
    (genHeight st).2.headLevels = st.headLevels ∧
    (genHeight st).2.len = st.len ∧
    (genHeight st).2.retired = st.retired ∧
    1 ≤ (genHeight st).1 ∧ (genHeight st).1 ≤ HEIGHT ∧
    st.maxHeight ≤ (genHeight st).2.maxHeight ∧
    (genHeight st).1 ≤ (genHeight st).2.maxHeight ∧
    ((genHeight st).2.maxHeight = st.maxHeight ∨
      (genHeight st).2.maxHeight = (genHeight st).1) := by
  have hg1 : 1 ≤ (genHeight st).1 := by
    rw [genHeight_eq]
    have h1 := clampHeight_ge st.headLevels
      (min HEIGHT (trailingZeros (xorshift st.seed) + 1))
    have h2 : 1 ≤ min HEIGHT (trailingZeros (xorshift st.seed) + 1) := by
      refine le_min ?_ ?_
      · decide
      · omega
    show 1 ≤ clampHeight st.headLevels
      (min HEIGHT (trailingZeros (xorshift st.seed) + 1))
    omega
  have hgH : (genHeight st).1 ≤ HEIGHT := by
    rw [genHeight_eq]
    have h1 := clampHeight_le st.headLevels
      (min HEIGHT (trailingZeros (xorshift st.seed) + 1))
    have h2 : min HEIGHT (trailingZeros (xorshift st.seed) + 1) ≤ HEIGHT :=
      min_le_left _ _
    show clampHeight st.headLevels
      (min HEIGHT (trailingZeros (xorshift st.seed) + 1)) ≤ HEIGHT
    omega
  rw [genHeight_eq] at hg1 hgH ⊢
  by_cases hmx : st.maxHeight < clampHeight st.headLevels
      (min HEIGHT (trailingZeros (xorshift st.seed) + 1))
  · rw [if_pos hmx] at hg1 hgH ⊢
    exact ⟨rfl, rfl, rfl, rfl, hg1, hgH, le_of_lt hmx, le_refl _,
      Or.inr rfl⟩
  · rw [if_neg hmx] at hg1 hgH ⊢
    exact ⟨rfl, rfl, rfl, rfl, hg1, hgH, le_refl _, le_of_not_lt hmx,
      Or.inl rfl⟩

/-- Appending a fresh node leaves every existing heap entry in place. -/
theorem node?_alloc_old {st2 st5 : SkipState K V} {nw : Node K V}
    (hnodes5 : st5.nodes = st2.nodes ++ [nw]) {j : Nat} {n : Node K V}
    (h : st2.node? j = some n) : st5.node? j = some n := by
  have h' : st2.nodes.get? j = some n := h
  have hlt : j < st2.nodes.length := (List.get?_eq_some.mp h').1
  show st5.nodes.get? j = some n
  rw [hnodes5, List.get?_append hlt]
  exact h'

/-- The freshly appended node lives at the old heap size. -/
theorem node?_alloc_new {st2 st5 : SkipState K V} {nw : Node K V}
    (hnodes5 : st5.nodes = st2.nodes ++ [nw]) :
    st5.node? st2.nodes.length = some nw := by
  show st5.nodes.get? st2.nodes.length = some nw
  rw [hnodes5]
  exact List.get?_concat_length _ _

/-- A resolvable id after the allocation is an old entry or the new node. -/
theorem node?_alloc_cases {st2 st5 : SkipState K V} {nw : Node K V}
    (hnodes5 : st5.nodes = st2.nodes ++ [nw]) {j : Nat} {n : Node K V}
    (h : st5.node? j = some n) :
    st2.node? j = some n ∨ (j = st2.nodes.length ∧ n = nw) := by
  have h' : st5.nodes.get? j = some n := h
  rw [hnodes5] at h'
  by_cases hj : j < st2.nodes.length
  · left
    rw [List.get?_append hj] at h'
    exact h'
  · right
    rw [List.get?_append_right (le_of_not_lt hj)] at h'
    cases hd : j - st2.nodes.length with
    | zero =>
      rw [hd] at h'
      have hlen := le_of_not_lt hj
      exact ⟨by omega, (Option.some.inj h').symm⟩
    | succ m =>
      rw [hd] at h'
      exact absurd h' (by simp)

theorem loadLevel_alloc_head {st2 st5 : SkipState K V}
    (hhead5 : st5.headLevels = st2.headLevels) (lv : Nat) :
    st5.loadLevel none lv = st2.loadLevel none lv := by
  unfold SkipState.loadLevel SkipState.levelsOf
  rw [hhead5]

theorem loadLevel_alloc_node {st2 st5 : SkipState K V} {nw : Node K V}
    (hnodes5 : st5.nodes = st2.nodes ++ [nw]) {j : Nat} {n : Node K V}
    (h : st2.node? j = some n) (lv : Nat) :
    st5.loadLevel (some j) lv = st2.loadLevel (some j) lv := by
  rw [loadLevel_node (node?_alloc_old hnodes5 h) lv, loadLevel_node h lv]

/-- Right after the allocation of the new node, the mid-link invariant holds
at level 0: the heap grew by the fresh all-null tower, the chains and the
search's `prev` frontier are untouched. -/
theorem linkMid_init [LinearOrder K] {st2 : SkipState K V}
    {gl2 : Nat → List Nat} (hInv : Inv st2 gl2) {k : K} {v : V}
    {ip : SearchRes} (hSR : SRProps st2 gl2 k ip)
    {hN : Nat}
    {st5 : SkipState K V}
    (hnodes5 : st5.nodes = st2.nodes ++ [Node.mk0 k v hN])
    (hhead5 : st5.headLevels = st2.headLevels) :
    LinkMid st5 gl2 k st2.nodes.length hN ip.prev 0 st5 := by
  have hnew5 := node?_alloc_new hnodes5
  refine ⟨fun j => rfl, fun j => rfl, fun j hj => rfl, fun j => rfl,
    ⟨Node.mk0 k v hN, hnew5, rfl⟩, ?_, rfl, ?_, ?_, ?_, ?_, ?_, ?_, ?_⟩
  · rw [hhead5]
    exact hInv.headLen
  · intro lv hlv hlvH
    omega
  · intro lv _ hlvH
    refine seg_mono (hInv.chains lv hlvH) ?_ ?_
    · exact succPtr_congr (loadLevel_alloc_head hhead5 lv)
    · intro j hj
      obtain ⟨n, hn, -, -⟩ := hInv.memProps lv j hj
      exact succPtr_congr (loadLevel_alloc_node hnodes5 hn lv)
  · intro lv _ hlv
    rw [loadLevel_node hnew5]
    show (List.replicate hN TL.null).get? lv = some TL.null
    exact get?_replicate_lt hlv
  · intro lv tl hload
    rw [loadLevel_node hnew5] at hload
    have hmem : tl ∈ List.replicate hN TL.null := List.get?_mem hload
    rw [List.eq_of_mem_replicate hmem]
    rfl
  · intro lv p _ hlvH hget
    obtain ⟨hfirst, tl, htl, htag, hptr⟩ := hSR.2 lv p hlvH hget
    refine ⟨?_, tl, ?_, htag, ?_⟩
    · rcases hfirst with h | ⟨i, ni, hp, hni, hm, hk⟩
      · exact Or.inl h
      · exact Or.inr ⟨i, ni, hp, node?_alloc_old hnodes5 hni, hm, hk⟩
    · rcases hfirst with h | ⟨i, ni, hp, hni, -, -⟩
      · rw [h, loadLevel_alloc_head hhead5 lv]
        rw [h] at htl
        exact htl
      · rw [hp, loadLevel_alloc_node hnodes5 hni lv]
        rw [hp] at htl
        exact htl
    · rcases hptr with h | ⟨j, nj, hj, hnj, hm, hk⟩
      · exact Or.inl h
      · exact Or.inr ⟨j, nj, hj, node?_alloc_old hnodes5 hnj, hm, hk⟩
  · intro j hj lv tl hload
    obtain ⟨n, hn, -, -⟩ := hInv.memProps 0 j hj
    rw [loadLevel_alloc_node hnodes5 hn lv] at hload
    exact hInv.tags0 j hj lv tl hload
  · intro lv tl hload
    rw [loadLevel_alloc_head hhead5 lv] at hload
    exact hInv.headTags0 lv tl hload

theorem belowK_true [LinearOrder K] {st : SkipState K V} {k : K} {b : Nat}
    (h : belowK st k b = true) :
    ∃ n, st.node? b = some n ∧ n.key < k := by
  unfold belowK at h
  cases hn : st.node? b with
  | none =>
    rw [hn] at h
    exact absurd h (by simp)
  | some n =>
    rw [hn] at h
    exact ⟨n, rfl, of_decide_eq_true h⟩

theorem aboveK_true [LinearOrder K] {st : SkipState K V} {k : K} {b : Nat}
    (h : aboveK st k b = true) :
    ∃ n, st.node? b = some n ∧ k < n.key := by
  unfold aboveK at h
  cases hn : st.node? b with
  | none =>
    rw [hn] at h
    exact absurd h (by simp)
  | some n =>
    rw [hn] at h
    exact ⟨n, rfl, of_decide_eq_true h⟩

/-- On a key-sorted list of resolvable ids avoiding the key `k`, the
below-`k` members form a prefix: the two filters partition the list. -/
theorem filter_split_sorted [LinearOrder K] {st : SkipState K V} {k : K} :
    ∀ {xs : List Nat},
      xs.Pairwise (fun a b => keyLtB st a b = true) →
      (∀ b ∈ xs, ∃ n, st.node? b = some n ∧ n.key ≠ k) →
      xs.filter (belowK st k) ++ xs.filter (aboveK st k) = xs := by
  intro xs
  induction xs with
  | nil =>
    intro _ _
    rfl
  | cons x rest ih =>
    intro hs hres
    obtain ⟨nx, hnx, hnkx⟩ := hres x (List.mem_cons_self x rest)
    rcases lt_trichotomy nx.key k with hlt | heq | hgt
    · rw [List.filter_cons_of_pos (by rw [belowK_node hnx]; simp [hlt]),
        List.filter_cons_of_neg
          (by rw [aboveK_node hnx]; simp [not_lt.mpr (le_of_lt hlt)]),
        List.cons_append,
        ih (List.pairwise_cons.mp hs).2
          (fun b hb => hres b (List.mem_cons_of_mem x hb))]
    · exact absurd heq hnkx
    · have hrestgt : ∀ b ∈ rest, ∃ nb, st.node? b = some nb ∧ k < nb.key := by
        intro b hb
        have hxb := (List.pairwise_cons.mp hs).1 b hb
        obtain ⟨nb, hnb, -⟩ := hres b (List.mem_cons_of_mem x hb)
        have hltb := (keyLtB_iff hnx hnb).mp hxb
        exact ⟨nb, hnb, lt_trans hgt hltb⟩
      have hbel : (x :: rest).filter (belowK st k) = [] := by
        refine filter_all_false ?_
        intro b hb
        rcases List.mem_cons.mp hb with hbx | hbr
        · rw [hbx, belowK_node hnx]
          simp [not_lt.mpr (le_of_lt hgt)]
        · obtain ⟨nb, hnb, hkb⟩ := hrestgt b hbr
          rw [belowK_node hnb]
          simp [not_lt.mpr (le_of_lt hkb)]
      have habo : (x :: rest).filter (aboveK st k) = x :: rest := by
        refine filter_all_true ?_
        intro b hb
        rcases List.mem_cons.mp hb with hbx | hbr
        · rw [hbx, aboveK_node hnx]
          simp [hgt]
        · obtain ⟨nb, hnb, hkb⟩ := hrestgt b hbr
          rw [aboveK_node hnb]
          simp [hkb]
      rw [hbel, habo, List.nil_append]

/-- When the level loop has linked the fresh node on every one of its
levels, the quiescent invariant holds again, with the new id spliced into
each chain below its height; the new node is live with the inserted key and
value. -/
theorem link_final [LinearOrder K] {st2 st5 : SkipState K V}
    {gl2 : Nat → List Nat} (hInv : Inv st2 gl2) {k : K} {v : V} {hN : Nat}
    (hhN1 : 1 ≤ hN) (hhNH : hN ≤ HEIGHT)
    (hnodes5 : st5.nodes = st2.nodes ++ [Node.mk0 k v hN])
    (hhead5 : st5.headLevels = st2.headLevels)
    (hmax5lo : st2.maxHeight ≤ st5.maxHeight)
    (hmax5hi : st5.maxHeight ≤ HEIGHT)
    (hmaxhN : hN ≤ st5.maxHeight)
    (hnok : ∀ i ni, i ∈ gl2 0 → st2.node? i = some ni → ni.key ≠ k)
    {prev : List Ref} {stF : SkipState K V}
    (hMidF : LinkMid st5 gl2 k st2.nodes.length hN prev hN stF) :
    Inv stF (glInsert st5 gl2 k st2.nodes.length hN) ∧
    ∃ nF, stF.node? st2.nodes.length = some nF ∧ nF.key = k ∧
      nF.val = v ∧ nF.removed = false ∧ nF.height = hN := by
  have hnew5 := node?_alloc_new hnodes5
  have hremF : ∀ j n5 nf, st5.node? j = some n5 → stF.node? j = some nf →
      nf.removed = n5.removed := by
    intro j n5 nf h5 hf
    have h := hMidF.remE j
    rw [h5, hf] at h
    simp only [Option.map_some', Option.some.injEq] at h
    exact h
  obtain ⟨nF, hnF, hkF, hvF, hhF⟩ := node?_of_core hMidF.core hnew5
  have hremNF : nF.removed = false := hremF _ _ _ hnew5 hnF
  obtain ⟨nF0, hnF0, hrefsF0⟩ := hMidF.refsN
  have hNFeq : nF0 = nF := Option.some.inj (hnF0.symm.trans hnF)
  have hrefsF : nF.refs = hN := by
    rw [← hNFeq]
    exact hrefsF0
  have hold : ∀ j n2, st2.node? j = some n2 → ∃ nf, stF.node? j = some nf ∧
      nf.key = n2.key ∧ nf.val = n2.val ∧ nf.height = n2.height ∧
      nf.removed = n2.removed ∧
      (j ≠ st2.nodes.length → nf.refs = n2.refs) ∧
      nf.levels.length = n2.levels.length := by
    intro j n2 h2
    have h5 := node?_alloc_old hnodes5 h2
    obtain ⟨nf, hf, hk, hv, hh⟩ := node?_of_core hMidF.core h5
    refine ⟨nf, hf, hk, hv, hh, hremF j n2 nf h5 hf, ?_, ?_⟩
    · intro hne
      have h := hMidF.refsO j hne
      rw [h5, hf] at h
      simp only [Option.map_some', Option.some.injEq] at h
      exact h
    · have h := hMidF.lens j
      rw [h5, hf] at h
      simp only [Option.map_some', Option.some.injEq] at h
      exact h
  have hgl : ∀ lv, glInsert st5 gl2 k st2.nodes.length hN lv =
      if lv < hN then (gl2 lv).filter (belowK st5 k) ++ st2.nodes.length ::
        (gl2 lv).filter (aboveK st5 k) else gl2 lv := fun lv => rfl
  have hplace : ∀ lv i, i ∈ gl2 lv →
      i ∈ (gl2 lv).filter (belowK st5 k) ++ st2.nodes.length ::
        (gl2 lv).filter (aboveK st5 k) := by
    intro lv i hm
    obtain ⟨n2, hn2, -, -⟩ := hInv.memProps lv i hm
    have hn5 := node?_alloc_old hnodes5 hn2
    have hnk : n2.key ≠ k := hnok i n2 (hInv.memZero hm) hn2
    rcases lt_or_gt_of_ne hnk with hlt | hgt
    · exact List.mem_append_left _
        (List.mem_filter.mpr ⟨hm, by rw [belowK_node hn5]; simp [hlt]⟩)
    · exact List.mem_append_right _ (List.mem_cons_of_mem _
        (List.mem_filter.mpr ⟨hm, by rw [aboveK_node hn5]; simp [hgt]⟩))
  have hsorted5 : ∀ lv, (gl2 lv).Pairwise
      (fun a b => keyLtB st5 a b = true) := by
    intro lv
    refine (hInv.sorted lv).imp ?_
    intro a b hab
    unfold keyLtB at hab ⊢
    cases ha : st2.node? a with
    | none =>
      rw [ha] at hab
      exact absurd hab (by simp)
    | some na =>
      rw [ha] at hab
      cases hb : st2.node? b with
      | none =>
        rw [hb] at hab
        exact absurd hab (by simp)
      | some nb =>
        rw [hb] at hab
        rw [node?_alloc_old hnodes5 ha, node?_alloc_old hnodes5 hb]
        exact hab
  have hpart : ∀ lv, (gl2 lv).filter (belowK st5 k) ++
      (gl2 lv).filter (aboveK st5 k) = gl2 lv := by
    intro lv
    refine filter_split_sorted (hsorted5 lv) ?_
    intro b hb
    obtain ⟨n2, hn2, -, -⟩ := hInv.memProps lv b hb
    exact ⟨n2, node?_alloc_old hnodes5 hn2, hnok b n2 (hInv.memZero hb) hn2⟩
  have hmem2 : ∀ lv i, lv < hN →
      (i ∈ glInsert st5 gl2 k st2.nodes.length hN lv ↔
        i ∈ gl2 lv ∨ i = st2.nodes.length) := by
    intro lv i hlv
    rw [hgl lv, if_pos hlv]
    constructor
    · intro h
      rcases List.mem_append.mp h with h | h
      · exact Or.inl (List.mem_of_mem_filter h)
      · rcases List.mem_cons.mp h with h | h
        · exact Or.inr h
        · exact Or.inl (List.mem_of_mem_filter h)
    · intro h
      rcases h with h | h
      · exact hplace lv i h
      · rw [h]
        exact List.mem_append_right _ (List.mem_cons_self _ _)
  have hkeyF : ∀ a b, keyLtB stF a b = keyLtB st5 a b :=
    keyLtB_congr hMidF.core
  have hmaxF : stF.maxHeight = st5.maxHeight := hMidF.maxH
  refine ⟨⟨hMidF.headLen, ?_, ?_, ?_, ?_, ?_, ?_, ?_, ?_, ?_,
    hMidF.headTags, ?_, ?_, ?_⟩, nF, hnF, hkF, hvF, hremNF, hhF⟩
  · rw [hmaxF]
    exact hmax5hi
  · rw [hmaxF]
    exact le_trans hInv.maxPos hmax5lo
  · intro lv hlv
    rw [hmaxF] at hlv
    rw [hgl lv, if_neg (not_lt.mpr (le_trans hmaxhN hlv))]
    exact hInv.emptyHi lv (le_trans hmax5lo hlv)
  · intro lv hlvH
    by_cases hlv : lv < hN
    · exact hMidF.chainsLo lv hlv hlvH
    · rw [hgl lv, if_neg hlv]
      exact hMidF.chainsHi lv (le_of_not_lt hlv) hlvH
  · intro lv
    by_cases hlv : lv < hN
    · rw [hgl lv, if_pos hlv]
      refine List.pairwise_append.mpr ⟨?_, ?_, ?_⟩
      · refine (List.Pairwise.sublist (List.filter_sublist _)
          (hsorted5 lv)).imp ?_
        intro a b hab
        rw [hkeyF a b]
        exact hab
      · refine List.pairwise_cons.mpr ⟨?_, ?_⟩
        · intro b hb
          obtain ⟨nb5, hnb5, hkb⟩ := aboveK_true (List.of_mem_filter hb)
          rw [hkeyF]
          unfold keyLtB
          rw [hnew5, hnb5]
          exact decide_eq_true hkb
        · refine (List.Pairwise.sublist (List.filter_sublist _)
            (hsorted5 lv)).imp ?_
          intro a b hab
          rw [hkeyF a b]
          exact hab
      · intro a ha b hb
        obtain ⟨na5, hna5, hka⟩ := belowK_true (List.of_mem_filter ha)
        rw [hkeyF a b]
        rcases List.mem_cons.mp hb with hbn | hbb
        · rw [hbn]
          unfold keyLtB
          rw [hna5, hnew5]
          exact decide_eq_true hka
        · obtain ⟨nb5, hnb5, hkb⟩ := aboveK_true (List.of_mem_filter hbb)
          unfold keyLtB
          rw [hna5, hnb5]
          exact decide_eq_true (lt_trans hka hkb)
    · rw [hgl lv, if_neg hlv]
      refine (hsorted5 lv).imp ?_
      intro a b hab
      rw [hkeyF a b]
      exact hab
  · intro lv
    by_cases h2 : lv + 1 < hN
    · have hlv : lv < hN := by omega
      rw [hgl lv, if_pos hlv, hgl (lv + 1), if_pos h2]
      exact List.Sublist.append (List.Sublist.filter _ (hInv.sub lv))
        (List.Sublist.cons₂ _ (List.Sublist.filter _ (hInv.sub lv)))
    · by_cases hlv : lv < hN
      · rw [hgl (lv + 1), if_neg h2, hgl lv, if_pos hlv]
        have h3 : List.Sublist (gl2 lv) ((gl2 lv).filter (belowK st5 k) ++
            st2.nodes.length :: (gl2 lv).filter (aboveK st5 k)) := by
          conv_lhs => rw [← hpart lv]
          exact List.Sublist.append (List.Sublist.refl _)
            ((List.Sublist.refl _).cons _)
        exact (hInv.sub lv).trans h3
      · rw [hgl (lv + 1), if_neg h2, hgl lv, if_neg hlv]
        exact hInv.sub lv
  · intro lv i hm
    by_cases hlv : lv < hN
    · rcases (hmem2 lv i hlv).mp hm with h2 | hnw
      · obtain ⟨n2, hn2, hrm2, hht2⟩ := hInv.memProps lv i h2
        obtain ⟨nf, hf, -, -, hh, hrm, -, -⟩ := hold i n2 hn2
        refine ⟨nf, hf, ?_, ?_⟩
        · rw [hrm]
          exact hrm2
        · rw [hh]
          exact hht2
      · rw [hnw]
        refine ⟨nF, hnF, hremNF, ?_⟩
        rw [hhF]
        exact hlv
    · rw [hgl lv, if_neg hlv] at hm
      obtain ⟨n2, hn2, hrm2, hht2⟩ := hInv.memProps lv i hm
      obtain ⟨nf, hf, -, -, hh, hrm, -, -⟩ := hold i n2 hn2
      refine ⟨nf, hf, ?_, ?_⟩
      · rw [hrm]
        exact hrm2
      · rw [hh]
        exact hht2
  · intro i n hn
    obtain ⟨n5, h5, -, -, hh5⟩ := node?_of_core_rev hMidF.core hn
    have hlen : n.levels.length = n5.levels.length := by
      have h := hMidF.lens i
      rw [hn, h5] at h
      simp only [Option.map_some', Option.some.injEq] at h
      exact h
    rcases node?_alloc_cases hnodes5 h5 with h2 | ⟨hj, hnw⟩
    · obtain ⟨e1, e2, e3⟩ := hInv.nodeStruct i n5 h2
      refine ⟨?_, ?_, ?_⟩
      · rw [hlen, hh5]
        exact e1
      · rw [hh5]
        exact e2
      · rw [hh5]
        exact e3
    · subst hnw
      refine ⟨?_, ?_, ?_⟩
      · rw [hlen, hh5]
        show (List.replicate hN TL.null).length = hN
        simp
      · rw [hh5]
        exact hhN1
      · rw [hh5]
        exact hhNH
  · intro i hm lv tl hload
    rcases (hmem2 0 i hhN1).mp hm with h2 | hnw
    · exact hMidF.tags i h2 lv tl hload
    · rw [hnw] at hload
      exact hMidF.tagsN lv tl hload
  · intro i hm lv n hn hlt
    rcases (hmem2 0 i hhN1).mp hm with h2 | hnw
    · obtain ⟨n2, hn2, -, -⟩ := hInv.memProps 0 i h2
      obtain ⟨nf, hf, -, -, hh, -, -, -⟩ := hold i n2 hn2
      have hneq : nf = n := Option.some.inj (hf.symm.trans hn)
      have hlt2 : lv < n2.height := by
        rw [← hh, hneq]
        exact hlt
      have hm2 : i ∈ gl2 lv := hInv.full i h2 lv n2 hn2 hlt2
      by_cases hlv : lv < hN
      · exact (hmem2 lv i hlv).mpr (Or.inl hm2)
      · rw [hgl lv, if_neg hlv]
        exact hm2
    · rw [hnw] at hn
      have hneq : nF = n := Option.some.inj (hnF.symm.trans hn)
      have hH : n.height = hN := by
        rw [← hneq]
        exact hhF
      have hlvN : lv < hN := by
        rw [hH] at hlt
        exact hlt
      rw [hnw]
      exact (hmem2 lv _ hlvN).mpr (Or.inr rfl)
  · intro i n hm hn
    rcases (hmem2 0 i hhN1).mp hm with h2 | hnw
    · obtain ⟨n2, hn2, -, -⟩ := hInv.memProps 0 i h2
      have hne : i ≠ st2.nodes.length := by
        intro he
        rw [he] at hn2
        have h' : st2.nodes.get? st2.nodes.length = some n2 := hn2
        exact absurd (List.get?_eq_some.mp h').1 (lt_irrefl _)
      obtain ⟨nf, hf, -, -, hh, -, hrefs, -⟩ := hold i n2 hn2
      have hneq : nf = n := Option.some.inj (hf.symm.trans hn)
      rw [← hneq, hrefs hne, hh]
      exact hInv.refsEq i n2 h2 hn2
    · rw [hnw] at hn
      have hneq : nF = n := Option.some.inj (hnF.symm.trans hn)
      rw [← hneq]
      exact hrefsF.trans hhF.symm
  · intro i n hn hrm
    by_cases hi : i = st2.nodes.length
    · rw [hi]
      exact (hmem2 0 _ hhN1).mpr (Or.inr rfl)
    · obtain ⟨n5, h5, -, -, -⟩ := node?_of_core_rev hMidF.core hn
      rcases node?_alloc_cases hnodes5 h5 with h2 | ⟨hj, -⟩
      · have hrm5 : n5.removed = false := by
          rw [← hremF i n5 n h5 hn]
          exact hrm
        have hm2 : i ∈ gl2 0 := hInv.liveInChain i n5 h2 hrm5
        exact (hmem2 0 i hhN1).mpr (Or.inl hm2)
      · exact absurd hj hi

/-- Key-order facts survive the allocation of a fresh node. -/
theorem sorted_alloc [LinearOrder K] {st2 st5 : SkipState K V}
    {nw : Node K V} (hnodes5 : st5.nodes = st2.nodes ++ [nw])
    {xs : List Nat}
    (hs : xs.Pairwise (fun a b => keyLtB st2 a b = true)) :
    xs.Pairwise (fun a b => keyLtB st5 a b = true) := by
  refine hs.imp ?_
  intro a b hab
  unfold keyLtB at hab ⊢
  cases ha : st2.node? a with
  | none =>
    rw [ha] at hab
    exact absurd hab (by simp)
  | some na =>
    rw [ha] at hab
    cases hb : st2.node? b with
    | none =>
      rw [hb] at hab
      exact absurd hab (by simp)
    | some nb =>
      rw [hb] at hab
      rw [node?_alloc_old hnodes5 ha, node?_alloc_old hnodes5 hb]
      exact hab

/-- The full link phase of `insert` after the allocation: the retry loop
returns `Ok` with the untouched `existing` handle, the quiescent invariant
holds with the new node spliced in, every old node keeps its key and value,
and the new node is live with the inserted pair. -/
theorem insert_link_post [LinearOrder K] {st2 : SkipState K V}
    {gl2 : Nat → List Nat} (hInv2 : Inv st2 gl2) {k : K} {v : V}
    {ip2 : SearchRes} (hSR2 : SRProps st2 gl2 k ip2)
    (hnok2 : ∀ i ni, i ∈ gl2 0 → st2.node? i = some ni → ni.key ≠ k)
    {rf sf fl : Nat} {existing : Option Nat} {hN : Nat}
    {st5 : SkipState K V} {out : Option Nat × SkipState K V}
    (hlink : insertLinkLoop rf sf k st2.nodes.length fl st5 ip2.prev 0
      existing = .ok out)
    (h5n : st5.nodes = st2.nodes ++ [Node.mk0 k v hN])
    (h5h : st5.headLevels = st2.headLevels)
    (hg1 : 1 ≤ hN) (hgH : hN ≤ HEIGHT)
    (hm5lo : st2.maxHeight ≤ st5.maxHeight)
    (hm5hN : hN ≤ st5.maxHeight)
    (hm5disj : st5.maxHeight = st2.maxHeight ∨ st5.maxHeight = hN) :
    out.1 = existing ∧
    Inv out.2 (glInsert st5 gl2 k st2.nodes.length hN) ∧
    (∀ j n2, st2.node? j = some n2 → ∃ nf, out.2.node? j = some nf ∧
      nf.key = n2.key ∧ nf.val = n2.val) ∧
    ∃ nF, out.2.node? st2.nodes.length = some nF ∧ nF.key = k ∧
      nF.val = v ∧ nF.removed = false := by
  have hm5hi : st5.maxHeight ≤ HEIGHT := by
    rcases hm5disj with h | h
    · rw [h]
      exact hInv2.maxLe
    · rw [h]
      exact hgH
  have hnew5 := node?_alloc_new h5n
  have hfresh : ∀ lv, st2.nodes.length ∉ gl2 lv := by
    intro lv hmem
    obtain ⟨n, hn, -, -⟩ := hInv2.memProps lv _ hmem
    have h' : st2.nodes.get? st2.nodes.length = some n := hn
    exact absurd (List.get?_eq_some.mp h').1 (lt_irrefl _)
  have hsorted5 : ∀ lv, (gl2 lv).Pairwise
      (fun a b => keyLtB st5 a b = true) :=
    fun lv => sorted_alloc h5n (hInv2.sorted lv)
  have hnok5 : ∀ i2 ni, i2 ∈ gl2 0 → st5.node? i2 = some ni →
      ni.key ≠ k := by
    intro i2 ni hm hni
    obtain ⟨n2, hn2, -, -⟩ := hInv2.memProps 0 i2 hm
    have h5 := node?_alloc_old h5n hn2
    have heq : ni = n2 := Option.some.inj (hni.symm.trans h5)
    rw [heq]
    exact hnok2 i2 n2 hm hn2
  have hres5 : ∀ i2, i2 ∈ gl2 0 → ∃ n, st5.node? i2 = some n := by
    intro i2 hm
    obtain ⟨n2, hn2, -, -⟩ := hInv2.memProps 0 i2 hm
    exact ⟨n2, node?_alloc_old h5n hn2⟩
  have hMid0 := linkMid_init hInv2 hSR2 h5n h5h
  have hdisj := link_run hnew5 rfl rfl rfl hfresh hgH hsorted5 hnok5
    (fun lv i2 h => hInv2.memZero h) hres5 hSR2.1 rf sf sf 0 st5
    (Nat.zero_le hN) hMid0
  cases fl with
  | zero =>
    exact absurd hlink (by simp [insertLinkLoop])
  | succ flm =>
    simp only [insertLinkLoop] at hlink
    rcases hdisj with hfuel | ⟨stF, hok, hMidF⟩
    · rw [hfuel] at hlink
      exact absurd hlink (by simp)
    · rw [hok] at hlink
      have h2 : (.ok (existing, stF) :
          Except Err (Option Nat × SkipState K V)) = .ok out := hlink
      have hout : out = (existing, stF) := (Except.ok.inj h2).symm
      subst hout
      obtain ⟨hInvF, nF, hnF, hkF, hvF, hremF, hhF⟩ :=
        link_final hInv2 hg1 hgH h5n h5h hm5lo hm5hi hm5hN hnok2 hMidF
      refine ⟨rfl, hInvF, ?_, nF, hnF, hkF, hvF, hremF⟩
      intro j n2 h2j
      have h5 := node?_alloc_old h5n h2j
      obtain ⟨nf, hf, hk, hv, -⟩ := node?_of_core hMidF.core h5
      exact ⟨nf, hf, hk, hv⟩

/-- `SkipList::insert` on a quiescent state: the invariant is restored; the
returned handle is the previously live equal-keyed entry (its key and value)
when one existed and `None` otherwise; afterwards exactly one live node
holds key `k`, with the inserted value. -/
theorem insertE_spec [LinearOrder K] {st : SkipState K V}
    {gl : Nat → List Nat} (hInv : Inv st gl) {rf sf : Nat} {k : K} {v : V}
    {r : Option (K × V)} {st' : SkipState K V}
    (h : insertE rf sf st k v = .ok (r, st')) :
    (∃ gl', Inv st' gl') ∧
    (∀ t nt, t ∈ gl 0 → st.node? t = some nt → nt.key = k →
      r = some (nt.key, nt.val)) ∧
    ((∀ t nt, t ∈ gl 0 → st.node? t = some nt → nt.key ≠ k) → r = none) ∧
    (∃ j nj, st'.node? j = some nj ∧ nj.removed = false ∧ nj.key = k ∧
      nj.val = v ∧ ∀ j2 nj2, st'.node? j2 = some nj2 →
        nj2.removed = false → nj2.key = k → j2 = j) := by
  unfold insertE at h
  split at h
  · exact absurd h (by simp)
  next ip1 st1 hfind =>
    obtain ⟨hst1, hSR1, p0, hp0, htgt⟩ := findE_inv hInv hfind
    subst hst1
    split at h
    · exact absurd h (by simp)
    next ip2 existing2 st2 hrloop =>
      obtain ⟨gl2, hInv2, hSR2, hnok2, hcore2, hlen2, hCnone, hClive,
        hCkeep⟩ := insertReplaceLoop_spec sf st1 gl ip1 none hInv hSR1
          ⟨p0, hp0, htgt⟩ hrloop
      simp only [] at h
      split at h
      · exact absurd h (by simp)
      next existing3 st6 hlink =>
        have hpair := Except.ok.inj h
        obtain ⟨hr, hst'⟩ := Prod.mk.inj hpair
        subst hst'
        obtain ⟨hn3, hh3, hl3, hr3, hg1, hgH, hm3lo, hm3hN, hm3disj⟩ :=
          genHeight_facts st2
        rw [hn3] at hlink
        have hpost := insert_link_post hInv2 hSR2 hnok2 hlink rfl hh3 hg1
          hgH hm3lo hm3hN hm3disj
        obtain ⟨houteq, hInvF, htrans, nF, hnF, hkF, hvF, hremF⟩ := hpost
        have he3 : existing3 = existing2 := houteq
        refine ⟨⟨_, hInvF⟩, ?_, ?_, ?_⟩
        · intro t nt htm hnt hk
          have hex : existing2 = some t := hClive t nt rfl htm hnt hk
          rw [← hr, he3, hex]
          show st6.entryOf t = some (nt.key, nt.val)
          obtain ⟨nt2, hnt2, hk2, hv2, -⟩ := node?_of_core hcore2 hnt
          obtain ⟨ntF, hntF, hkF2, hvF2⟩ := htrans t nt2 hnt2
          unfold SkipState.entryOf
          rw [hntF]
          simp only [Option.map_some']
          rw [hkF2, hvF2, hk2, hv2]
        · intro hnone
          have hex : existing2 = none := hCnone ⟨rfl, hnone⟩
          rw [← hr, he3, hex]
          rfl
        · refine ⟨st2.nodes.length, nF, hnF, hremF, hkF, hvF, ?_⟩
          intro j2 nj2 hn2 hr2 hk2
          have hm2 := hInvF.liveInChain j2 nj2 hn2 hr2
          have hmN := hInvF.liveInChain _ nF hnF hremF
          exact sorted_key_unique (hInvF.sorted 0) hm2 hmN hn2 hnF
            (by rw [hk2, hkF])

/-- Every state reachable by completed inserts and removes from a fresh list
is quiescently well-formed. -/
theorem reach_inv [LinearOrder K] {st : SkipState K V} (h : Reach st) :
    ∃ gl, Inv st gl := by
  induction h with
  | init seed => exact ⟨fun _ => [], inv_newList seed⟩
  | insertStep hre heq ih =>
    obtain ⟨gl, hInv⟩ := ih
    exact (insertE_spec hInv heq).1
  | removeStep hre heq ih =>
    obtain ⟨gl, hInv⟩ := ih
    exact removeE_spec hInv heq

/-- **C1.** Insert has replace semantics: on any reachable state, when a
live node with the inserted key exists, `insert(k, v2)` returns `Some` of
that node's (key, value) pair — so after `insert(k, v1)` it returns a handle
holding `v1`; when no live equal-keyed node exists it returns `None`; and
afterwards exactly one live node holds key `k`, with value `v2`. -/
theorem c1_insert_replace [LinearOrder K] {st : SkipState K V}
    (hre : Reach st) {rf sf : Nat} {k : K} {v2 : V}
    {r : Option (K × V)} {st' : SkipState K V}
    (h : insertE rf sf st k v2 = .ok (r, st')) :
    (∀ t nt, st.node? t = some nt → nt.removed = false → nt.key = k →
      r = some (k, nt.val)) ∧
    ((∀ t nt, st.node? t = some nt → nt.removed = false → nt.key ≠ k) →
      r = none) ∧
    (∃ j nj, st'.node? j = some nj ∧ nj.removed = false ∧ nj.key = k ∧
      nj.val = v2 ∧ ∀ j2 nj2, st'.node? j2 = some nj2 →
        nj2.removed = false → nj2.key = k → j2 = j) := by
  obtain ⟨gl, hInv⟩ := reach_inv hre
  obtain ⟨hInv', hlive, hnone, hnew⟩ := insertE_spec hInv h
  refine ⟨?_, ?_, hnew⟩
  · intro t nt hnt hrm hk
    have htm : t ∈ gl 0 := hInv.liveInChain t nt hnt hrm
    have hr := hlive t nt htm hnt hk
    rw [hr, hk]
  · intro hno
    refine hnone ?_
    intro t nt htm hnt hk
    obtain ⟨n2, hn2, hrm, -⟩ := hInv.memProps 0 t htm
    have heq : n2 = nt := Option.some.inj (hn2.symm.trans hnt)
    rw [heq] at hrm
    exact hno t nt hnt hrm hk

/-- Witness for C1 on the singleton list {7 ↦ 70}: the replacing insert of
(7, 71) returns the old pair (7, 70). -/
theorem c1_witness : insRes71.1 = some (7, 70) := by
  have hre : Reach stIns7 :=
    Reach.insertStep (Reach.init 1)
      (rfl : insertE 50 500 st0 7 70 =
        .ok ((insStep st0 7 70).1, (insStep st0 7 70).2))
  have h := c1_insert_replace hre
    (rfl : insertE 50 500 stIns7 7 71 = .ok (insRes71.1, insRes71.2))
  have h0 : stIns7.node? 0 =
      some ((stIns7.node? 0).getD (Node.mk0 0 0 1)) := rfl
  exact h.1 0 ((stIns7.node? 0).getD (Node.mk0 0 0 1)) h0 rfl rfl

/-- The fuelled chain reader reproduces a null-terminated chain exactly when
given more fuel than the chain's length. -/
theorem chainGo_adequate {st : SkipState K V} {lv : Nat} :
    ∀ (xs : List Nat) (r : Ref) (fuel : Nat),
      ChainSeg st lv r xs none → xs.length < fuel →
      chainGo st lv fuel r = xs := by
  intro xs
  induction xs with
  | nil =>
    intro r fuel hch hf
    cases fuel with
    | zero => exact absurd hf (Nat.not_lt_zero _)
    | succ f =>
      cases hch with
      | nil _ _ hq =>
        unfold succPtr at hq
        cases hl : st.loadLevel r lv with
        | none =>
          rw [hl] at hq
          exact absurd hq (by simp)
        | some tl =>
          rw [hl] at hq
          simp only [Option.map_some', Option.some.injEq] at hq
          simp only [chainGo, hl, hq]
  | cons j js ih =>
    intro r fuel hch hf
    cases fuel with
    | zero => exact absurd hf (Nat.not_lt_zero _)
    | succ f =>
      cases hch with
      | cons _ _ _ _ hj hrest =>
        unfold succPtr at hj
        cases hl : st.loadLevel r lv with
        | none =>
          rw [hl] at hj
          exact absurd hj (by simp)
        | some tl =>
          rw [hl] at hj
          simp only [Option.map_some', Option.some.injEq] at hj
          simp only [chainGo, hl, hj]
          rw [ih (some j) f hrest
            (by simp only [List.length_cons] at hf; omega)]

/-- Below the head tower's size, the observed chain is the abstract one. -/
theorem chain_eq_gl [LinearOrder K] {st : SkipState K V}
    {gl : Nat → List Nat} (hInv : Inv st gl) (lv : Nat) (hlv : lv < HEIGHT) :
    chain st lv = gl lv := by
  unfold chain
  refine chainGo_adequate (gl lv) none (st.nodes.length + 1)
    (hInv.chains lv hlv) ?_
  have hnd := hInv.nodupAt lv
  have hsub : gl lv ⊆ List.range st.nodes.length := by
    intro j hj
    obtain ⟨n, hn, -, -⟩ := hInv.memProps lv j hj
    have h' : st.nodes.get? j = some n := hn
    exact List.mem_range.mpr (List.get?_eq_some.mp h').1
  have hle := (hnd.subperm hsub).length_le
  rw [List.length_range] at hle
  omega

/-- At or above the head tower's size, the observed chain is empty. -/
theorem chain_high {st : SkipState K V}
    (hlen : st.headLevels.length = HEIGHT) (lv : Nat) (hlv : HEIGHT ≤ lv) :
    chain st lv = [] := by
  unfold chain
  have hload : st.loadLevel none lv = none := by
    show st.headLevels.get? lv = none
    refine List.get?_eq_none.mpr ?_
    rw [hlen]
    exact hlv
  simp only [chainGo, hload]

/-- A sorted chain of resolvable ids reads back as a strictly increasing
list of present keys. -/
theorem chain_keys_sorted [LinearOrder K] {st : SkipState K V} :
    ∀ {xs : List Nat},
      (∀ i ∈ xs, ∃ n, st.node? i = some n) →
      xs.Pairwise (fun a b => keyLtB st a b = true) →
      ∃ ks : List K,
        xs.map (fun i => (st.node? i).map (fun n => n.key)) = ks.map some ∧
        ks.Pairwise (fun a b => a < b) := by
  intro xs
  induction xs with
  | nil =>
    intro _ _
    exact ⟨[], rfl, List.Pairwise.nil⟩
  | cons x rest ih =>
    intro hres hs
    obtain ⟨nx, hnx⟩ := hres x (List.mem_cons_self x rest)
    obtain ⟨ks, hmap, hpw⟩ := ih
      (fun i hi => hres i (List.mem_cons_of_mem x hi))
      (List.pairwise_cons.mp hs).2
    refine ⟨nx.key :: ks, ?_, ?_⟩
    · rw [List.map_cons, hnx, List.map_cons, hmap]
      rfl
    · refine List.pairwise_cons.mpr ⟨?_, hpw⟩
      intro b hb
      have hbm : some b ∈ rest.map
          (fun i => (st.node? i).map (fun n => n.key)) := by
        rw [hmap]
        exact List.mem_map_of_mem some hb
      obtain ⟨i, hir, hf⟩ := List.mem_map.mp hbm
      obtain ⟨ni, hni⟩ := hres i (List.mem_cons_of_mem x hir)
      rw [hni] at hf
      have hkb : ni.key = b := Option.some.inj hf
      have hlt := (keyLtB_iff hnx hni).mp
        ((List.pairwise_cons.mp hs).1 i hir)
      rw [← hkb]
      exact hlt

/-- `next_node` from a chain position on a quiescent state: all links are
untagged, so it returns the chain successor (or runs out of search fuel on
a nonempty tail with `sf = 0`). -/
theorem nextNode_chain [LinearOrder K] {st : SkipState K V}
    {gl : Nat → List Nat} (hInv : Inv st gl) {r : Ref} {ds : List Nat}
    (hch : ChainSeg st 0 r ds none)
    (htags : ∀ tl, st.loadLevel r 0 = some tl → tl.tag = 0)
    (hds : ∀ j ∈ ds, j ∈ gl 0) (rf sf : Nat) :
    nextNode rf sf st r = .ok (segNext ds none, st) ∨
    nextNode rf sf st r = .error .fuel := by
  obtain ⟨tl, htl, hptr⟩ := seg_loadLevel hch
  have htag := htags tl htl
  unfold nextNode
  simp only [htl]
  rw [if_neg (by rw [htag]; decide)]
  cases hds2 : ds with
  | nil =>
    left
    rw [hds2] at hptr
    have hptr2 : tl.ptr = none := hptr
    simp only [hptr2]
    rfl
  | cons j ds2 =>
    rw [hds2] at hptr
    have hptr2 : tl.ptr = some j := hptr
    simp only [hptr2]
    cases sf with
    | zero =>
      right
      rfl
    | succ s =>
      left
      have hjm : j ∈ gl 0 := hds j (by rw [hds2]; exact List.mem_cons_self _ _)
      have hch2 : ChainSeg st 0 (some j) ds2 none := by
        rw [hds2] at hch
        cases hch with
        | cons _ _ _ _ hjj hrest => exact hrest
      obtain ⟨tl2, htl2, -⟩ := seg_loadLevel hch2
      have htag2 : tl2.tag = 0 := hInv.tags0 j hjm 0 tl2 htl2
      have hneg2 : ¬(tl2.tag = 1) := by
        rw [htag2]
        decide
      simp only [nextNodeLoop, htl2, if_neg hneg2]
      rfl

/-- `get_first` on a quiescent state: `None` when the counter reads empty,
otherwise the head of the level-0 chain (or a fuel error). -/
theorem getFirst_cases [LinearOrder K] {st : SkipState K V}
    {gl : Nat → List Nat} (hInv : Inv st gl) (rf sf : Nat) :
    getFirst rf sf st = .ok (none, st) ∨
    getFirst rf sf st = .ok (segNext (gl 0) none, st) ∨
    getFirst rf sf st = .error .fuel := by
  unfold getFirst
  by_cases he : isEmpty st
  · rw [if_pos he]
    exact Or.inl rfl
  · rw [if_neg he]
    rcases nextNode_chain hInv (hInv.chains 0 (by decide))
      (fun tl htl => hInv.headTags0 0 tl htl)
      (fun j hj => hj) rf sf with h | h
    · exact Or.inr (Or.inl h)
    · exact Or.inr (Or.inr h)

/-- The borrowing iterator's walk on a quiescent state: starting from a
chain position with all previously collected keys strictly below the
position's key, the yielded keys come out strictly increasing. -/
theorem iterGo_sorted [LinearOrder K] {st : SkipState K V}
    {gl : Nat → List Nat} (hInv : Inv st gl) {rf sf : Nat} :
    ∀ (fuel : Nat) (cur : Option Nat) (acc : List (K × V))
      {out : List (K × V) × SkipState K V},
      ((acc.reverse.map Prod.fst).Pairwise (fun a b => a < b)) →
      (cur = none ∨ ∃ i ni cs ds, cur = some i ∧ st.node? i = some ni ∧
        gl 0 = cs ++ i :: ds ∧ (∀ q ∈ acc, q.1 < ni.key)) →
      iterGo rf sf fuel st cur acc = .ok out →
      (out.1.map Prod.fst).Pairwise (fun a b => a < b) := by
  intro fuel
  induction fuel with
  | zero =>
    intro cur acc out hacc hcur h
    exact absurd h (by simp [iterGo])
  | succ f ih =>
    intro cur acc out hacc hcur h
    rcases hcur with hnone | ⟨i, ni, cs, ds, hcur, hni, hsplit, hbound⟩
    · subst hnone
      simp only [iterGo] at h
      have hout : out = (acc.reverse, st) := (Except.ok.inj h).symm
      rw [hout]
      exact hacc
    · subst hcur
      simp only [iterGo] at h
      have hent : st.entryOf i = some (ni.key, ni.val) := by
        unfold SkipState.entryOf
        rw [hni]
        rfl
      simp only [hent] at h
      have hch0 := hInv.chains 0 (by decide)
      rw [hsplit] at hch0
      obtain ⟨hc1, hc2⟩ := seg_split_cons hch0
      have hdsm : ∀ j ∈ ds, j ∈ gl 0 := by
        intro j hj
        rw [hsplit]
        exact List.mem_append_right _ (List.mem_cons_of_mem _ hj)
      have him : i ∈ gl 0 := by
        rw [hsplit]
        exact List.mem_append_right _ (List.mem_cons_self _ _)
      have htagsi : ∀ tl, st.loadLevel (some i) 0 = some tl → tl.tag = 0 :=
        fun tl htl => hInv.tags0 i him 0 tl htl
      rcases nextNode_chain hInv hc2 htagsi hdsm rf sf with hnx | hnx
      · simp only [hnx] at h
        refine ih (segNext ds none) ((ni.key, ni.val) :: acc) ?_ ?_ h
        · rw [List.reverse_cons, List.map_append]
          refine List.pairwise_append.mpr ⟨hacc, by simp, ?_⟩
          intro a ha b hb
          simp only [List.map_cons, List.map_nil, List.mem_singleton] at hb
          obtain ⟨q, hq, hqa⟩ := List.mem_map.mp ha
          have hq2 : q ∈ acc := List.mem_reverse.mp hq
          rw [← hqa, hb]
          exact hbound q hq2
        · cases hds : ds with
          | nil =>
            left
            rfl
          | cons j ds2 =>
            right
            obtain ⟨nj, hnj, -, -⟩ := hInv.memProps 0 j
              (hdsm j (by rw [hds]; exact List.mem_cons_self _ _))
            refine ⟨j, nj, cs ++ [i], ds2, rfl, hnj, ?_, ?_⟩
            · rw [hsplit, hds]
              simp
            · have hij : keyLtB st i j = true := by
                have hsrt := hInv.sorted 0
                rw [hsplit] at hsrt
                have hpw := (List.pairwise_append.mp hsrt).2.1
                refine (List.pairwise_cons.mp hpw).1 j ?_
                rw [hds]
                exact List.mem_cons_self _ _
              have hkij := (keyLtB_iff hni hnj).mp hij
              intro q hq
              rcases List.mem_cons.mp hq with hq1 | hq2
              · rw [hq1]
                exact hkij
              · exact lt_trans (hbound q hq2) hkij
      · rw [hnx] at h
        exact absurd h (by simp)

/-- **C4.** Sortedness invariant: on every state reachable by inserts and
removes, the chain followed from the head at every level visits keys in
strictly increasing order (hence without duplicates), and consequently any
completed quiescent `iter()` yields its keys strictly ascending with no
duplicates. -/
theorem c4_sorted_invariant [LinearOrder K] {st : SkipState K V}
    (hre : Reach st) :
    (∀ lv, ∃ ks : List K, chainKeys st lv = ks.map some ∧
      ks.Pairwise (fun a b => a < b)) ∧
    (∀ rf sf fuel out, iterList rf sf fuel st = .ok out →
      (out.1.map Prod.fst).Pairwise (fun a b => a < b)) := by
  obtain ⟨gl, hInv⟩ := reach_inv hre
  constructor
  · intro lv
    by_cases hlv : lv < HEIGHT
    · have hc := chain_eq_gl hInv lv hlv
      unfold chainKeys
      rw [hc]
      refine chain_keys_sorted ?_ (hInv.sorted lv)
      intro i hi
      obtain ⟨n, hn, -, -⟩ := hInv.memProps lv i hi
      exact ⟨n, hn⟩
    · have hc := chain_high hInv.headLen lv (le_of_not_lt hlv)
      unfold chainKeys
      rw [hc]
      exact ⟨[], rfl, List.Pairwise.nil⟩
  · intro rf sf fuel out h
    unfold iterList at h
    split at h
    · exact absurd h (by simp)
    next cur st1 hgf =>
      rcases getFirst_cases hInv rf sf with hg | hg | hg
      · obtain ⟨hcur, hst1⟩ := Prod.mk.inj (Except.ok.inj
          (hg.symm.trans hgf))
        subst hst1
        exact iterGo_sorted hInv fuel cur [] (by simp) (Or.inl hcur.symm) h
      · obtain ⟨hcur, hst1⟩ := Prod.mk.inj (Except.ok.inj
          (hg.symm.trans hgf))
        subst hst1
        refine iterGo_sorted hInv fuel cur [] (by simp) ?_ h
        cases hgl0 : gl 0 with
        | nil =>
          left
          rw [← hcur, hgl0]
          rfl
        | cons j ds =>
          right
          obtain ⟨nj, hnj, -, -⟩ := hInv.memProps 0 j
            (by rw [hgl0]; exact List.mem_cons_self _ _)
          refine ⟨j, nj, [], ds, ?_, hnj, ?_, ?_⟩
          · rw [← hcur, hgl0]
            rfl
          · rfl
          · intro q hq
            exact absurd hq (by simp)
      · rw [hg] at hgf
        exact absurd hgf (by simp)

/-- Witness for C4 on the list built by inserting 3, 4, 5: every level chain
reads back as a sorted key list and any completed iteration is ascending. -/
theorem c4_witness :
    (∀ lv, ∃ ks : List Nat, chainKeys st345 lv = ks.map some ∧
      ks.Pairwise (fun a b => a < b)) ∧
    (∀ rf sf fuel out, iterList rf sf fuel st345 = .ok out →
      (out.1.map Prod.fst).Pairwise (fun a b => a < b)) :=
  c4_sorted_invariant
    (Reach.insertStep (Reach.insertStep (Reach.insertStep (Reach.init 1)
      (rfl : insertE 50 500 st0 3 30 =
        .ok ((insStep st0 3 30).1, doInsert st0 3 30)))
      (rfl : insertE 50 500 (doInsert st0 3 30) 4 40 =
        .ok ((insStep (doInsert st0 3 30) 4 40).1,
          doInsert (doInsert st0 3 30) 4 40)))
      (rfl : insertE 50 500 (doInsert (doInsert st0 3 30) 4 40) 5 50 =
        .ok ((insStep (doInsert (doInsert st0 3 30) 4 40) 5 50).1,
          doInsert (doInsert (doInsert st0 3 30) 4 40) 5 50)))


/-- Witness for C9 on the concrete list built by inserting 3, 5, 1, 4, 2. -/
theorem c9_witness :
    intoIterAll ([0, 1, 2, 3, 4].length + 1) st35142 =
      .ok ([(1, 1), (2, 2), (3, 3), (4, 4), (5, 5)],
        [2, 4, 0, 3, 1], (intoIterFromList st35142).2) ∧
    (([((1 : Nat), (1 : Nat)), (2, 2), (3, 3), (4, 4), (5, 5)].map
        Prod.fst).Pairwise (· < ·)) :=
  ⟨(c9_into_iter_amended.1 Nat Nat inferInstance st35142 [2, 4, 0, 3, 1]
      [(1, 1), (2, 2), (3, 3), (4, 4), (5, 5)] (by decide) (by decide)
      (by decide)).1,
   (c9_into_iter_amended.1 Nat Nat inferInstance st35142 [2, 4, 0, 3, 1]
      [(1, 1), (2, 2), (3, 3), (4, 4), (5, 5)] (by decide) (by decide)
      (by decide)).2.1⟩

end Skiplist
